import Mathlib

/-!
Verification of the Knights-and-Knaves puzzle generator and solver
(src/Puzzle_Generator.py) against its natural-language specification.

Modelling conventions:
* Python objects are modelled by records carrying a fresh numeric `id`
  (allocated by the generation monad), so Python identity (`is`, and the
  default `==` used by `in`) becomes decidable equality of records.
* Islander display names are mutable state in Python; they are modelled as
  an association list from islander id to name stored in the puzzle record,
  so a rename changes only that table, exactly as a Python attribute write
  changes only the object, never the membership of identity-based lists.
* All randomness (random.randrange, random.choice, random.shuffle) is drawn
  from an arbitrary stream `Nat -> Nat`; `random_int n` reads the next
  stream value modulo `n`.  Every concrete run of the Python code
  corresponds to some stream, and the theorems quantify over all streams.
  `random.shuffle` is Fisher-Yates, modelled step for step.
* Statement flavour text is built at creation from a random phrasing and is
  never read by any algorithm; the model records the statement kind and
  consumes the phrasing draw, but does not store the text string.
* The recursions `all_reachable` and `connected_sets` and the solver's
  pass-2 `while` loop have no structural termination measure in Python;
  they are modelled with an explicit fuel parameter, and lemmas below show
  the chosen fuel is large enough that the fuel-exhaustion branch is never
  taken in the situations the claims speak about (for the solver loop this
  is exactly the termination question, settled separately).
-/

/-- Alignment of an islander: the Python classes Knight and Knave. -/
inductive Align : Type where
  | knight : Align
  | knave : Align
deriving DecidableEq, Repr

/-- An islander object: identity (Python object identity) plus fixed
alignment.  The display name lives in the owning puzzle's name table. -/
structure Islander : Type where
  id : Nat
  align : Align
deriving DecidableEq, Repr

/-- The five Python Statement subclasses (Accusation, Affirmation, Same,
Different, Disjoint, Joint) as a kind tag. -/
inductive StmtKind : Type where
  | accusation : StmtKind
  | affirmation : StmtKind
  | same : StmtKind
  | different : StmtKind
  | disjoint : StmtKind
  | joint : StmtKind
deriving DecidableEq, Repr

/-- A statement object: identity, the source and target islanders and the
kind.  Flavour text is not recorded (see module comment). -/
structure Stmt : Type where
  sid : Nat
  source : Islander
  target : Islander
  kind : StmtKind
deriving DecidableEq, Repr

/-- Placeholder islander used to totalise Python operations that would
raise on an empty list; all uses are guarded by nonemptiness lemmas. -/
def dummyIslander : Islander := ⟨0, Align.knave⟩

/-- Kind test for the Python `isinstance(stmt, TypeStatement)` check:
Accusation and Affirmation are the TypeStatement subclasses. -/
def Stmt.isType (s : Stmt) : Bool :=
  s.kind = StmtKind.accusation ∨ s.kind = StmtKind.affirmation

-- ──────────────────── list utilities from the source ────────────────────

/-- Python `add_unique`: append an element if not already present. -/
def add_unique {α : Type} [DecidableEq α] (l : List α) (e : α) : List α :=
  if e ∈ l then l else l ++ [e]

/-- Python `add_all_unique`: fold `add_unique` over the second list. -/
def add_all_unique {α : Type} [DecidableEq α] (a b : List α) : List α :=
  b.foldl (fun acc x => add_unique acc x) a

/-- Python `arrays_equivalent`: same length and the first list is contained
in the second. -/
def arrays_equivalent {α : Type} [DecidableEq α] (a b : List α) : Prop :=
  a.length = b.length ∧ ∀ x ∈ a, x ∈ b

instance {α : Type} [DecidableEq α] (a b : List α) :
    Decidable (arrays_equivalent a b) := by
  unfold arrays_equivalent; infer_instance

theorem add_unique_mem {α : Type} [DecidableEq α] (l : List α) (e : α) :
    ∀ x, x ∈ add_unique l e ↔ x ∈ l ∨ x = e := by
  intro x
  unfold add_unique
  by_cases h : e ∈ l
  · rw [if_pos h]
    constructor
    · exact Or.inl
    · rintro (hx | rfl) <;> [exact hx; exact h]
  · rw [if_neg h]; simp

theorem add_unique_sup {α : Type} [DecidableEq α] (l : List α) (e : α) :
    ∀ x ∈ l, x ∈ add_unique l e := by
  intro x hx; exact (add_unique_mem l e x).2 (Or.inl hx)

theorem add_unique_self {α : Type} [DecidableEq α] (l : List α) (e : α) :
    e ∈ add_unique l e :=
  (add_unique_mem l e e).2 (Or.inr rfl)

theorem add_unique_nodup {α : Type} [DecidableEq α] (l : List α) (e : α)
    (h : l.Nodup) : (add_unique l e).Nodup := by
  unfold add_unique
  by_cases he : e ∈ l
  · rw [if_pos he]; exact h
  · rw [if_neg he]
    refine List.Nodup.append h (List.nodup_singleton e) ?_
    intro a ha hae
    rw [List.mem_singleton] at hae
    exact he (hae ▸ ha)

theorem add_all_unique_mem {α : Type} [DecidableEq α] (a b : List α) :
    ∀ x, x ∈ add_all_unique a b ↔ x ∈ a ∨ x ∈ b := by
  induction b generalizing a with
  | nil => intro x; simp [add_all_unique]
  | cons y ys ih =>
      intro x
      show x ∈ add_all_unique (add_unique a y) ys ↔ _
      rw [ih]
      rw [add_unique_mem]
      constructor
      · rintro ((hx | rfl) | hx)
        · exact Or.inl hx
        · exact Or.inr (List.mem_cons_self _ _)
        · exact Or.inr (List.mem_cons_of_mem _ hx)
      · rintro (hx | hx)
        · exact Or.inl (Or.inl hx)
        · rcases List.mem_cons.1 hx with rfl | hx
          · exact Or.inl (Or.inr rfl)
          · exact Or.inr hx

theorem add_all_unique_nodup {α : Type} [DecidableEq α] (a b : List α)
    (h : a.Nodup) : (add_all_unique a b).Nodup := by
  induction b generalizing a with
  | nil => exact h
  | cons y ys ih => exact ih (add_unique a y) (add_unique_nodup a y h)

theorem add_all_unique_of_nodup_disjoint {α : Type} [DecidableEq α]
    (a b : List α) (hb : b.Nodup) (hd : ∀ x ∈ b, x ∉ a) :
    add_all_unique a b = a ++ b := by
  induction b generalizing a with
  | nil => simp [add_all_unique]
  | cons y ys ih =>
      show add_all_unique (add_unique a y) ys = _
      have hy : y ∉ a := hd y (List.mem_cons_self _ _)
      have h1 : add_unique a y = a ++ [y] := by simp [add_unique, hy]
      rw [h1, ih (a ++ [y]) hb.of_cons]
      · simp
      · intro x hx
        simp only [List.mem_append, List.mem_singleton]
        rintro (hxa | rfl)
        · exact hd x (List.mem_cons_of_mem _ hx) hxa
        · exact (List.nodup_cons.1 hb).1 hx

theorem add_all_unique_nil_left {α : Type} [DecidableEq α] (b : List α)
    (hb : b.Nodup) : add_all_unique [] b = b := by
  have := add_all_unique_of_nodup_disjoint [] b hb (by intro x _; simp)
  simpa using this

-- ───────────────── generation monad (stream of randomness) ─────────────────

/-- State of a generation run: position in the random stream and the next
fresh object id (modelling Python object allocation). -/
structure GSt : Type where
  ri : Nat
  fid : Nat
deriving Repr

/-- Generation monad: a computation reading an arbitrary random stream. -/
def Gen (α : Type) : Type := (Nat → Nat) → GSt → α × GSt

instance : Monad Gen where
  pure a := fun _ s => (a, s)
  bind m f := fun r s =>
    let p := m r s
    f p.1 r p.2

/-- Run a generation computation on a stream from a starting state. -/
def Gen.run {α : Type} (m : Gen α) (r : Nat → Nat) (s : GSt) : α × GSt := m r s

/-- Read the next raw value of the random stream. -/
def drawRand : Gen Nat := fun r s => (r s.ri, ⟨s.ri + 1, s.fid⟩)

/-- Allocate a fresh object id. -/
def freshId : Gen Nat := fun _ s => (s.fid, ⟨s.ri, s.fid + 1⟩)

/-- Python `random_int(n)`: a value in `[0, n)` (for `n > 0`). -/
def random_int (n : Nat) : Gen Nat := do
  let v ← drawRand
  pure (v % n)

/-- Python `random_range(lo, hi)`: a value in `[lo, hi]` (for `lo ≤ hi`). -/
def random_range (lo hi : Nat) : Gen Nat := do
  let v ← drawRand
  pure (lo + v % (hi + 1 - lo))

/-- Python `random_element(lst)`: a random element (default for `[]`,
where Python would raise). -/
def random_element {α : Type} (l : List α) (d : α) : Gen α := do
  let i ← random_int l.length
  pure (l.getD i d)

/-- Swap two positions of a list (helper for Fisher-Yates). -/
def swapL {α : Type} (l : List α) (i j : Nat) : List α :=
  match l[i]?, l[j]? with
  | some a, some b => (l.set i b).set j a
  | _, _ => l

/-- Descending Fisher-Yates loop of `random.shuffle`: the argument is the
current swap position. -/
def shuffleGo {α : Type} (l : List α) : Nat → Gen (List α)
  | 0 => pure l
  | i + 1 => do
      let j ← random_int (i + 2)
      shuffleGo (swapL l (i + 1) j) i

/-- Python `shuffle` (random.shuffle, Fisher-Yates). -/
def shuffle {α : Type} (l : List α) : Gen (List α) :=
  shuffleGo l (l.length - 1)

@[simp] theorem Gen_bind_apply {α β : Type} (m : Gen α) (f : α → Gen β)
    (r : Nat → Nat) (s : GSt) : (m >>= f) r s = f (m r s).1 r (m r s).2 := rfl

@[simp] theorem Gen_pure_apply {α : Type} (a : α) (r : Nat → Nat) (s : GSt) :
    (pure a : Gen α) r s = (a, s) := rfl

@[simp] theorem drawRand_apply (r : Nat → Nat) (s : GSt) :
    drawRand r s = (r s.ri, ⟨s.ri + 1, s.fid⟩) := rfl

@[simp] theorem freshId_apply (r : Nat → Nat) (s : GSt) :
    freshId r s = (s.fid, ⟨s.ri, s.fid + 1⟩) := rfl

@[simp] theorem random_int_apply (n : Nat) (r : Nat → Nat) (s : GSt) :
    random_int n r s = (r s.ri % n, ⟨s.ri + 1, s.fid⟩) := rfl

@[simp] theorem random_range_apply (lo hi : Nat) (r : Nat → Nat) (s : GSt) :
    random_range lo hi r s = (lo + r s.ri % (hi + 1 - lo), ⟨s.ri + 1, s.fid⟩) := rfl

@[simp] theorem random_element_apply {α : Type} (l : List α) (d : α)
    (r : Nat → Nat) (s : GSt) :
    random_element l d r s = (l.getD (r s.ri % l.length) d, ⟨s.ri + 1, s.fid⟩) := rfl

theorem random_element_mem {α : Type} (l : List α) (d : α)
    (r : Nat → Nat) (s : GSt) (h : l ≠ []) : (random_element l d r s).1 ∈ l := by
  simp only [random_element_apply]
  have hl : 0 < l.length := List.length_pos.2 h
  have : r s.ri % l.length < l.length := Nat.mod_lt _ hl
  rw [List.getD_eq_getElem l d this]
  exact List.getElem_mem this

theorem set_own_value {α : Type} : ∀ (l : List α) (i : Nat) (a : α),
    l[i]? = some a → l.set i a = l := by
  intro l
  induction l with
  | nil => intro i a h; simp at h
  | cons c t ih =>
      intro i a h
      cases i with
      | zero => simp at h; simp [h]
      | succ m => simp at h; simp [ih m a h]

theorem cons_set_perm {α : Type} : ∀ (t : List α) (k : Nat) (a b : α),
    t[k]? = some b → List.Perm (b :: t.set k a) (a :: t) := by
  intro t
  induction t with
  | nil => intro k a b h; simp at h
  | cons c t2 ih =>
      intro k a b h
      cases k with
      | zero =>
          simp at h
          subst h
          simp only [List.set_cons_zero]
          exact List.Perm.swap a c t2
      | succ m =>
          simp at h
          simp only [List.set_cons_succ]
          have h1 : List.Perm (b :: c :: t2.set m a) (c :: b :: t2.set m a) :=
            List.Perm.swap c b _
          have h2 : List.Perm (c :: b :: t2.set m a) (c :: a :: t2) :=
            List.Perm.cons c (ih m a b h)
          have h3 : List.Perm (c :: a :: t2) (a :: c :: t2) := List.Perm.swap a c t2
          exact (h1.trans h2).trans h3

theorem swap_sets_perm {α : Type} : ∀ (l : List α) (i j : Nat) (a b : α),
    i < j → l[i]? = some a → l[j]? = some b →
    List.Perm ((l.set i b).set j a) l := by
  intro l
  induction l with
  | nil => intro i j a b _ hi _; simp at hi
  | cons c t ih =>
      intro i j a b hij hi hj
      cases i with
      | zero =>
          simp at hi
          subst hi
          obtain ⟨k, rfl⟩ : ∃ k, j = k + 1 := ⟨j - 1, by omega⟩
          simp only [List.set_cons_zero, List.set_cons_succ]
          simp at hj
          exact cons_set_perm t k c b hj
      | succ m =>
          obtain ⟨k, rfl⟩ : ∃ k, j = k + 1 := ⟨j - 1, by omega⟩
          simp only [List.set_cons_succ]
          simp at hi hj
          exact List.Perm.cons c (ih m k a b (by omega) hi hj)

theorem swapL_perm {α : Type} (l : List α) (i j : Nat) :
    List.Perm (swapL l i j) l := by
  unfold swapL
  cases hi : l[i]? with
  | none => exact List.Perm.refl l
  | some a =>
      cases hj : l[j]? with
      | none => exact List.Perm.refl l
      | some b =>
          show List.Perm ((l.set i b).set j a) l
          rcases lt_trichotomy i j with h | h | h
          · exact swap_sets_perm l i j a b h hi hj
          · subst h
            rw [hi] at hj
            cases hj
            rw [List.set_set, set_own_value l i a hi]
          · rw [List.set_comm _ _ _ (by omega : i ≠ j)]
            exact swap_sets_perm l j i b a h hj hi

theorem shuffleGo_perm {α : Type} :
    ∀ (n : Nat) (l : List α) (r : Nat → Nat) (s : GSt),
    List.Perm ((shuffleGo l n) r s).1 l := by
  intro n
  induction n with
  | zero => intro l r s; exact List.Perm.refl l
  | succ m ih =>
      intro l r s
      show List.Perm ((random_int (m + 2) >>= fun j =>
        shuffleGo (swapL l (m + 1) j) m) r s).1 l
      rw [Gen_bind_apply]
      exact (ih _ r _).trans (swapL_perm l (m + 1) _)

theorem shuffle_perm {α : Type} (l : List α) (r : Nat → Nat) (s : GSt) :
    List.Perm ((shuffle l) r s).1 l :=
  shuffleGo_perm (l.length - 1) l r s

theorem shuffleGo_state {α : Type} :
    ∀ (n : Nat) (l : List α) (r : Nat → Nat) (s : GSt),
    ((shuffleGo l n) r s).2.fid = s.fid := by
  intro n
  induction n with
  | zero => intro l r s; rfl
  | succ m ih =>
      intro l r s
      show ((random_int (m + 2) >>= fun j =>
        shuffleGo (swapL l (m + 1) j) m) r s).2.fid = _
      rw [Gen_bind_apply]
      exact ih _ r _

theorem shuffle_state {α : Type} (l : List α) (r : Nat → Nat) (s : GSt) :
    ((shuffle l) r s).2.fid = s.fid :=
  shuffleGo_state (l.length - 1) l r s

-- ──────────────────────── graph utilities ────────────────────────

/-- Python `all_sources_and_targets`: the islander itself followed by, per
statement in order, the other endpoint of every statement touching it. -/
def all_sources_and_targets (islander : Islander) (stmts : List Stmt) :
    List Islander :=
  islander :: stmts.foldr (fun s acc =>
    (if s.source = islander then [s.target] else []) ++
    (if s.target = islander then [s.source] else []) ++ acc) []

/-- Python `all_reachable`, with explicit fuel replacing the unbounded
recursion.  Python manipulates hash sets whose iteration order is
unspecified; the model fixes insertion order (every property proved below
is order-invariant, so this choice is immaterial). -/
def all_reachable : Nat → Islander → List Stmt → List Islander → List Islander
  | 0, _, _, seen => seen
  | fuel + 1, islander, stmts, seen =>
    let reach := add_all_unique seen (all_sources_and_targets islander stmts)
    if ∀ x ∈ reach, x ∈ seen then seen
    else reach.foldl
      (fun out nbr => add_all_unique out (all_reachable fuel nbr stmts reach))
      reach

/-- Fuel that always suffices for `all_reachable` from an empty seen list
(shown in `all_reachable_top_spec`). -/
def arFuel (stmts : List Stmt) : Nat := 2 * stmts.length + 2

/-- Python `connected_sets`, with explicit fuel; the `[]` arm models the
IndexError Python would raise on an empty worklist (never reached under the
preconditions established below). -/
def connected_setsF :
    Nat → List Islander → List Islander → List Stmt →
    List (List Islander) → List Islander → List (List Islander)
  | 0, _, _, _, sets, _ => sets
  | fuel + 1, islanders, all_islanders, stmts, sets, seen =>
    match islanders with
    | [] => sets
    | x :: _ =>
      let comp := all_reachable (arFuel stmts) x stmts []
      let sets2 := sets ++ [comp]
      let seen2 := seen ++ comp
      if arrays_equivalent all_islanders seen2 then sets2
      else connected_setsF fuel (islanders.filter (fun y => decide (y ∉ seen2)))
        all_islanders stmts sets2 seen2

/-- Python `connected_sets` entry point (fuel `length + 1` always suffices,
as the worklist strictly shrinks each round). -/
def connected_sets (islanders all_islanders : List Islander)
    (stmts : List Stmt) : List (List Islander) :=
  connected_setsF (islanders.length + 1) islanders all_islanders stmts [] []

/-- Python `prune_statements`: collect every statement that has a reciprocal
partner, then keep the statements not collected. -/
def prune_statements (stmts : List Stmt) : List Stmt :=
  let extras := stmts.flatMap (fun s => stmts.filter (fun t =>
    decide (t ≠ s ∧ t.source = s.target ∧ t.target = s.source)))
  stmts.filter (fun s => decide (s ∉ extras))

/-- Python `remove_statement_with`: drop the first statement whose two
endpoints are among `{a, b}` (dropping all identity-equal occurrences,
matching the Python list comprehension over `is not`). -/
def remove_statement_with (a b : Islander) (stmts : List Stmt) : List Stmt :=
  match stmts.find? (fun s =>
    decide ((s.source = a ∨ s.source = b) ∧ (s.target = a ∨ s.target = b))) with
  | some s₀ => stmts.filter (fun x => decide (x ≠ s₀))
  | none => stmts

-- ─────────────────── reachability relation and lemmas ───────────────────

/-- Two islanders are joined by a statement edge (in either direction). -/
def stmtEdge (stmts : List Stmt) (a b : Islander) : Prop :=
  ∃ s ∈ stmts, (s.source = a ∧ s.target = b) ∨ (s.source = b ∧ s.target = a)

/-- Transitive reachability along statement edges. -/
def Reach (stmts : List Stmt) : Islander → Islander → Prop :=
  Relation.ReflTransGen (stmtEdge stmts)

/-- Both endpoints of every statement, in statement order. -/
def endpoints (stmts : List Stmt) : List Islander :=
  stmts.flatMap (fun s => [s.source, s.target])

theorem stmtEdge_symm {stmts : List Stmt} {a b : Islander}
    (h : stmtEdge stmts a b) : stmtEdge stmts b a := by
  obtain ⟨s, hs, h⟩ := h
  exact ⟨s, hs, h.symm⟩

theorem Reach.refl {stmts : List Stmt} (a : Islander) : Reach stmts a a :=
  Relation.ReflTransGen.refl

theorem Reach.trans {stmts : List Stmt} {a b c : Islander}
    (h1 : Reach stmts a b) (h2 : Reach stmts b c) : Reach stmts a c :=
  Relation.ReflTransGen.trans h1 h2

theorem Reach.single {stmts : List Stmt} {a b : Islander}
    (h : stmtEdge stmts a b) : Reach stmts a b :=
  Relation.ReflTransGen.single h

theorem Reach.symm {stmts : List Stmt} {a b : Islander}
    (h : Reach stmts a b) : Reach stmts b a :=
  Relation.ReflTransGen.symmetric (fun _ _ he => stmtEdge_symm he) h

theorem stmtEdge_mono {S T : List Stmt} (hsub : ∀ s ∈ S, s ∈ T)
    {a b : Islander} (h : stmtEdge S a b) : stmtEdge T a b := by
  obtain ⟨s, hs, h⟩ := h
  exact ⟨s, hsub s hs, h⟩

theorem Reach_mono {S T : List Stmt} (hsub : ∀ s ∈ S, s ∈ T)
    {a b : Islander} (h : Reach S a b) : Reach T a b :=
  Relation.ReflTransGen.mono (fun _ _ he => stmtEdge_mono hsub he) h

theorem mem_endpoints_left {stmts : List Stmt} {s : Stmt} (hs : s ∈ stmts) :
    s.source ∈ endpoints stmts := by
  unfold endpoints
  rw [List.mem_flatMap]
  exact ⟨s, hs, by simp⟩

theorem mem_endpoints_right {stmts : List Stmt} {s : Stmt} (hs : s ∈ stmts) :
    s.target ∈ endpoints stmts := by
  unfold endpoints
  rw [List.mem_flatMap]
  exact ⟨s, hs, by simp⟩

theorem stmtEdge_endpoints {stmts : List Stmt} {a b : Islander}
    (h : stmtEdge stmts a b) : b ∈ endpoints stmts := by
  obtain ⟨s, hs, h | h⟩ := h
  · exact h.2 ▸ mem_endpoints_right hs
  · exact h.1 ▸ mem_endpoints_left hs

theorem Reach_cases {stmts : List Stmt} {a b : Islander}
    (h : Reach stmts a b) : b = a ∨ b ∈ endpoints stmts := by
  induction h with
  | refl => exact Or.inl rfl
  | tail _ he _ => exact Or.inr (stmtEdge_endpoints he)

theorem mem_ast_iff (x : Islander) (stmts : List Stmt) (y : Islander) :
    y ∈ all_sources_and_targets x stmts ↔ y = x ∨ stmtEdge stmts x y := by
  unfold all_sources_and_targets
  rw [List.mem_cons]
  have : y ∈ stmts.foldr (fun s acc =>
      (if s.source = x then [s.target] else []) ++
      (if s.target = x then [s.source] else []) ++ acc) [] ↔
      stmtEdge stmts x y := by
    induction stmts with
    | nil => simp [stmtEdge]
    | cons s rest ih =>
        simp only [List.foldr_cons, List.mem_append, ih, stmtEdge,
          List.mem_cons]
        constructor
        · rintro ((h | h) | ⟨t, ht, h⟩)
          · by_cases h1 : s.source = x
            · rw [if_pos h1] at h
              rw [List.mem_singleton] at h
              exact ⟨s, Or.inl rfl, Or.inl ⟨h1, h.symm⟩⟩
            · rw [if_neg h1] at h
              simp at h
          · by_cases h1 : s.target = x
            · rw [if_pos h1] at h
              rw [List.mem_singleton] at h
              exact ⟨s, Or.inl rfl, Or.inr ⟨h.symm, h1⟩⟩
            · rw [if_neg h1] at h
              simp at h
          · exact ⟨t, Or.inr ht, h⟩
        · rintro ⟨t, rfl | ht, h⟩
          · rcases h with ⟨h1, h2⟩ | ⟨h1, h2⟩
            · exact Or.inl (Or.inl (by rw [if_pos h1]; simp [h2.symm]))
            · exact Or.inl (Or.inr (by rw [if_pos h2]; simp [h1.symm]))
          · exact Or.inr ⟨t, ht, h⟩
  rw [this]

theorem add_all_unique_of_subset {α : Type} [DecidableEq α] :
    ∀ (b a : List α), (∀ x ∈ b, x ∈ a) → add_all_unique a b = a := by
  intro b
  induction b with
  | nil => intro a _; rfl
  | cons y ys ih =>
      intro a h
      show add_all_unique (add_unique a y) ys = a
      have hy : y ∈ a := h y (List.mem_cons_self _ _)
      have h1 : add_unique a y = a := by simp [add_unique, hy]
      rw [h1]
      exact ih a (fun x hx => h x (List.mem_cons_of_mem _ hx))

theorem foldl_addall_mem {α β : Type} [DecidableEq β] (g : α → List β) :
    ∀ (L : List α) (init : List β) (y : β),
    y ∈ L.foldl (fun out n => add_all_unique out (g n)) init ↔
      y ∈ init ∨ ∃ n ∈ L, y ∈ g n := by
  intro L
  induction L with
  | nil => intro init y; simp
  | cons n ns ih =>
      intro init y
      show y ∈ ns.foldl _ (add_all_unique init (g n)) ↔ _
      rw [ih, add_all_unique_mem]
      constructor
      · rintro ((hy | hy) | ⟨m, hm, hy⟩)
        · exact Or.inl hy
        · exact Or.inr ⟨n, List.mem_cons_self _ _, hy⟩
        · exact Or.inr ⟨m, List.mem_cons_of_mem _ hm, hy⟩
      · rintro (hy | ⟨m, hm, hy⟩)
        · exact Or.inl (Or.inl hy)
        · rcases List.mem_cons.1 hm with rfl | hm
          · exact Or.inl (Or.inr hy)
          · exact Or.inr ⟨m, hm, hy⟩

theorem foldl_addall_nodup {α β : Type} [DecidableEq β] (g : α → List β) :
    ∀ (L : List α) (init : List β), init.Nodup →
    (L.foldl (fun out n => add_all_unique out (g n)) init).Nodup := by
  intro L
  induction L with
  | nil => intro init h; exact h
  | cons n ns ih =>
      intro init h
      exact ih (add_all_unique init (g n)) (add_all_unique_nodup _ _ h)

/-- Number of statement endpoints not yet absorbed into `reach`; the
termination measure of `all_reachable`. -/
def countMissing (stmts : List Stmt) (reach : List Islander) : Nat :=
  ((endpoints stmts).dedup.filter (fun y => decide (y ∉ reach))).length

theorem countMissing_lt (stmts : List Stmt) (reach reach2 : List Islander)
    (hsub : ∀ y ∈ reach, y ∈ reach2) (z : Islander)
    (hz1 : z ∈ endpoints stmts) (hz2 : z ∈ reach2) (hz3 : z ∉ reach) :
    countMissing stmts reach2 < countMissing stmts reach := by
  unfold countMissing
  have hmono : List.Sublist
      ((endpoints stmts).dedup.filter (fun y => decide (y ∉ reach2)))
      ((endpoints stmts).dedup.filter (fun y => decide (y ∉ reach))) := by
    apply List.monotone_filter_right
    intro a ha
    rw [decide_eq_true_eq] at *
    exact fun hc => ha (hsub a hc)
  refine Nat.lt_of_le_of_ne hmono.length_le (fun heq => ?_)
  have : (endpoints stmts).dedup.filter (fun y => decide (y ∉ reach2)) =
      (endpoints stmts).dedup.filter (fun y => decide (y ∉ reach)) :=
    hmono.eq_of_length heq
  have hz : z ∈ (endpoints stmts).dedup.filter (fun y => decide (y ∉ reach)) := by
    rw [List.mem_filter]
    exact ⟨List.mem_dedup.2 hz1, by rw [decide_eq_true_eq]; exact hz3⟩
  rw [← this, List.mem_filter] at hz
  rw [decide_eq_true_eq] at hz
  exact hz.2 hz2

theorem Reach_closed {stmts : List Stmt} {R : List Islander}
    (hcl : ∀ a ∈ R, ∀ z, stmtEdge stmts a z → z ∈ R) {x y : Islander}
    (hx : x ∈ R) (h : Reach stmts x y) : y ∈ R := by
  induction h with
  | refl => exact hx
  | tail _ he ih => exact hcl _ ih _ he

theorem endpoints_length (stmts : List Stmt) :
    (endpoints stmts).length = 2 * stmts.length := by
  induction stmts with
  | nil => rfl
  | cons s rest ih =>
      show ([s.source, s.target] ++ endpoints rest).length = _
      rw [List.length_append, ih]
      simp
      omega

theorem countMissing_le_fuel (stmts : List Stmt) (reach : List Islander) :
    countMissing stmts reach ≤ 2 * stmts.length := by
  unfold countMissing
  have h1 : ((endpoints stmts).dedup.filter
      (fun y => decide (y ∉ reach))).length ≤ (endpoints stmts).dedup.length :=
    (List.filter_sublist _).length_le
  have h2 : (endpoints stmts).dedup.length ≤ (endpoints stmts).length :=
    (List.dedup_sublist _).length_le
  have h3 : (endpoints stmts).length = 2 * stmts.length := endpoints_length stmts
  omega

theorem all_reachable_spec :
    ∀ (fuel : Nat) (stmts : List Stmt) (reach : List Islander),
    countMissing stmts reach ≤ fuel →
    ∀ y, y ∈ reach.foldl
      (fun out nbr => add_all_unique out (all_reachable fuel nbr stmts reach))
      reach ↔ ∃ x ∈ reach, Reach stmts x y := by
  intro fuel
  induction fuel with
  | zero =>
      intro stmts reach hm y
      have hclosed : ∀ a ∈ reach, ∀ z, stmtEdge stmts a z → z ∈ reach := by
        intro a _ z hedge
        by_contra hz
        have hz1 : z ∈ endpoints stmts := stmtEdge_endpoints hedge
        have : z ∈ (endpoints stmts).dedup.filter
            (fun y => decide (y ∉ reach)) := by
          rw [List.mem_filter]
          exact ⟨List.mem_dedup.2 hz1, by rw [decide_eq_true_eq]; exact hz⟩
        have h0 : ((endpoints stmts).dedup.filter
            (fun y => decide (y ∉ reach))).length = 0 := Nat.le_zero.1 hm
        rw [List.length_eq_zero] at h0
        rw [h0] at this
        simp at this
      rw [foldl_addall_mem]
      constructor
      · rintro (hy | ⟨nbr, _, hy⟩)
        · exact ⟨y, hy, Reach.refl y⟩
        · exact ⟨y, hy, Reach.refl y⟩
      · rintro ⟨x, hx, hr⟩
        exact Or.inl (Reach_closed hclosed hx hr)
  | succ f ih =>
      intro stmts reach hm y
      rw [foldl_addall_mem]
      have expand : ∀ nbr : Islander, all_reachable (f + 1) nbr stmts reach =
          (if ∀ x ∈ add_all_unique reach (all_sources_and_targets nbr stmts),
              x ∈ reach then reach
           else (add_all_unique reach (all_sources_and_targets nbr stmts)).foldl
             (fun out n => add_all_unique out (all_reachable f n stmts
               (add_all_unique reach (all_sources_and_targets nbr stmts))))
             (add_all_unique reach (all_sources_and_targets nbr stmts))) := by
        intro nbr; rfl
      have missing2 : ∀ nbr : Islander,
          ¬ (∀ x ∈ add_all_unique reach (all_sources_and_targets nbr stmts),
            x ∈ reach) → nbr ∈ reach →
          countMissing stmts
            (add_all_unique reach (all_sources_and_targets nbr stmts)) ≤ f := by
        intro nbr hcond hnbr
        push_neg at hcond
        obtain ⟨w, hw1, hw2⟩ := hcond
        have hw3 : w ∈ all_sources_and_targets nbr stmts := by
          rcases (add_all_unique_mem _ _ w).1 hw1 with h | h
          · exact absurd h hw2
          · exact h
        have hedge : stmtEdge stmts nbr w := by
          rcases (mem_ast_iff nbr stmts w).1 hw3 with rfl | h
          · exact absurd hnbr hw2
          · exact h
        have := countMissing_lt stmts reach
          (add_all_unique reach (all_sources_and_targets nbr stmts))
          (fun z hz => (add_all_unique_mem _ _ z).2 (Or.inl hz)) w
          (stmtEdge_endpoints hedge) hw1 hw2
        omega
      constructor
      · rintro (hy | ⟨nbr, hnbr, hy⟩)
        · exact ⟨y, hy, Reach.refl y⟩
        · rw [expand nbr] at hy
          by_cases hcond : ∀ x ∈ add_all_unique reach
              (all_sources_and_targets nbr stmts), x ∈ reach
          · rw [if_pos hcond] at hy
            exact ⟨y, hy, Reach.refl y⟩
          · rw [if_neg hcond] at hy
            rw [ih stmts _ (missing2 nbr hcond hnbr) y] at hy
            obtain ⟨x, hx, hr⟩ := hy
            rcases (add_all_unique_mem _ _ x).1 hx with hx2 | hx2
            · exact ⟨x, hx2, hr⟩
            · rcases (mem_ast_iff nbr stmts x).1 hx2 with rfl | hedge
              · exact ⟨x, hnbr, hr⟩
              · exact ⟨nbr, hnbr, (Reach.single hedge).trans hr⟩
      · rintro ⟨x, hx, hr⟩
        by_cases hcl : ∀ a ∈ reach, ∀ z, stmtEdge stmts a z → z ∈ reach
        · exact Or.inl (Reach_closed hcl hx hr)
        · push_neg at hcl
          obtain ⟨a, ha, z, hedge, hz⟩ := hcl
          have hcond : ¬ (∀ w ∈ add_all_unique reach
              (all_sources_and_targets a stmts), w ∈ reach) := by
            intro hall
            apply hz
            apply hall
            apply (add_all_unique_mem _ _ z).2
            exact Or.inr ((mem_ast_iff a stmts z).2 (Or.inr hedge))
          refine Or.inr ⟨a, ha, ?_⟩
          rw [expand a, if_neg hcond]
          rw [ih stmts _ (missing2 a hcond ha) y]
          exact ⟨x, (add_all_unique_mem _ _ x).2 (Or.inl hx), hr⟩

theorem all_reachable_top_mem (stmts : List Stmt) (x : Islander) :
    ∀ y, y ∈ all_reachable (arFuel stmts) x stmts [] ↔ Reach stmts x y := by
  intro y
  have hx : x ∈ add_all_unique [] (all_sources_and_targets x stmts) :=
    (add_all_unique_mem _ _ x).2 (Or.inr ((mem_ast_iff x stmts x).2 (Or.inl rfl)))
  have hcond : ¬ (∀ w ∈ add_all_unique ([] : List Islander)
      (all_sources_and_targets x stmts), w ∈ ([] : List Islander)) := by
    intro hall
    simpa using hall x hx
  have expand : all_reachable (arFuel stmts) x stmts [] =
      (add_all_unique [] (all_sources_and_targets x stmts)).foldl
        (fun out n => add_all_unique out (all_reachable (2 * stmts.length + 1)
          n stmts (add_all_unique [] (all_sources_and_targets x stmts))))
        (add_all_unique [] (all_sources_and_targets x stmts)) := by
    show (if ∀ w ∈ add_all_unique ([] : List Islander)
        (all_sources_and_targets x stmts), w ∈ ([] : List Islander) then
        ([] : List Islander) else _) = _
    rw [if_neg hcond]
  rw [expand]
  have hmiss : countMissing stmts
      (add_all_unique [] (all_sources_and_targets x stmts)) ≤
      2 * stmts.length + 1 := by
    have := countMissing_le_fuel stmts
      (add_all_unique [] (all_sources_and_targets x stmts))
    omega
  rw [all_reachable_spec (2 * stmts.length + 1) stmts _ hmiss y]
  constructor
  · rintro ⟨w, hw, hr⟩
    have hw2 : w ∈ all_sources_and_targets x stmts := by
      rcases (add_all_unique_mem _ _ w).1 hw with h | h
      · simp at h
      · exact h
    rcases (mem_ast_iff x stmts w).1 hw2 with rfl | hedge
    · exact hr
    · exact (Reach.single hedge).trans hr
  · intro hr
    exact ⟨x, hx, hr⟩

theorem all_reachable_top_nodup (stmts : List Stmt) (x : Islander) :
    (all_reachable (arFuel stmts) x stmts []).Nodup := by
  have hcond : ¬ (∀ w ∈ add_all_unique ([] : List Islander)
      (all_sources_and_targets x stmts), w ∈ ([] : List Islander)) := by
    intro hall
    have hx : x ∈ add_all_unique [] (all_sources_and_targets x stmts) :=
      (add_all_unique_mem _ _ x).2
        (Or.inr ((mem_ast_iff x stmts x).2 (Or.inl rfl)))
    simpa using hall x hx
  show (if ∀ w ∈ add_all_unique ([] : List Islander)
      (all_sources_and_targets x stmts), w ∈ ([] : List Islander) then
      ([] : List Islander) else _).Nodup
  rw [if_neg hcond]
  exact foldl_addall_nodup _ _ _
    (add_all_unique_nodup _ _ List.nodup_nil)

theorem all_reachable_top_self (stmts : List Stmt) (x : Islander) :
    x ∈ all_reachable (arFuel stmts) x stmts [] :=
  (all_reachable_top_mem stmts x x).2 (Reach.refl x)

theorem nodup_length_eq {α : Type} [DecidableEq α] (a b : List α)
    (ha : a.Nodup) (hb : b.Nodup) (h : ∀ x, x ∈ a ↔ x ∈ b) :
    a.length = b.length :=
  ((List.perm_ext_iff_of_nodup ha hb).2 h).length_eq

theorem connected_setsF_spec :
    ∀ (fuel : Nat) (islanders : List Islander) (all : List Islander)
      (stmts : List Stmt) (sets : List (List Islander)) (seen : List Islander),
    all.Nodup →
    (∀ y ∈ endpoints stmts, y ∈ all) →
    islanders.length < fuel →
    (∀ y ∈ seen, y ∈ all) →
    seen.Nodup →
    (∀ y ∈ all, y ∉ seen → y ∈ islanders) →
    (∀ y ∈ islanders, y ∈ all ∧ y ∉ seen) →
    (∀ comp ∈ sets, (comp ≠ [] ∧ ∀ y ∈ comp, y ∈ all) ∧
      (∀ y z : Islander, y ∈ comp → z ∈ comp → Reach stmts y z) ∧
      (∀ y ∈ comp, ∀ z, Reach stmts y z → z ∈ comp)) →
    (∀ y ∈ seen, ∃ comp ∈ sets, y ∈ comp) →
    (∀ comp ∈ sets, ∀ y ∈ comp, y ∈ seen) →
    (∀ comp ∈ connected_setsF fuel islanders all stmts sets seen,
        (comp ≠ [] ∧ ∀ y ∈ comp, y ∈ all) ∧
        (∀ y z : Islander, y ∈ comp → z ∈ comp → Reach stmts y z)) ∧
    (islanders ≠ [] →
      ∀ y ∈ all, ∃ comp ∈ connected_setsF fuel islanders all stmts sets seen,
        y ∈ comp) := by
  intro fuel
  induction fuel with
  | zero =>
      intro islanders all stmts sets seen _ _ hlt
      exact absurd hlt (Nat.not_lt_zero _)
  | succ f ih =>
      intro islanders all stmts sets seen hnodall hend hlt hseensub hseennd
        hcover hil hsets hseencmp hcmpseen
      cases islanders with
      | nil =>
          constructor
          · intro comp hcomp
            have := hsets comp hcomp
            exact ⟨this.1, this.2.1⟩
          · intro h; exact absurd rfl h
      | cons x rest =>
          have hx := hil x (List.mem_cons_self _ _)
          have compmem : ∀ y, y ∈ all_reachable (arFuel stmts) x stmts [] ↔
              Reach stmts x y := all_reachable_top_mem stmts x
          set comp := all_reachable (arFuel stmts) x stmts [] with hcompdef
          have hxcomp : x ∈ comp := (compmem x).2 (Reach.refl x)
          have hcompall : ∀ y ∈ comp, y ∈ all := by
            intro y hy
            rcases Reach_cases ((compmem y).1 hy) with rfl | hy2
            · exact hx.1
            · exact hend y hy2
          have hcompconn : ∀ y z : Islander, y ∈ comp → z ∈ comp →
              Reach stmts y z := by
            intro y z hy hz
            exact ((compmem y).1 hy).symm.trans ((compmem z).1 hz)
          have hcompclosed : ∀ y ∈ comp, ∀ z, Reach stmts y z → z ∈ comp := by
            intro y hy z hr
            exact (compmem z).2 (((compmem y).1 hy).trans hr)
          have hdisj : ∀ w ∈ comp, w ∉ seen := by
            intro w hw hwseen
            obtain ⟨c0, hc0, hwc0⟩ := hseencmp w hwseen
            have hclosed0 := (hsets c0 hc0).2.2
            have : x ∈ c0 := hclosed0 w hwc0 x ((compmem w).1 hw).symm
            exact hx.2 (hcmpseen c0 hc0 x this)
          have hseen2nd : (seen ++ comp).Nodup :=
            List.Nodup.append hseennd (all_reachable_top_nodup stmts x)
              (fun a ha hac => hdisj a hac ha)
          have hunfold : connected_setsF (f + 1) (x :: rest) all stmts sets seen
              = (if arrays_equivalent all (seen ++ comp) then sets ++ [comp]
                 else connected_setsF f
                   ((x :: rest).filter (fun y => decide (y ∉ seen ++ comp)))
                   all stmts (sets ++ [comp]) (seen ++ comp)) := rfl
          rw [hunfold]
          by_cases heq : arrays_equivalent all (seen ++ comp)
          · rw [if_pos heq]
            constructor
            · intro c hc
              rcases List.mem_append.1 hc with hc | hc
              · have := hsets c hc
                exact ⟨this.1, this.2.1⟩
              · rw [List.mem_singleton] at hc
                subst hc
                exact ⟨⟨fun hnil => by rw [hnil] at hxcomp; simp at hxcomp,
                  hcompall⟩, hcompconn⟩
            · intro _ y hy
              rcases List.mem_append.1 (heq.2 y hy) with hy2 | hy2
              · obtain ⟨c, hc, hyc⟩ := hseencmp y hy2
                exact ⟨c, List.mem_append_left _ hc, hyc⟩
              · exact ⟨comp, List.mem_append_right _ (List.mem_singleton_self _),
                  hy2⟩
          · rw [if_neg heq]
            have hnotall : ¬ (∀ y ∈ all, y ∈ seen ++ comp) := by
              intro hall
              apply heq
              refine ⟨?_, hall⟩
              apply nodup_length_eq all (seen ++ comp) hnodall hseen2nd
              intro w
              constructor
              · exact hall w
              · intro hw
                rcases List.mem_append.1 hw with hw | hw
                · exact hseensub w hw
                · exact hcompall w hw
            push_neg at hnotall
            obtain ⟨y0, hy0all, hy0notin⟩ := hnotall
            have hy0seen : y0 ∉ seen :=
              fun h => hy0notin (List.mem_append_left _ h)
            have hy0il : y0 ∈ x :: rest := hcover y0 hy0all hy0seen
            have hy0filter : y0 ∈ (x :: rest).filter
                (fun y => decide (y ∉ seen ++ comp)) := by
              rw [List.mem_filter, decide_eq_true_eq]
              exact ⟨hy0il, hy0notin⟩
            have hfiltersub : ∀ y ∈ (x :: rest).filter
                (fun y => decide (y ∉ seen ++ comp)), y ∈ x :: rest ∧
                y ∉ seen ++ comp := by
              intro y hy
              rw [List.mem_filter, decide_eq_true_eq] at hy
              exact hy
            have hlt2 : ((x :: rest).filter
                (fun y => decide (y ∉ seen ++ comp))).length < f := by
              have hxnot : (decide (x ∉ seen ++ comp)) = false := by
                rw [decide_eq_false_iff_not]
                intro hc
                exact hc (List.mem_append_right _ hxcomp)
              have : (x :: rest).filter (fun y => decide (y ∉ seen ++ comp)) =
                  rest.filter (fun y => decide (y ∉ seen ++ comp)) := by
                rw [List.filter_cons, hxnot]
                simp
              rw [this]
              have := (List.filter_sublist
                (p := fun y => decide (y ∉ seen ++ comp)) rest).length_le
              have hr : rest.length + 1 < f + 1 := by
                simpa using hlt
              omega
            have hmain := ih ((x :: rest).filter
                (fun y => decide (y ∉ seen ++ comp))) all stmts
              (sets ++ [comp]) (seen ++ comp) hnodall hend hlt2
              (by
                intro y hy
                rcases List.mem_append.1 hy with hy | hy
                · exact hseensub y hy
                · exact hcompall y hy)
              hseen2nd
              (by
                intro y hyall hynot
                rw [List.mem_filter, decide_eq_true_eq]
                refine ⟨hcover y hyall (fun h => hynot (List.mem_append_left _ h)),
                  hynot⟩)
              (by
                intro y hy
                obtain ⟨h1, h2⟩ := hfiltersub y hy
                exact ⟨(hil y h1).1, h2⟩)
              (by
                intro c hc
                rcases List.mem_append.1 hc with hc | hc
                · exact hsets c hc
                · rw [List.mem_singleton] at hc
                  subst hc
                  exact ⟨⟨fun hnil => by rw [hnil] at hxcomp; simp at hxcomp,
                    hcompall⟩, hcompconn, hcompclosed⟩)
              (by
                intro y hy
                rcases List.mem_append.1 hy with hy | hy
                · obtain ⟨c, hc, hyc⟩ := hseencmp y hy
                  exact ⟨c, List.mem_append_left _ hc, hyc⟩
                · exact ⟨comp, List.mem_append_right _
                    (List.mem_singleton_self _), hy⟩)
              (by
                intro c hc y hy
                rcases List.mem_append.1 hc with hc | hc
                · exact List.mem_append_left _ (hcmpseen c hc y hy)
                · rw [List.mem_singleton] at hc
                  subst hc
                  exact List.mem_append_right _ hy)
            refine ⟨hmain.1, fun _ => hmain.2 ?_⟩
            intro hnil
            rw [hnil] at hy0filter
            simp at hy0filter

theorem connected_sets_cover (all : List Islander) (stmts : List Stmt)
    (hnod : all.Nodup) (hne : all ≠ [])
    (hend : ∀ y ∈ endpoints stmts, y ∈ all) :
    (∀ comp ∈ connected_sets all all stmts,
      (comp ≠ [] ∧ ∀ y ∈ comp, y ∈ all) ∧
      (∀ y z : Islander, y ∈ comp → z ∈ comp → Reach stmts y z)) ∧
    (∀ y ∈ all, ∃ comp ∈ connected_sets all all stmts, y ∈ comp) := by
  have h := connected_setsF_spec (all.length + 1) all all stmts [] []
    hnod hend (Nat.lt_succ_self _)
    (by intro y hy; simp at hy)
    List.nodup_nil
    (fun y hy _ => hy)
    (fun y hy => ⟨hy, by simp⟩)
    (by intro c hc; simp at hc)
    (by intro y hy; simp at hy)
    (by intro c hc; simp at hc)
  exact ⟨h.1, h.2 hne⟩

theorem connected_sets_single (all : List Islander) (stmts : List Stmt)
    (hnod : all.Nodup) (hne : all ≠ [])
    (hend : ∀ y ∈ endpoints stmts, y ∈ all)
    (hconn : ∀ y ∈ all, ∀ z ∈ all, Reach stmts y z) :
    ∃ comp, connected_sets all all stmts = [comp] ∧
      ∀ y, y ∈ comp ↔ y ∈ all := by
  cases all with
  | nil => exact absurd rfl hne
  | cons x rest =>
      set comp := all_reachable (arFuel stmts) x stmts [] with hcompdef
      have compmem : ∀ y, y ∈ comp ↔ Reach stmts x y :=
        all_reachable_top_mem stmts x
      have hxall : x ∈ x :: rest := List.mem_cons_self _ _
      have hsub1 : ∀ y ∈ x :: rest, y ∈ comp := by
        intro y hy
        exact (compmem y).2 (hconn x hxall y hy)
      have hsub2 : ∀ y ∈ comp, y ∈ x :: rest := by
        intro y hy
        rcases Reach_cases ((compmem y).1 hy) with rfl | hy2
        · exact hxall
        · exact hend y hy2
      have heq : arrays_equivalent (x :: rest) ([] ++ comp) := by
        refine ⟨?_, fun y hy => List.mem_append_right _ (hsub1 y hy)⟩
        rw [List.nil_append]
        refine nodup_length_eq _ _ hnod (all_reachable_top_nodup stmts x) ?_
        intro y
        exact ⟨hsub1 y, hsub2 y⟩
      have hunfold : connected_sets (x :: rest) (x :: rest) stmts =
          (if arrays_equivalent (x :: rest) ([] ++ comp) then
            ([] : List (List Islander)) ++ [comp]
           else connected_setsF (rest.length + 1)
             ((x :: rest).filter (fun y => decide (y ∉ ([] : List Islander) ++ comp)))
             (x :: rest) stmts (([] : List (List Islander)) ++ [comp])
             (([] : List Islander) ++ comp)) := rfl
      refine ⟨comp, ?_, fun y => ⟨hsub2 y, hsub1 y⟩⟩
      rw [hunfold, if_pos heq]
      rfl

theorem prune_statements_mem (stmts : List Stmt) (s : Stmt) :
    s ∈ prune_statements stmts ↔ s ∈ stmts ∧
      ∀ t ∈ stmts, t = s ∨ ¬(t.source = s.target ∧ t.target = s.source) := by
  unfold prune_statements
  rw [List.mem_filter, decide_eq_true_eq]
  constructor
  · rintro ⟨hmem, hnot⟩
    refine ⟨hmem, fun t ht => ?_⟩
    by_cases hts : t = s
    · exact Or.inl hts
    · refine Or.inr (fun hcon => ?_)
      apply hnot
      rw [List.mem_flatMap]
      refine ⟨t, ht, ?_⟩
      rw [List.mem_filter, decide_eq_true_eq]
      have h1 : s.source = t.target := hcon.2.symm
      have h2 : s.target = t.source := hcon.1.symm
      exact ⟨hmem, fun h => hts h.symm, h1, h2⟩
  · rintro ⟨hmem, hall⟩
    refine ⟨hmem, fun hin => ?_⟩
    rw [List.mem_flatMap] at hin
    obtain ⟨u, hu, hsf⟩ := hin
    rw [List.mem_filter, decide_eq_true_eq] at hsf
    obtain ⟨-, hne, h1, h2⟩ := hsf
    rcases hall u hu with rfl | hcon
    · exact hne rfl
    · exact hcon ⟨h2.symm, h1.symm⟩

theorem remove_statement_with_sub (a b : Islander) (stmts : List Stmt) :
    ∀ s ∈ remove_statement_with a b stmts, s ∈ stmts := by
  unfold remove_statement_with
  cases hf : stmts.find? (fun s =>
      decide ((s.source = a ∨ s.source = b) ∧ (s.target = a ∨ s.target = b))) with
  | none => intro s hs; exact hs
  | some s₀ => intro s hs; exact (List.mem_filter.1 hs).1

theorem remove_statement_with_cases (a b : Islander) (stmts : List Stmt) :
    ∀ s ∈ stmts, s ∈ remove_statement_with a b stmts ∨
      ((s.source = a ∨ s.source = b) ∧ (s.target = a ∨ s.target = b)) := by
  intro s hs
  unfold remove_statement_with
  cases hf : stmts.find? (fun s =>
      decide ((s.source = a ∨ s.source = b) ∧ (s.target = a ∨ s.target = b))) with
  | none => exact Or.inl hs
  | some s₀ =>
      by_cases hss : s = s₀
      · subst hss
        have := List.find?_some hf
        rw [decide_eq_true_eq] at this
        exact Or.inr this
      · refine Or.inl ?_
        rw [List.mem_filter, decide_eq_true_eq]
        exact ⟨hs, hss⟩

-- ───────────────────────────── the solver ─────────────────────────────

/-- The derived knight/knave lists of a Solver instance. -/
structure SolverSt : Type where
  knights : List Islander
  knaves : List Islander
deriving DecidableEq, Repr

/-- An islander the solver has settled (member of either derived list). -/
def SolverSt.resolved (st : SolverSt) (x : Islander) : Prop :=
  x ∈ st.knights ∨ x ∈ st.knaves

instance (st : SolverSt) (x : Islander) : Decidable (st.resolved x) := by
  unfold SolverSt.resolved; infer_instance

/-- Python `TypeStatement.done`. -/
def stmtDone (s : Stmt) (st : SolverSt) : Prop :=
  (s.source ∈ st.knights ∨ s.source ∈ st.knaves) ∧
  (s.target ∈ st.knights ∨ s.target ∈ st.knaves)

instance (s : Stmt) (st : SolverSt) : Decidable (stmtDone s st) := by
  unfold stmtDone; infer_instance

/-- The Python pattern `if x.is_knight(): add_unique(self.knights, x) else:
add_unique(self.knaves, x)` shared by TypeStatement.process, Disjoint.solve
and Joint.solve. -/
def addByAlign (st : SolverSt) (x : Islander) : SolverSt :=
  match x.align with
  | Align.knight => ⟨add_unique st.knights x, st.knaves⟩
  | Align.knave => ⟨st.knights, add_unique st.knaves x⟩

/-- Python `TypeStatement.process`: when the known islander is an endpoint,
add the other endpoint to the list matching its real alignment (reasoning
log omitted, see module comment). -/
def processStmt (s : Stmt) (k : Islander) (st : SolverSt) : SolverSt :=
  if k = s.source ∨ k = s.target then
    addByAlign st (if k = s.source then s.target else s.source)
  else st

/-- The `solve` methods of Same / Different / Disjoint / Joint (the
non-TypeStatement classes), dispatched on the statement kind; the fallback
arm is never used by `pass1`. -/
def solveDirect (s : Stmt) (st : SolverSt) : SolverSt :=
  match s.kind with
  | StmtKind.same => ⟨add_unique st.knights s.target, st.knaves⟩
  | StmtKind.different => ⟨st.knights, add_unique st.knaves s.target⟩
  | StmtKind.disjoint =>
      addByAlign ⟨add_unique st.knights s.source, st.knaves⟩ s.target
  | StmtKind.joint =>
      addByAlign ⟨st.knights, add_unique st.knaves s.source⟩ s.target
  | _ => st

/-- Pass 1 of `Solver.solve`: apply every non-TypeStatement in order, and
collect the TypeStatements (in order) for pass 2. -/
def pass1 : List Stmt → SolverSt → List Stmt × SolverSt
  | [], st => ([], st)
  | s :: rest, st =>
    if s.kind = StmtKind.accusation ∨ s.kind = StmtKind.affirmation then
      let p := pass1 rest st
      (s :: p.1, p.2)
    else pass1 rest (solveDirect s st)

/-- The inner `for k in self.knaves + self.knights` loop of pass 2, with its
early break once the statement is done. -/
def procLoop (s : Stmt) : List Islander → SolverSt → SolverSt
  | [], st => st
  | k :: ks, st =>
    let st2 := processStmt s k st
    if stmtDone s st2 then st2 else procLoop s ks st2

/-- One full pass of the pass-2 `while` loop: returns the next `remaining`
list and the updated solver state. -/
def onePass : List Stmt → SolverSt → List Stmt × SolverSt
  | [], st => ([], st)
  | s :: rest, st =>
    if stmtDone s st then onePass rest st
    else
      let st2 := procLoop s (st.knaves ++ st.knights) st
      let p := onePass rest st2
      (if stmtDone s st2 then p.1 else s :: p.1, p.2)

/-- Iterate full passes, stopping when `remaining` is empty (the Python
`while remaining:` loop), with fuel bounding the number of passes. -/
def passesN : Nat → List Stmt → SolverSt → List Stmt × SolverSt
  | 0, rem, st => (rem, st)
  | _ + 1, [], st => ([], st)
  | n + 1, rem, st =>
      let p := onePass rem st
      passesN n p.1 p.2

/-- Python `Solver.solve` on a statement list: pass 1, then pass-2 fixpoint
iteration.  Returns the final solver state and the statements still pending
when the model's fuel runs out; the fuel `length + 1` is shown below to
empty the pending list exactly when the Python loop terminates. -/
def solver_run (stmts : List Stmt) : SolverSt × List Stmt :=
  let p := pass1 stmts ⟨[], []⟩
  let q := passesN (p.1.length + 1) p.1 p.2
  (q.2, q.1)

/-- Pointwise inclusion of solver states (monotone growth). -/
def subSt (st st2 : SolverSt) : Prop :=
  (∀ x ∈ st.knights, x ∈ st2.knights) ∧ (∀ x ∈ st.knaves, x ∈ st2.knaves)

theorem subSt_refl (st : SolverSt) : subSt st st :=
  ⟨fun _ h => h, fun _ h => h⟩

theorem subSt_trans {a b c : SolverSt} (h1 : subSt a b) (h2 : subSt b c) :
    subSt a c :=
  ⟨fun x hx => h2.1 x (h1.1 x hx), fun x hx => h2.2 x (h1.2 x hx)⟩

theorem stmtDone_mono {s : Stmt} {st st2 : SolverSt} (h : subSt st st2)
    (hd : stmtDone s st) : stmtDone s st2 := by
  obtain ⟨h1, h2⟩ := hd
  constructor
  · rcases h1 with h1 | h1
    · exact Or.inl (h.1 _ h1)
    · exact Or.inr (h.2 _ h1)
  · rcases h2 with h2 | h2
    · exact Or.inl (h.1 _ h2)
    · exact Or.inr (h.2 _ h2)

theorem resolved_mono {x : Islander} {st st2 : SolverSt} (h : subSt st st2)
    (hr : st.resolved x) : st2.resolved x := by
  rcases hr with hr | hr
  · exact Or.inl (h.1 _ hr)
  · exact Or.inr (h.2 _ hr)

theorem addByAlign_knights_mem (st : SolverSt) (y x : Islander) :
    x ∈ (addByAlign st y).knights ↔
      x ∈ st.knights ∨ (y.align = Align.knight ∧ x = y) := by
  unfold addByAlign
  cases h : y.align
  · rw [add_unique_mem]
    constructor
    · rintro (hx | rfl)
      · exact Or.inl hx
      · exact Or.inr ⟨rfl, rfl⟩
    · rintro (hx | ⟨-, rfl⟩)
      · exact Or.inl hx
      · exact Or.inr rfl
  · constructor
    · exact Or.inl
    · rintro (hx | ⟨hc, rfl⟩)
      · exact hx
      · cases hc

theorem addByAlign_knaves_mem (st : SolverSt) (y x : Islander) :
    x ∈ (addByAlign st y).knaves ↔
      x ∈ st.knaves ∨ (y.align = Align.knave ∧ x = y) := by
  unfold addByAlign
  cases h : y.align
  · constructor
    · exact Or.inl
    · rintro (hx | ⟨hc, rfl⟩)
      · exact hx
      · cases hc
  · rw [add_unique_mem]
    constructor
    · rintro (hx | rfl)
      · exact Or.inl hx
      · exact Or.inr ⟨rfl, rfl⟩
    · rintro (hx | ⟨-, rfl⟩)
      · exact Or.inl hx
      · exact Or.inr rfl

theorem addByAlign_mono (st : SolverSt) (y : Islander) :
    subSt st (addByAlign st y) := by
  unfold addByAlign
  cases y.align
  · exact ⟨fun x hx => add_unique_sup _ _ x hx, fun x hx => hx⟩
  · exact ⟨fun x hx => hx, fun x hx => add_unique_sup _ _ x hx⟩

theorem addByAlign_self (st : SolverSt) (y : Islander) :
    (addByAlign st y).resolved y := by
  unfold SolverSt.resolved
  rcases h : y.align with h2 | h2
  · exact Or.inl ((addByAlign_knights_mem st y y).2 (Or.inr ⟨h, rfl⟩))
  · exact Or.inr ((addByAlign_knaves_mem st y y).2 (Or.inr ⟨h, rfl⟩))

theorem processStmt_mono (s : Stmt) (k : Islander) (st : SolverSt) :
    subSt st (processStmt s k st) := by
  unfold processStmt
  by_cases hk : k = s.source ∨ k = s.target
  · rw [if_pos hk]; exact addByAlign_mono _ _
  · rw [if_neg hk]; exact subSt_refl st

theorem solveDirect_mono (s : Stmt) (st : SolverSt) :
    subSt st (solveDirect s st) := by
  unfold solveDirect
  split
  · exact ⟨fun x hx => add_unique_sup _ _ x hx, fun x hx => hx⟩
  · exact ⟨fun x hx => hx, fun x hx => add_unique_sup _ _ x hx⟩
  · exact @subSt_trans st ⟨add_unique st.knights s.source, st.knaves⟩ _
      ⟨fun x hx => add_unique_sup _ _ x hx, fun x hx => hx⟩
      (addByAlign_mono _ _)
  · exact @subSt_trans st ⟨st.knights, add_unique st.knaves s.source⟩ _
      ⟨fun x hx => hx, fun x hx => add_unique_sup _ _ x hx⟩
      (addByAlign_mono _ _)
  · exact subSt_refl st

theorem procLoop_mono (s : Stmt) :
    ∀ (ks : List Islander) (st : SolverSt), subSt st (procLoop s ks st) := by
  intro ks
  induction ks with
  | nil => intro st; exact subSt_refl st
  | cons k ks ih =>
      intro st
      show subSt st (if stmtDone s (processStmt s k st) then processStmt s k st
        else procLoop s ks (processStmt s k st))
      by_cases hd : stmtDone s (processStmt s k st)
      · rw [if_pos hd]; exact processStmt_mono s k st
      · rw [if_neg hd]
        exact subSt_trans (processStmt_mono s k st) (ih _)

theorem pass1_mono : ∀ (stmts : List Stmt) (st : SolverSt),
    subSt st (pass1 stmts st).2 := by
  intro stmts
  induction stmts with
  | nil => intro st; exact subSt_refl st
  | cons s rest ih =>
      intro st
      show subSt st (if s.kind = StmtKind.accusation ∨
          s.kind = StmtKind.affirmation then
          (s :: (pass1 rest st).1, (pass1 rest st).2)
        else pass1 rest (solveDirect s st)).2
      by_cases hk : s.kind = StmtKind.accusation ∨ s.kind = StmtKind.affirmation
      · rw [if_pos hk]; exact ih st
      · rw [if_neg hk]
        exact subSt_trans (solveDirect_mono s st) (ih _)

theorem onePass_mono : ∀ (rem : List Stmt) (st : SolverSt),
    subSt st (onePass rem st).2 := by
  intro rem
  induction rem with
  | nil => intro st; exact subSt_refl st
  | cons s rest ih =>
      intro st
      show subSt st (if stmtDone s st then onePass rest st else
        ((if stmtDone s (procLoop s (st.knaves ++ st.knights) st) then
          (onePass rest (procLoop s (st.knaves ++ st.knights) st)).1 else
          s :: (onePass rest (procLoop s (st.knaves ++ st.knights) st)).1),
         (onePass rest (procLoop s (st.knaves ++ st.knights) st)).2)).2
      by_cases hd : stmtDone s st
      · rw [if_pos hd]; exact ih st
      · rw [if_neg hd]
        exact subSt_trans (procLoop_mono s _ st) (ih _)

theorem passesN_mono : ∀ (n : Nat) (rem : List Stmt) (st : SolverSt),
    subSt st (passesN n rem st).2 := by
  intro n
  induction n with
  | zero => intro rem st; exact subSt_refl st
  | succ m ih =>
      intro rem st
      cases rem with
      | nil => exact subSt_refl st
      | cons s rest =>
          show subSt st (passesN m (onePass (s :: rest) st).1
            (onePass (s :: rest) st).2).2
          exact subSt_trans (onePass_mono (s :: rest) st) (ih _ _)

theorem stmtDone_iff (s : Stmt) (st : SolverSt) :
    stmtDone s st ↔ st.resolved s.source ∧ st.resolved s.target := Iff.rfl

theorem processStmt_done (s : Stmt) (k : Islander) (st : SolverSt)
    (hk : k = s.source ∨ k = s.target) (hr : st.resolved k) :
    stmtDone s (processStmt s k st) := by
  have hpr : processStmt s k st =
      addByAlign st (if k = s.source then s.target else s.source) := by
    unfold processStmt
    rw [if_pos hk]
  rw [stmtDone_iff, hpr]
  have hu := addByAlign_self st (if k = s.source then s.target else s.source)
  have hkr : (addByAlign st (if k = s.source then s.target else s.source)).resolved k :=
    resolved_mono (addByAlign_mono _ _) hr
  by_cases hks : k = s.source
  · rw [if_pos hks] at hu hkr ⊢
    exact ⟨hks ▸ hkr, hu⟩
  · rw [if_neg hks] at hu hkr ⊢
    rcases hk with hk | hk
    · exact absurd hk hks
    · exact ⟨hu, hk ▸ hkr⟩

theorem processStmt_skip (s : Stmt) (k : Islander) (st : SolverSt)
    (hk : ¬(k = s.source ∨ k = s.target)) : processStmt s k st = st := by
  unfold processStmt
  rw [if_neg hk]

theorem procLoop_cases (s : Stmt) : ∀ (ks : List Islander) (st : SolverSt),
    (∀ k ∈ ks, st.resolved k) →
    stmtDone s (procLoop s ks st) ∨ procLoop s ks st = st := by
  intro ks
  induction ks with
  | nil => intro st _; exact Or.inr rfl
  | cons k ks ih =>
      intro st hall
      show stmtDone s (if stmtDone s (processStmt s k st) then processStmt s k st
        else procLoop s ks (processStmt s k st)) ∨
        (if stmtDone s (processStmt s k st) then processStmt s k st
        else procLoop s ks (processStmt s k st)) = st
      by_cases hk : k = s.source ∨ k = s.target
      · have hd := processStmt_done s k st hk (hall k (List.mem_cons_self _ _))
        rw [if_pos hd]
        exact Or.inl hd
      · have hst2 := processStmt_skip s k st hk
        rw [hst2]
        by_cases hd : stmtDone s st
        · rw [if_pos hd]; exact Or.inl hd
        · rw [if_neg hd]
          exact ih st (fun k2 hk2 => hall k2 (List.mem_cons_of_mem _ hk2))

theorem procLoop_resolves (s : Stmt) : ∀ (ks : List Islander) (st : SolverSt),
    (∀ k ∈ ks, st.resolved k) →
    (∃ k ∈ ks, k = s.source ∨ k = s.target) →
    stmtDone s (procLoop s ks st) := by
  intro ks
  induction ks with
  | nil => rintro st _ ⟨k, hk, -⟩; simp at hk
  | cons k ks ih =>
      rintro st hall ⟨k2, hk2, hk2end⟩
      show stmtDone s (if stmtDone s (processStmt s k st) then processStmt s k st
        else procLoop s ks (processStmt s k st))
      by_cases hk : k = s.source ∨ k = s.target
      · have hd := processStmt_done s k st hk (hall k (List.mem_cons_self _ _))
        rw [if_pos hd]
        exact hd
      · have hst2 := processStmt_skip s k st hk
        rw [hst2]
        by_cases hd : stmtDone s st
        · rw [if_pos hd]; exact hd
        · rw [if_neg hd]
          rcases List.mem_cons.1 hk2 with rfl | hk2
          · exact absurd hk2end hk
          · exact ih st (fun k3 hk3 => hall k3 (List.mem_cons_of_mem _ hk3))
              ⟨k2, hk2, hk2end⟩

theorem onePass_cons (s : Stmt) (rest : List Stmt) (st : SolverSt) :
    onePass (s :: rest) st =
      if stmtDone s st then onePass rest st
      else ((if stmtDone s (procLoop s (st.knaves ++ st.knights) st) then
          (onePass rest (procLoop s (st.knaves ++ st.knights) st)).1
        else s :: (onePass rest (procLoop s (st.knaves ++ st.knights) st)).1),
        (onePass rest (procLoop s (st.knaves ++ st.knights) st)).2) := rfl

theorem onePass_sublist : ∀ (rem : List Stmt) (st : SolverSt),
    List.Sublist (onePass rem st).1 rem := by
  intro rem
  induction rem with
  | nil => intro st; exact List.Sublist.refl []
  | cons s rest ih =>
      intro st
      rw [onePass_cons]
      by_cases hd : stmtDone s st
      · rw [if_pos hd]
        exact (ih st).cons s
      · rw [if_neg hd]
        by_cases hd2 : stmtDone s (procLoop s (st.knaves ++ st.knights) st)
      
        · rw [if_pos hd2]
          exact (ih _).cons s
        · rw [if_neg hd2]
          exact (ih _).cons₂ s

theorem onePass_dropped_done : ∀ (rem : List Stmt) (st : SolverSt),
    ∀ s' ∈ rem, s' ∉ (onePass rem st).1 →
    stmtDone s' (onePass rem st).2 := by
  intro rem
  induction rem with
  | nil => intro st s' hs'; simp at hs'
  | cons s rest ih =>
      intro st s' hs' hnot
      rw [onePass_cons] at hnot ⊢
      by_cases hd : stmtDone s st
      · rw [if_pos hd] at hnot ⊢
        rcases List.mem_cons.1 hs' with rfl | hmem
        · exact stmtDone_mono (onePass_mono rest st) hd
        · exact ih st s' hmem hnot
      · rw [if_neg hd] at hnot ⊢
        set st2 := procLoop s (st.knaves ++ st.knights) st with hst2
        by_cases hd2 : stmtDone s st2
        · rw [if_pos hd2] at hnot
          rcases List.mem_cons.1 hs' with rfl | hmem
          · exact stmtDone_mono (onePass_mono rest st2) hd2
          · exact ih st2 s' hmem hnot
        · rw [if_neg hd2] at hnot
          rcases List.mem_cons.1 hs' with rfl | hmem
          · exact absurd (List.mem_cons_self _ _) hnot
          · exact ih st2 s' hmem (fun hc => hnot (List.mem_cons_of_mem _ hc))

theorem resolved_mem_ks (st : SolverSt) (k : Islander) :
    st.resolved k ↔ k ∈ st.knaves ++ st.knights := by
  rw [List.mem_append]
  exact Or.comm

theorem onePass_hit : ∀ (rem : List Stmt) (st : SolverSt),
    ∀ s' ∈ rem, (st.resolved s'.source ∨ st.resolved s'.target) →
    s' ∉ (onePass rem st).1 := by
  intro rem
  induction rem with
  | nil => intro st s' hs'; simp at hs'
  | cons s rest ih =>
      intro st s' hs' hres
      rw [onePass_cons]
      have hproc : ¬ stmtDone s st →
          (st.resolved s.source ∨ st.resolved s.target) →
          stmtDone s (procLoop s (st.knaves ++ st.knights) st) := by
        intro _ hres2
        apply procLoop_resolves s (st.knaves ++ st.knights) st
          (fun k hk => (resolved_mem_ks st k).2 hk)
        rcases hres2 with h | h
        · exact ⟨s.source, (resolved_mem_ks st _).1 h, Or.inl rfl⟩
        · exact ⟨s.target, (resolved_mem_ks st _).1 h, Or.inr rfl⟩
      by_cases hd : stmtDone s st
      · rw [if_pos hd]
        rcases List.mem_cons.1 hs' with rfl | hmem
        · by_cases hrest : s' ∈ rest
          · exact ih st s' hrest hres
          · intro hc
            exact hrest ((onePass_sublist rest st).subset hc)
        · exact ih st s' hmem hres
      · rw [if_neg hd]
        set st2 := procLoop s (st.knaves ++ st.knights) st with hst2
        have hmono2 : subSt st st2 := procLoop_mono s _ st
        rcases List.mem_cons.1 hs' with rfl | hmem
        · have hd2 : stmtDone s' st2 := hproc hd hres
          rw [if_pos hd2]
          by_cases hrest : s' ∈ rest
          · exact ih st2 s' hrest (Or.inl hd2.1)
          · intro hc
            exact hrest ((onePass_sublist rest st2).subset hc)
        · by_cases hd2 : stmtDone s st2
          · rw [if_pos hd2]
            exact ih st2 s' hmem
              (Or.elim hres (fun h => Or.inl (resolved_mono hmono2 h))
                (fun h => Or.inr (resolved_mono hmono2 h)))
          · rw [if_neg hd2]
            intro hc
            rcases List.mem_cons.1 hc with rfl | hc2
            · exact hd2 (hproc hd hres)
            · exact ih st2 s' hmem
                (Or.elim hres (fun h => Or.inl (resolved_mono hmono2 h))
                  (fun h => Or.inr (resolved_mono hmono2 h))) hc2

theorem onePass_progress : ∀ (rem : List Stmt) (st : SolverSt),
    (onePass rem st).1 = rem → (onePass rem st).2 = st := by
  intro rem
  induction rem with
  | nil => intro st _; rfl
  | cons s rest ih =>
      intro st h1
      rw [onePass_cons] at h1 ⊢
      by_cases hd : stmtDone s st
      · rw [if_pos hd] at h1 ⊢
        have := (onePass_sublist rest st).length_le
        rw [h1] at this
        simp at this
      · rw [if_neg hd] at h1 ⊢
        set st2 := procLoop s (st.knaves ++ st.knights) st with hst2
        by_cases hd2 : stmtDone s st2
        · rw [if_pos hd2] at h1
          have hsub := (onePass_sublist rest st2).length_le
          rw [h1] at hsub
          simp at hsub
        · rw [if_neg hd2] at h1
          have h2 : (onePass rest st2).1 = rest := by
            injection h1
          have h3 : (onePass rest st2).2 = st2 := ih st2 h2
          have h4 : st2 = st := by
            rcases procLoop_cases s (st.knaves ++ st.knights) st
                (fun k hk => (resolved_mem_ks st k).2 hk) with hc | hc
            · exact absurd hc hd2
            · exact hc
          rw [h3, h4]

theorem passesN_cons (n : Nat) (s : Stmt) (rest : List Stmt) (st : SolverSt) :
    passesN (n + 1) (s :: rest) st =
      passesN n (onePass (s :: rest) st).1 (onePass (s :: rest) st).2 := rfl

theorem passesN_fixed : ∀ (n : Nat) (rem : List Stmt) (st : SolverSt),
    onePass rem st = (rem, st) → passesN n rem st = (rem, st) := by
  intro n
  induction n with
  | zero => intro rem st _; rfl
  | succ m ih =>
      intro rem st h
      cases rem with
      | nil => rfl
      | cons s rest =>
          rw [passesN_cons, h]
          exact ih _ _ h

theorem passesN_reaches : ∀ (n : Nat) (rem : List Stmt) (st : SolverSt),
    rem.length + 1 ≤ n →
    (passesN n rem st).1 = [] ∨
    onePass (passesN n rem st).1 (passesN n rem st).2 =
      ((passesN n rem st).1, (passesN n rem st).2) := by
  intro n
  induction n with
  | zero => intro rem st h; omega
  | succ m ih =>
      intro rem st hn
      cases rem with
      | nil => exact Or.inl rfl
      | cons s rest =>
          rw [passesN_cons]
          by_cases hfix : (onePass (s :: rest) st).1 = s :: rest
          · have h2 := onePass_progress _ _ hfix
            have h3 : onePass (s :: rest) st = (s :: rest, st) := by
              rw [Prod.ext_iff]
              exact ⟨hfix, h2⟩
            rw [hfix, h2]
            rw [passesN_fixed m (s :: rest) st h3]
            exact Or.inr h3
          · have hlen : (onePass (s :: rest) st).1.length < (s :: rest).length := by
              have hle := (onePass_sublist (s :: rest) st).length_le
              rcases Nat.lt_or_ge (onePass (s :: rest) st).1.length
                  (s :: rest).length with h | h
              · exact h
              · exact absurd ((onePass_sublist (s :: rest) st).eq_of_length
                  (Nat.le_antisymm hle h)) hfix
            apply ih
            simp at hn hlen ⊢
            omega

theorem passesN_dropped_done : ∀ (n : Nat) (rem : List Stmt) (st : SolverSt),
    ∀ s' ∈ rem, s' ∉ (passesN n rem st).1 →
    stmtDone s' (passesN n rem st).2 := by
  intro n
  induction n with
  | zero => intro rem st s' hmem hnot; exact absurd hmem hnot
  | succ m ih =>
      intro rem st s' hmem hnot
      cases rem with
      | nil => simp at hmem
      | cons s rest =>
          rw [passesN_cons] at hnot ⊢
          by_cases hp : s' ∈ (onePass (s :: rest) st).1
          · exact ih _ _ s' hp hnot
          · exact stmtDone_mono (passesN_mono m _ _)
              (onePass_dropped_done (s :: rest) st s' hmem hp)

theorem passesN_kept_mem : ∀ (n : Nat) (rem : List Stmt) (st : SolverSt),
    ∀ s' ∈ (passesN n rem st).1, s' ∈ rem := by
  intro n
  induction n with
  | zero => intro rem st s' h; exact h
  | succ m ih =>
      intro rem st s' h
      cases rem with
      | nil => exact h
      | cons s rest =>
          rw [passesN_cons] at h
          exact (onePass_sublist (s :: rest) st).subset (ih _ _ s' h)

-- ──────────────── solver soundness / scope / nodup invariants ────────────────

/-- Every islander in the derived knights list is really a Knight, and every
one in the derived knaves list is really a Knave. -/
def stSound (st : SolverSt) : Prop :=
  (∀ x ∈ st.knights, x.align = Align.knight) ∧
  (∀ x ∈ st.knaves, x.align = Align.knave)

/-- Both derived lists stay inside a universe `V` of islanders. -/
def stScope (V : List Islander) (st : SolverSt) : Prop :=
  (∀ x ∈ st.knights, x ∈ V) ∧ (∀ x ∈ st.knaves, x ∈ V)

/-- Both derived lists are duplicate-free. -/
def stNodup (st : SolverSt) : Prop := st.knights.Nodup ∧ st.knaves.Nodup

/-- The invariant every statement produced by the islander factories
satisfies: `statement_for` emits an Accusation exactly between opposite
alignments and an Affirmation between equal ones; `match_statement_for`
emits Same towards a knight and Different towards a knave;
`compound_statement_for` emits Disjoint from a knight and Joint from a
knave. -/
def factoryGood (s : Stmt) : Prop :=
  match s.kind with
  | StmtKind.accusation => s.source.align ≠ s.target.align
  | StmtKind.affirmation => s.source.align = s.target.align
  | StmtKind.same => s.target.align = Align.knight
  | StmtKind.different => s.target.align = Align.knave
  | StmtKind.disjoint => s.source.align = Align.knight
  | StmtKind.joint => s.source.align = Align.knave

/-- The islanders directly resolved by pass 1 (the Same / Different /
Disjoint / Joint statements). -/
def baseResolved (stmts : List Stmt) (x : Islander) : Prop :=
  ∃ s ∈ stmts,
    ((s.kind = StmtKind.same ∨ s.kind = StmtKind.different) ∧ x = s.target) ∨
    ((s.kind = StmtKind.disjoint ∨ s.kind = StmtKind.joint) ∧
      (x = s.source ∨ x = s.target))

/-- The type-dependent statements (Accusation / Affirmation) of a list. -/
def typeOnly (stmts : List Stmt) : List Stmt :=
  stmts.filter (fun s => decide (s.kind = StmtKind.accusation ∨
    s.kind = StmtKind.affirmation))

theorem typeOnly_mem (stmts : List Stmt) (s : Stmt) :
    s ∈ typeOnly stmts ↔ s ∈ stmts ∧
      (s.kind = StmtKind.accusation ∨ s.kind = StmtKind.affirmation) := by
  unfold typeOnly
  rw [List.mem_filter, decide_eq_true_eq]

theorem addByAlign_sound {st : SolverSt} (h : stSound st) (y : Islander) :
    stSound (addByAlign st y) := by
  constructor
  · intro x hx
    rcases (addByAlign_knights_mem st y x).1 hx with hx | ⟨ha, rfl⟩
    · exact h.1 x hx
    · exact ha
  · intro x hx
    rcases (addByAlign_knaves_mem st y x).1 hx with hx | ⟨ha, rfl⟩
    · exact h.2 x hx
    · exact ha

theorem addByAlign_scope {V : List Islander} {st : SolverSt}
    (h : stScope V st) {y : Islander} (hy : y ∈ V) :
    stScope V (addByAlign st y) := by
  constructor
  · intro x hx
    rcases (addByAlign_knights_mem st y x).1 hx with hx | ⟨-, rfl⟩
    · exact h.1 x hx
    · exact hy
  · intro x hx
    rcases (addByAlign_knaves_mem st y x).1 hx with hx | ⟨-, rfl⟩
    · exact h.2 x hx
    · exact hy

theorem addByAlign_nodup {st : SolverSt} (h : stNodup st) (y : Islander) :
    stNodup (addByAlign st y) := by
  unfold addByAlign
  cases y.align
  · exact ⟨add_unique_nodup _ _ h.1, h.2⟩
  · exact ⟨h.1, add_unique_nodup _ _ h.2⟩

theorem processStmt_sound {st : SolverSt} (h : stSound st) (s : Stmt)
    (k : Islander) : stSound (processStmt s k st) := by
  unfold processStmt
  by_cases hk : k = s.source ∨ k = s.target
  · rw [if_pos hk]; exact addByAlign_sound h _
  · rw [if_neg hk]; exact h

theorem processStmt_scope {V : List Islander} {st : SolverSt}
    (h : stScope V st) {s : Stmt} (hsV : s.source ∈ V) (htV : s.target ∈ V)
    (k : Islander) : stScope V (processStmt s k st) := by
  unfold processStmt
  by_cases hk : k = s.source ∨ k = s.target
  · rw [if_pos hk]
    by_cases hks : k = s.source
    · rw [if_pos hks]; exact addByAlign_scope h htV
    · rw [if_neg hks]; exact addByAlign_scope h hsV
  · rw [if_neg hk]; exact h

theorem processStmt_nodup {st : SolverSt} (h : stNodup st) (s : Stmt)
    (k : Islander) : stNodup (processStmt s k st) := by
  unfold processStmt
  by_cases hk : k = s.source ∨ k = s.target
  · rw [if_pos hk]; exact addByAlign_nodup h _
  · rw [if_neg hk]; exact h

theorem solveDirect_sound {st : SolverSt} (h : stSound st) {s : Stmt}
    (hg : factoryGood s) : stSound (solveDirect s st) := by
  unfold factoryGood at hg
  unfold solveDirect
  cases hkind : s.kind with
  | accusation => exact h
  | affirmation => exact h
  | same =>
      rw [hkind] at hg
      constructor
      · intro x hx
        rcases (add_unique_mem _ _ x).1 hx with hx | rfl
        · exact h.1 x hx
        · exact hg
      · exact h.2
  | different =>
      rw [hkind] at hg
      constructor
      · exact h.1
      · intro x hx
        rcases (add_unique_mem _ _ x).1 hx with hx | rfl
        · exact h.2 x hx
        · exact hg
  | disjoint =>
      rw [hkind] at hg
      apply addByAlign_sound
      constructor
      · intro x hx
        rcases (add_unique_mem _ _ x).1 hx with hx | rfl
        · exact h.1 x hx
        · exact hg
      · exact h.2
  | joint =>
      rw [hkind] at hg
      apply addByAlign_sound
      constructor
      · exact h.1
      · intro x hx
        rcases (add_unique_mem _ _ x).1 hx with hx | rfl
        · exact h.2 x hx
        · exact hg

theorem solveDirect_scope {V : List Islander} {st : SolverSt}
    (h : stScope V st) {s : Stmt} (hsV : s.source ∈ V) (htV : s.target ∈ V) :
    stScope V (solveDirect s st) := by
  unfold solveDirect
  split
  · constructor
    · intro x hx
      rcases (add_unique_mem _ _ x).1 hx with hx | rfl
      · exact h.1 x hx
      · exact htV
    · exact h.2
  · constructor
    · exact h.1
    · intro x hx
      rcases (add_unique_mem _ _ x).1 hx with hx | rfl
      · exact h.2 x hx
      · exact htV
  · refine addByAlign_scope ?_ htV
    constructor
    · intro x hx
      rcases (add_unique_mem _ _ x).1 hx with hx | rfl
      · exact h.1 x hx
      · exact hsV
    · exact h.2
  · refine addByAlign_scope ?_ htV
    constructor
    · exact h.1
    · intro x hx
      rcases (add_unique_mem _ _ x).1 hx with hx | rfl
      · exact h.2 x hx
      · exact hsV
  · exact h

theorem solveDirect_nodup {st : SolverSt} (h : stNodup st) (s : Stmt) :
    stNodup (solveDirect s st) := by
  unfold solveDirect
  cases hkind : s.kind with
  | accusation => exact h
  | affirmation => exact h
  | same => exact ⟨add_unique_nodup _ _ h.1, h.2⟩
  | different => exact ⟨h.1, add_unique_nodup _ _ h.2⟩
  | disjoint =>
      exact @addByAlign_nodup ⟨add_unique st.knights s.source, st.knaves⟩
        ⟨add_unique_nodup _ _ h.1, h.2⟩ s.target
  | joint =>
      exact @addByAlign_nodup ⟨st.knights, add_unique st.knaves s.source⟩
        ⟨h.1, add_unique_nodup _ _ h.2⟩ s.target

theorem procLoop_sound (s : Stmt) : ∀ (ks : List Islander) (st : SolverSt),
    stSound st → stSound (procLoop s ks st) := by
  intro ks
  induction ks with
  | nil => intro st h; exact h
  | cons k ks ih =>
      intro st h
      show stSound (if stmtDone s (processStmt s k st) then processStmt s k st
        else procLoop s ks (processStmt s k st))
      by_cases hd : stmtDone s (processStmt s k st)
      · rw [if_pos hd]; exact processStmt_sound h s k
      · rw [if_neg hd]; exact ih _ (processStmt_sound h s k)

theorem procLoop_scope {V : List Islander} {s : Stmt} (hsV : s.source ∈ V)
    (htV : s.target ∈ V) : ∀ (ks : List Islander) (st : SolverSt),
    stScope V st → stScope V (procLoop s ks st) := by
  intro ks
  induction ks with
  | nil => intro st h; exact h
  | cons k ks ih =>
      intro st h
      show stScope V (if stmtDone s (processStmt s k st) then processStmt s k st
        else procLoop s ks (processStmt s k st))
      by_cases hd : stmtDone s (processStmt s k st)
      · rw [if_pos hd]; exact processStmt_scope h hsV htV k
      · rw [if_neg hd]; exact ih _ (processStmt_scope h hsV htV k)

theorem procLoop_nodup (s : Stmt) : ∀ (ks : List Islander) (st : SolverSt),
    stNodup st → stNodup (procLoop s ks st) := by
  intro ks
  induction ks with
  | nil => intro st h; exact h
  | cons k ks ih =>
      intro st h
      show stNodup (if stmtDone s (processStmt s k st) then processStmt s k st
        else procLoop s ks (processStmt s k st))
      by_cases hd : stmtDone s (processStmt s k st)
      · rw [if_pos hd]; exact processStmt_nodup h s k
      · rw [if_neg hd]; exact ih _ (processStmt_nodup h s k)

theorem onePass_sound : ∀ (rem : List Stmt) (st : SolverSt),
    stSound st → stSound (onePass rem st).2 := by
  intro rem
  induction rem with
  | nil => intro st h; exact h
  | cons s rest ih =>
      intro st h
      rw [onePass_cons]
      by_cases hd : stmtDone s st
      · rw [if_pos hd]; exact ih st h
      · rw [if_neg hd]; exact ih _ (procLoop_sound s _ st h)

theorem onePass_scope {V : List Islander} : ∀ (rem : List Stmt) (st : SolverSt),
    (∀ s ∈ rem, s.source ∈ V ∧ s.target ∈ V) →
    stScope V st → stScope V (onePass rem st).2 := by
  intro rem
  induction rem with
  | nil => intro st _ h; exact h
  | cons s rest ih =>
      intro st hV h
      rw [onePass_cons]
      have hV2 := hV s (List.mem_cons_self _ _)
      have hVr := fun s2 h2 => hV s2 (List.mem_cons_of_mem _ h2)
      by_cases hd : stmtDone s st
      · rw [if_pos hd]; exact ih st hVr h
      · rw [if_neg hd]
        exact ih _ hVr (procLoop_scope hV2.1 hV2.2 _ st h)

theorem onePass_nodup : ∀ (rem : List Stmt) (st : SolverSt),
    stNodup st → stNodup (onePass rem st).2 := by
  intro rem
  induction rem with
  | nil => intro st h; exact h
  | cons s rest ih =>
      intro st h
      rw [onePass_cons]
      by_cases hd : stmtDone s st
      · rw [if_pos hd]; exact ih st h
      · rw [if_neg hd]; exact ih _ (procLoop_nodup s _ st h)

theorem passesN_sound : ∀ (n : Nat) (rem : List Stmt) (st : SolverSt),
    stSound st → stSound (passesN n rem st).2 := by
  intro n
  induction n with
  | zero => intro rem st h; exact h
  | succ m ih =>
      intro rem st h
      cases rem with
      | nil => exact h
      | cons s rest =>
          rw [passesN_cons]
          exact ih _ _ (onePass_sound (s :: rest) st h)

theorem passesN_scope {V : List Islander} : ∀ (n : Nat) (rem : List Stmt)
    (st : SolverSt), (∀ s ∈ rem, s.source ∈ V ∧ s.target ∈ V) →
    stScope V st → stScope V (passesN n rem st).2 := by
  intro n
  induction n with
  | zero => intro rem st _ h; exact h
  | succ m ih =>
      intro rem st hV h
      cases rem with
      | nil => exact h
      | cons s rest =>
          rw [passesN_cons]
          refine ih _ _ ?_ (onePass_scope (s :: rest) st hV h)
          intro s2 h2
          exact hV s2 ((onePass_sublist (s :: rest) st).subset h2)

theorem passesN_nodup : ∀ (n : Nat) (rem : List Stmt) (st : SolverSt),
    stNodup st → stNodup (passesN n rem st).2 := by
  intro n
  induction n with
  | zero => intro rem st h; exact h
  | succ m ih =>
      intro rem st h
      cases rem with
      | nil => exact h
      | cons s rest =>
          rw [passesN_cons]
          exact ih _ _ (onePass_nodup (s :: rest) st h)

theorem pass1_cons (s : Stmt) (rest : List Stmt) (st : SolverSt) :
    pass1 (s :: rest) st =
      if s.kind = StmtKind.accusation ∨ s.kind = StmtKind.affirmation then
        (s :: (pass1 rest st).1, (pass1 rest st).2)
      else pass1 rest (solveDirect s st) := rfl

theorem pass1_sound : ∀ (stmts : List Stmt) (st : SolverSt),
    (∀ s ∈ stmts, factoryGood s) → stSound st → stSound (pass1 stmts st).2 := by
  intro stmts
  induction stmts with
  | nil => intro st _ h; exact h
  | cons s rest ih =>
      intro st hg h
      rw [pass1_cons]
      by_cases hk : s.kind = StmtKind.accusation ∨ s.kind = StmtKind.affirmation
      · rw [if_pos hk]
        exact ih st (fun s2 h2 => hg s2 (List.mem_cons_of_mem _ h2)) h
      · rw [if_neg hk]
        exact ih _ (fun s2 h2 => hg s2 (List.mem_cons_of_mem _ h2))
          (solveDirect_sound h (hg s (List.mem_cons_self _ _)))

theorem pass1_scope {V : List Islander} : ∀ (stmts : List Stmt) (st : SolverSt),
    (∀ s ∈ stmts, s.source ∈ V ∧ s.target ∈ V) →
    stScope V st → stScope V (pass1 stmts st).2 := by
  intro stmts
  induction stmts with
  | nil => intro st _ h; exact h
  | cons s rest ih =>
      intro st hV h
      rw [pass1_cons]
      by_cases hk : s.kind = StmtKind.accusation ∨ s.kind = StmtKind.affirmation
      · rw [if_pos hk]
        exact ih st (fun s2 h2 => hV s2 (List.mem_cons_of_mem _ h2)) h
      · rw [if_neg hk]
        have h2 := hV s (List.mem_cons_self _ _)
        exact ih _ (fun s2 hm => hV s2 (List.mem_cons_of_mem _ hm))
          (solveDirect_scope h h2.1 h2.2)

theorem pass1_nodup : ∀ (stmts : List Stmt) (st : SolverSt),
    stNodup st → stNodup (pass1 stmts st).2 := by
  intro stmts
  induction stmts with
  | nil => intro st h; exact h
  | cons s rest ih =>
      intro st h
      rw [pass1_cons]
      by_cases hk : s.kind = StmtKind.accusation ∨ s.kind = StmtKind.affirmation
      · rw [if_pos hk]; exact ih st h
      · rw [if_neg hk]; exact ih _ (solveDirect_nodup h s)

theorem pass1_fst_mem : ∀ (stmts : List Stmt) (st : SolverSt) (s' : Stmt),
    s' ∈ (pass1 stmts st).1 ↔ s' ∈ stmts ∧
      (s'.kind = StmtKind.accusation ∨ s'.kind = StmtKind.affirmation) := by
  intro stmts
  induction stmts with
  | nil => intro st s'; simp [pass1]
  | cons s rest ih =>
      intro st s'
      rw [pass1_cons]
      by_cases hk : s.kind = StmtKind.accusation ∨ s.kind = StmtKind.affirmation
      · rw [if_pos hk]
        show s' ∈ s :: (pass1 rest st).1 ↔ _
        rw [List.mem_cons, ih st s']
        constructor
        · rintro (rfl | ⟨h1, h2⟩)
          · exact ⟨List.mem_cons_self _ _, hk⟩
          · exact ⟨List.mem_cons_of_mem _ h1, h2⟩
        · rintro ⟨h1, h2⟩
          rcases List.mem_cons.1 h1 with rfl | h1
          · exact Or.inl rfl
          · exact Or.inr ⟨h1, h2⟩
      · rw [if_neg hk]
        rw [ih _ s']
        constructor
        · rintro ⟨h1, h2⟩
          exact ⟨List.mem_cons_of_mem _ h1, h2⟩
        · rintro ⟨h1, h2⟩
          rcases List.mem_cons.1 h1 with rfl | h1
          · exact absurd h2 hk
          · exact ⟨h1, h2⟩

/-- An islander sits in the solver list that matches its real alignment. -/
def placedByAlign (st : SolverSt) (x : Islander) : Prop :=
  match x.align with
  | Align.knight => x ∈ st.knights
  | Align.knave => x ∈ st.knaves

theorem addByAlign_placed (st : SolverSt) (y : Islander) :
    placedByAlign (addByAlign st y) y := by
  unfold placedByAlign addByAlign
  cases y.align
  · exact add_unique_self _ _
  · exact add_unique_self _ _

theorem placed_mono {st st2 : SolverSt} (h : subSt st st2) {x : Islander}
    (hp : placedByAlign st x) : placedByAlign st2 x := by
  unfold placedByAlign at hp ⊢
  cases hal : x.align <;> rw [hal] at hp
  · exact h.1 x hp
  · exact h.2 x hp

theorem placed_resolved {st : SolverSt} {x : Islander}
    (hp : placedByAlign st x) : st.resolved x := by
  unfold placedByAlign at hp
  unfold SolverSt.resolved
  cases hal : x.align <;> rw [hal] at hp
  · exact Or.inl hp
  · exact Or.inr hp

theorem solveDirect_adds (s : Stmt) (st : SolverSt) :
    (s.kind = StmtKind.same → s.target ∈ (solveDirect s st).knights) ∧
    (s.kind = StmtKind.different → s.target ∈ (solveDirect s st).knaves) ∧
    (s.kind = StmtKind.disjoint → s.source ∈ (solveDirect s st).knights ∧
      placedByAlign (solveDirect s st) s.target) ∧
    (s.kind = StmtKind.joint → s.source ∈ (solveDirect s st).knaves ∧
      placedByAlign (solveDirect s st) s.target) := by
  refine ⟨fun h => ?_, fun h => ?_, fun h => ?_, fun h => ?_⟩
  · unfold solveDirect
    rw [h]
    exact add_unique_self _ _
  · unfold solveDirect
    rw [h]
    exact add_unique_self _ _
  · unfold solveDirect
    rw [h]
    exact ⟨(addByAlign_mono _ _).1 s.source (add_unique_self _ _),
      addByAlign_placed _ _⟩
  · unfold solveDirect
    rw [h]
    exact ⟨(addByAlign_mono _ _).2 s.source (add_unique_self _ _),
      addByAlign_placed _ _⟩

theorem pass1_adds : ∀ (stmts : List Stmt) (st : SolverSt), ∀ s ∈ stmts,
    (s.kind = StmtKind.same → s.target ∈ (pass1 stmts st).2.knights) ∧
    (s.kind = StmtKind.different → s.target ∈ (pass1 stmts st).2.knaves) ∧
    (s.kind = StmtKind.disjoint → s.source ∈ (pass1 stmts st).2.knights ∧
      placedByAlign (pass1 stmts st).2 s.target) ∧
    (s.kind = StmtKind.joint → s.source ∈ (pass1 stmts st).2.knaves ∧
      placedByAlign (pass1 stmts st).2 s.target) := by
  intro stmts
  induction stmts with
  | nil => intro st s hs; simp at hs
  | cons s0 rest ih =>
      intro st s hs
      rw [pass1_cons]
      by_cases hk : s0.kind = StmtKind.accusation ∨ s0.kind = StmtKind.affirmation
      · rw [if_pos hk]
        rcases List.mem_cons.1 hs with rfl | hs2
        · refine ⟨fun h => ?_, fun h => ?_, fun h => ?_, fun h => ?_⟩ <;>
            (rw [h] at hk; rcases hk with hk | hk <;> cases hk)
        · exact ih st s hs2
      · rw [if_neg hk]
        rcases List.mem_cons.1 hs with rfl | hs2
        · have hm := pass1_mono rest (solveDirect s st)
          have ha := solveDirect_adds s st
          refine ⟨fun h => hm.1 _ (ha.1 h), fun h => hm.2 _ (ha.2.1 h),
            fun h => ⟨hm.1 _ (ha.2.2.1 h).1, placed_mono hm (ha.2.2.1 h).2⟩,
            fun h => ⟨hm.2 _ (ha.2.2.2 h).1, placed_mono hm (ha.2.2.2 h).2⟩⟩
        · exact ih _ s hs2

theorem pass1_base : ∀ (stmts : List Stmt) (st : SolverSt) (x : Islander),
    baseResolved stmts x → (pass1 stmts st).2.resolved x := by
  intro stmts st x hb
  obtain ⟨s, hs, hcase⟩ := hb
  have ha := pass1_adds stmts st s hs
  rcases hcase with ⟨hk | hk, rfl⟩ | ⟨hk | hk, rfl | rfl⟩
  · exact Or.inl (ha.1 hk)
  · exact Or.inr (ha.2.1 hk)
  · exact Or.inl (ha.2.2.1 hk).1
  · exact placed_resolved (ha.2.2.1 hk).2
  · exact Or.inr (ha.2.2.2 hk).1
  · exact placed_resolved (ha.2.2.2 hk).2

theorem solver_run_spec (stmts : List Stmt) (V : List Islander)
    (hV : ∀ s ∈ stmts, s.source ∈ V ∧ s.target ∈ V)
    (hgood : ∀ s ∈ stmts, factoryGood s)
    (hcov : ∀ x ∈ V, ∃ b, baseResolved stmts b ∧ Reach (typeOnly stmts) b x) :
    (solver_run stmts).2 = [] ∧
    stSound (solver_run stmts).1 ∧ stNodup (solver_run stmts).1 ∧
    stScope V (solver_run stmts).1 ∧
    (∀ x ∈ V, (solver_run stmts).1.resolved x) := by
  have hrun : solver_run stmts =
      ((passesN ((pass1 stmts ⟨[], []⟩).1.length + 1) (pass1 stmts ⟨[], []⟩).1
        (pass1 stmts ⟨[], []⟩).2).2,
       (passesN ((pass1 stmts ⟨[], []⟩).1.length + 1) (pass1 stmts ⟨[], []⟩).1
        (pass1 stmts ⟨[], []⟩).2).1) := rfl
  set ts := (pass1 stmts ⟨[], []⟩).1 with hts
  set st1 := (pass1 stmts ⟨[], []⟩).2 with hst1
  set q := passesN (ts.length + 1) ts st1 with hqdef
  have htsV : ∀ s' ∈ ts, s'.source ∈ V ∧ s'.target ∈ V := by
    intro s' hs'
    exact hV s' ((pass1_fst_mem stmts ⟨[], []⟩ s').1 hs').1
  have hstep : ∀ y z : Islander, q.2.resolved y → stmtEdge ts y z →
      q.2.resolved z := by
    intro y z hy hedge
    obtain ⟨s', hs', hor⟩ := hedge
    have hresend : q.2.resolved s'.source ∨ q.2.resolved s'.target := by
      rcases hor with ⟨h1, h2⟩ | ⟨h1, h2⟩
      · exact Or.inl (h1 ▸ hy)
      · exact Or.inr (h2 ▸ hy)
    have hkeptQ : s' ∉ q.1 := by
      intro hkept
      rcases passesN_reaches (ts.length + 1) ts st1 (Nat.le_refl _) with hfix | hfix
      · rw [← hqdef] at hfix
        rw [hfix] at hkept
        simp at hkept
      · rw [← hqdef] at hfix
        have hnot := onePass_hit q.1 q.2 s' hkept hresend
        rw [hfix] at hnot
        exact hnot hkept
    have hdone := passesN_dropped_done (ts.length + 1) ts st1 s' hs'
      (by rw [← hqdef]; exact hkeptQ)
    rw [← hqdef] at hdone
    rcases hor with ⟨h1, h2⟩ | ⟨h1, h2⟩
    · exact h2 ▸ hdone.2
    · exact h1 ▸ hdone.1
  have hresolved : ∀ x ∈ V, q.2.resolved x := by
    intro x hx
    obtain ⟨b, hbase, hreach⟩ := hcov x hx
    have hb1 : st1.resolved b := pass1_base stmts ⟨[], []⟩ b hbase
    have hbq : q.2.resolved b :=
      resolved_mono (passesN_mono (ts.length + 1) ts st1) hb1
    have hmemeq : ∀ s' ∈ typeOnly stmts, s' ∈ ts := by
      intro s' h
      rw [typeOnly_mem] at h
      exact (pass1_fst_mem stmts ⟨[], []⟩ s').2 h
    have hreach2 : Reach ts b x := Reach_mono hmemeq hreach
    clear hreach hx
    induction hreach2 with
    | refl => exact hbq
    | tail hprev hedge ihh => exact hstep _ _ ihh hedge
  have hempty : q.1 = [] := by
    cases hq1 : q.1 with
    | nil => rfl
    | cons s0 rest0 =>
        have hs0q : s0 ∈ q.1 := by rw [hq1]; exact List.mem_cons_self _ _
        have hs0ts : s0 ∈ ts := by
          have := passesN_kept_mem (ts.length + 1) ts st1 s0
          rw [← hqdef] at this
          exact this hs0q
        have hres := hresolved s0.source (htsV s0 hs0ts).1
        rcases passesN_reaches (ts.length + 1) ts st1 (Nat.le_refl _) with hfix | hfix
        · rw [← hqdef] at hfix
          rw [hfix] at hq1
          cases hq1
        · rw [← hqdef] at hfix
          have hnot := onePass_hit q.1 q.2 s0 hs0q (Or.inl hres)
          rw [hfix] at hnot
          exact absurd hs0q hnot
  have hsound0 : stSound (⟨[], []⟩ : SolverSt) := ⟨by simp, by simp⟩
  have hnodup0 : stNodup (⟨[], []⟩ : SolverSt) := ⟨List.nodup_nil, List.nodup_nil⟩
  have hscope0 : stScope V (⟨[], []⟩ : SolverSt) := ⟨by simp, by simp⟩
  rw [hrun]
  refine ⟨hempty, ?_, ?_, ?_, hresolved⟩
  · exact passesN_sound _ _ _ (pass1_sound stmts _ hgood hsound0)
  · exact passesN_nodup _ _ _ (pass1_nodup stmts _ hnodup0)
  · exact passesN_scope _ _ _ htsV (pass1_scope stmts _ hV hscope0)

-- ───────────────────── puzzles and statement factories ─────────────────────

/-- A puzzle (the common state of Python's Puzzle / SimplePuzzle /
CompoundPuzzle): islander, statement, knight and knave lists, the name table
(id to current display name, modelling the mutable name attribute), and the
leftover name pool of a SimplePuzzle.  The CompoundPuzzle field `puzzles` is
written by `join` but never read anywhere in the source, so it is not
modelled. -/
structure Puz : Type where
  islanders : List Islander
  statements : List Stmt
  knights : List Islander
  knaves : List Islander
  names : List (Nat × String)
  pool : List String
deriving Repr

/-- The original_name_set list of the source. -/
def original_name_set : List String :=
  ["Elnuman", "Solomon", "Bram", "Sidy", "Drake", "Munzir", "Ajay", "Lebron",
   "Curry", "Bronny", "Flight", "Cash", "Draymond", "Klay", "Andrew", "Omar",
   "DJ Khalid"]

/-- Python `name_set()`: a copy of the original name set. -/
def name_set : List String := original_name_set

/-- The per-speaker dispatch table of Knight.statement_for and
Knave.statement_for. -/
def statementForKind (src tgt : Islander) : StmtKind :=
  match src.align, tgt.align with
  | Align.knight, Align.knight => StmtKind.affirmation
  | Align.knight, Align.knave => StmtKind.accusation
  | Align.knave, Align.knight => StmtKind.accusation
  | Align.knave, Align.knave => StmtKind.affirmation

/-- Python `statement_for` (Knight or Knave according to `src.align`):
allocates the statement object and consumes the phrasing draw of
Accusation/Affirmation build_statement. -/
def Islander.statement_for (src tgt : Islander) : Gen Stmt := do
  let sid ← freshId
  let _ ← drawRand
  pure ⟨sid, src, tgt, statementForKind src tgt⟩

/-- Python `Islander.match_statement_for`: Same towards a knight, Different
towards a knave (no phrasing draw: their texts are fixed). -/
def Islander.match_statement_for (src tgt : Islander) : Gen Stmt := do
  let sid ← freshId
  pure ⟨sid, src, tgt,
    if tgt.align = Align.knight then StmtKind.same else StmtKind.different⟩

/-- Python `compound_statement_for`: Disjoint from a knight, Joint from a
knave (no phrasing draw). -/
def Islander.compound_statement_for (src tgt : Islander) : Gen Stmt := do
  let sid ← freshId
  pure ⟨sid, src, tgt,
    if src.align = Align.knight then StmtKind.disjoint else StmtKind.joint⟩

/-- The knave/knight creation loop of SimplePuzzle.__init__: pop a random
name from the pool and allocate an islander, `k` times. -/
def pickIslanders (al : Align) : Nat → List String →
    Gen (List (Islander × String) × List String)
  | 0, pool => pure ([], pool)
  | k + 1, pool => do
      let i ← random_int pool.length
      let n := pool.getD i ""
      let pool2 := pool.take i ++ pool.drop (i + 1)
      let nid ← freshId
      let rest ← pickIslanders al k pool2
      pure ((⟨⟨nid, al⟩, n⟩) :: rest.1, rest.2)

/-- The candidate-source pool for one iteration of the generate_statements
loop: all islanders other than the target, minus the previous source unless
that would leave nobody. -/
def genSrcPool (islanders : List Islander) (prev : Option Islander)
    (tgt : Islander) : List Islander :=
  let rem := islanders.filter (fun x => decide (x ≠ tgt))
  match prev with
  | some p =>
      let r2 := rem.filter (fun x => decide (x ≠ p))
      if r2.isEmpty then rem else r2
  | none => rem

/-- The per-target statement loop of `generate_statements`: choose a source
distinct from the target and (if possible) from the previous source. -/
def genStmtsLoop (islanders : List Islander) :
    Option Islander → List Islander → Gen (List Stmt)
  | _, [] => pure []
  | prev, tgt :: rest => do
      let src ← random_element (genSrcPool islanders prev tgt) dummyIslander
      let s ← Islander.statement_for src tgt
      let rest2 ← genStmtsLoop islanders (some src) rest
      pure (s :: rest2)

/-- The bridging loop of `generate_statements`: one statement from each
later component's first islander to the first component's first islander. -/
def bridgeLoop : List (List Islander) → Islander → Gen (List Stmt)
  | [], _ => pure []
  | other :: more, joiner => do
      let s ← Islander.statement_for (other.headD dummyIslander) joiner
      let rest ← bridgeLoop more joiner
      pure (s :: rest)

/-- Python `SimplePuzzle.generate_statements`. -/
def generate_statements (islanders : List Islander) : Gen (List Stmt) :=
  if islanders.length < 2 then pure [] else do
    let stmts ← genStmtsLoop islanders none islanders
    let stmts1 := prune_statements stmts
    let sets := connected_sets islanders islanders stmts1
    let bridges ← bridgeLoop sets.tail ((sets.headD []).headD dummyIslander)
    shuffle (stmts1 ++ bridges)

/-- The liar-count policy of SimplePuzzle.__init__. -/
def liarDraw (count : Nat) : Gen Nat :=
  if count = 1 then pure 1
  else if count < 4 then random_int count
  else random_range (count / 2 - 1) (count - 2)

/-- Python `SimplePuzzle.__init__`. -/
def SimplePuzzle (count : Nat) (names : List String) : Gen Puz := do
  let liar ← liarDraw count
  let knavesP ← pickIslanders Align.knave liar names
  let knightsP ← pickIslanders Align.knight (count - liar) knavesP.2
  let knaves := knavesP.1.map Prod.fst
  let knights := knightsP.1.map Prod.fst
  let islanders ← shuffle (knaves ++ knights)
  let stmts ← generate_statements islanders
  pure { islanders := islanders, statements := stmts, knights := knights,
         knaves := knaves,
         names := (knavesP.1 ++ knightsP.1).map (fun q => (q.1.id, q.2)),
         pool := knightsP.2 }

/-- Python `SimplePuzzle.complete_with_match`. -/
def complete_with_match (p : Puz) : Gen Puz :=
  if p.islanders.length < 2 then pure p else do
    let src ← random_element p.islanders dummyIslander
    let rem := p.islanders.filter (fun x => decide (x ≠ src))
    let nbrs := all_sources_and_targets src p.statements
    let left := rem.filter (fun x => decide (x ∉ nbrs))
    let tgt ← random_element (if left.isEmpty then rem else left) dummyIslander
    let s ← Islander.match_statement_for src tgt
    let stmts ← shuffle (p.statements ++ [s])
    pure { p with statements := stmts }

/-- Python `SimplePuzzle.complete_with_compound`. -/
def complete_with_compound (p : Puz) : Gen Puz :=
  if p.islanders.length < 2 then pure p else do
    let src ← random_element p.islanders dummyIslander
    let rem := p.islanders.filter (fun x => decide (x ≠ src))
    let nbrs := all_sources_and_targets src p.statements
    let left := rem.filter (fun x => decide (x ∉ nbrs))
    let tgt ← random_element (if left.isEmpty then rem else left) dummyIslander
    let stmts1 := remove_statement_with src tgt p.statements
    let s ← Islander.compound_statement_for src tgt
    let stmts ← shuffle (stmts1 ++ [s])
    pure { p with statements := stmts }

/-- Python `SimplePuzzle.random_completion`. -/
def random_completion (p : Puz) : Gen Puz := do
  let c ← random_int 2
  if c = 0 then complete_with_match p else complete_with_compound p

/-- A freshly constructed CompoundPuzzle. -/
def emptyCompound : Puz := ⟨[], [], [], [], [], []⟩

/-- Name lookup through the puzzle's name table (reading islander.name). -/
def lookupName (names : List (Nat × String)) (i : Nat) : String :=
  ((names.find? (fun q => decide (q.1 = i))).map Prod.snd).getD ""

/-- Name write through the puzzle's name table (islander.name = n). -/
def setName (names : List (Nat × String)) (i : Nat) (n : String) :
    List (Nat × String) :=
  names.map (fun q => if q.1 = i then (q.1, n) else q)

/-- Lookup in the `seen` dict of ensure_unique_names. -/
def lookupSeen (seen : List (String × Nat)) (n : String) : Option Nat :=
  (seen.find? (fun q => decide (q.1 = n))).map Prod.snd

/-- Write to the `seen` dict of ensure_unique_names. -/
def setSeen (seen : List (String × Nat)) (n : String) (c : Nat) :
    List (String × Nat) :=
  if (seen.find? (fun q => decide (q.1 = n))).isSome then
    seen.map (fun q => if q.1 = n then (q.1, c) else q)
  else (n, c) :: seen

/-- The loop body of `CompoundPuzzle.ensure_unique_names`: walk the islander
list, renaming the Nth duplicate occurrence of a name to name_N. -/
def ensureAux : List Islander → List (Nat × String) → List (String × Nat) →
    List (Nat × String)
  | [], names, _ => names
  | x :: rest, names, seen =>
      let n := lookupName names x.id
      match lookupSeen seen n with
      | none => ensureAux rest names (setSeen seen n 0)
      | some c =>
          ensureAux rest (setName names x.id (n ++ "_" ++ toString (c + 1)))
            (setSeen seen n (c + 1))

/-- Python `CompoundPuzzle.ensure_unique_names`. -/
def ensure_unique_names (p : Puz) : Puz :=
  { p with names := ensureAux p.islanders p.names [] }

/-- Python `CompoundPuzzle.join`. -/
def join (cp other : Puz) : Puz :=
  ensure_unique_names
    { islanders := add_all_unique cp.islanders other.islanders,
      statements := add_all_unique cp.statements other.statements,
      knights := add_all_unique cp.knights other.knights,
      knaves := add_all_unique cp.knaves other.knaves,
      names := cp.names ++
        other.names.filter (fun q => decide (∀ q2 ∈ cp.names, q2.1 ≠ q.1)),
      pool := cp.pool }

/-- Python `CompoundPuzzle.join_with_match`. -/
def join_with_match (cp other : Puz) : Gen Puz := do
  let a ← random_element cp.islanders dummyIslander
  let b ← random_element other.islanders dummyIslander
  let cp2 := join cp other
  let s ← Islander.match_statement_for a b
  pure { cp2 with statements := cp2.statements ++ [s] }

/-- Python `CompoundPuzzle.join_with_compound`. -/
def join_with_compound (cp other : Puz) : Gen Puz := do
  let a ← random_element cp.islanders dummyIslander
  let b ← random_element other.islanders dummyIslander
  let cp2 := join cp other
  let s ← Islander.compound_statement_for a b
  pure { cp2 with statements := cp2.statements ++ [s] }

/-- Python `CompoundPuzzle.random_join`. -/
def random_join (cp other : Puz) : Gen Puz := do
  let c ← random_int 2
  if c = 0 then join_with_match cp other else join_with_compound cp other

-- ───────────────────────── difficulty presets ─────────────────────────

/-- Python `PuzzleGenerator.easy0`. -/
def easy0 : Gen Puz := do
  let p ← SimplePuzzle 2 name_set
  complete_with_match p

/-- Python `PuzzleGenerator.easy1`. -/
def easy1 : Gen Puz := do
  let p ← SimplePuzzle 2 name_set
  complete_with_compound p

/-- Python `PuzzleGenerator.easy2`. -/
def easy2 : Gen Puz := do
  let p ← SimplePuzzle 3 name_set
  random_completion p

/-- Python `PuzzleGenerator.easy`. -/
def easy : Gen Puz := do
  let c ← random_int 3
  if c = 0 then easy0 else if c = 1 then easy1 else easy2

/-- Python `PuzzleGenerator.medium`. -/
def medium : Gen Puz := do
  let c ← random_int 3
  if c = 0 then do
    let a ← SimplePuzzle 3 name_set
    let b ← SimplePuzzle 1 name_set
    let a2 ← random_completion a
    let cp := join emptyCompound a2
    random_join cp b
  else if c = 1 then do
    let a ← SimplePuzzle 3 name_set
    let a2 ← complete_with_match a
    pure (join emptyCompound a2)
  else do
    let a ← SimplePuzzle 1 name_set
    let b ← SimplePuzzle 3 name_set
    let cp := join emptyCompound a
    join_with_compound cp b

/-- Python `PuzzleGenerator.hard`. -/
def hard : Gen Puz := do
  let c ← random_int 2
  let a ← SimplePuzzle 3 name_set
  let b ← SimplePuzzle 3 name_set
  if c = 0 then do
    let cp := join emptyCompound a
    join_with_compound cp b
  else do
    let a2 ← complete_with_match a
    let cp := join emptyCompound a2
    join_with_match cp b

/-- The three difficulty tiers of PuzzleGenerator. -/
inductive Difficulty : Type where
  | easy : Difficulty
  | medium : Difficulty
  | hard : Difficulty

/-- Dispatch a difficulty to its preset (the generate_puzzle endpoint). -/
def generate : Difficulty → Gen Puz
  | Difficulty.easy => easy
  | Difficulty.medium => medium
  | Difficulty.hard => hard

/-- Python `Solver(puzzle).solve()`: run the solver on the puzzle's
statement list. -/
def Solver.solve (p : Puz) : SolverSt × List Stmt := solver_run p.statements

-- ─────────────────── generation invariants and specifications ───────────────────

/-- Structural well-formedness of a generated puzzle: duplicate-free lists,
knight/knave lists partitioning the islanders by alignment, statement
endpoints inside the islander list, and factory-shaped statements. -/
def PuzInv (p : Puz) : Prop :=
  p.islanders.Nodup ∧ p.knights.Nodup ∧ p.knaves.Nodup ∧
  (∀ x, x ∈ p.knights ↔ x ∈ p.islanders ∧ x.align = Align.knight) ∧
  (∀ x, x ∈ p.knaves ↔ x ∈ p.islanders ∧ x.align = Align.knave) ∧
  (∀ s ∈ p.statements, s.source ∈ p.islanders ∧ s.target ∈ p.islanders) ∧
  (∀ s ∈ p.statements, factoryGood s)

/-- Every two islanders of the puzzle are linked by its statement graph. -/
def PairConn (p : Puz) : Prop :=
  ∀ x ∈ p.islanders, ∀ y ∈ p.islanders, Reach p.statements x y

/-- All statements are type statements (Accusation / Affirmation). -/
def AllTypeStmts (p : Puz) : Prop :=
  ∀ s ∈ p.statements,
    s.kind = StmtKind.accusation ∨ s.kind = StmtKind.affirmation

/-- Every islander is reachable, along type statements, from an islander
that pass 1 of the solver resolves directly. -/
def Solvable (p : Puz) : Prop :=
  ∀ x ∈ p.islanders, ∃ b, baseResolved p.statements b ∧
    Reach (typeOnly p.statements) b x

/-- All islander ids lie in the interval `[lo, hi)` (freshness tracking). -/
def IdsIn (p : Puz) (lo hi : Nat) : Prop :=
  ∀ x ∈ p.islanders, lo ≤ x.id ∧ x.id < hi

theorem statement_for_apply (src tgt : Islander) (r : Nat → Nat) (g : GSt) :
    Islander.statement_for src tgt r g =
      (⟨g.fid, src, tgt, statementForKind src tgt⟩,
        ⟨g.ri + 1, g.fid + 1⟩) := rfl

theorem match_statement_for_apply (src tgt : Islander) (r : Nat → Nat)
    (g : GSt) : Islander.match_statement_for src tgt r g =
      (⟨g.fid, src, tgt,
        if tgt.align = Align.knight then StmtKind.same else StmtKind.different⟩,
        ⟨g.ri, g.fid + 1⟩) := rfl

theorem compound_statement_for_apply (src tgt : Islander) (r : Nat → Nat)
    (g : GSt) : Islander.compound_statement_for src tgt r g =
      (⟨g.fid, src, tgt,
        if src.align = Align.knight then StmtKind.disjoint else StmtKind.joint⟩,
        ⟨g.ri, g.fid + 1⟩) := rfl

theorem statementForKind_type (src tgt : Islander) :
    statementForKind src tgt = StmtKind.accusation ∨
    statementForKind src tgt = StmtKind.affirmation := by
  unfold statementForKind
  cases src.align <;> cases tgt.align <;> simp

theorem statementForKind_good (sid : Nat) (src tgt : Islander) :
    factoryGood ⟨sid, src, tgt, statementForKind src tgt⟩ := by
  cases h1 : src.align <;> cases h2 : tgt.align <;>
    simp [factoryGood, statementForKind, h1, h2]

theorem match_kind_good (sid : Nat) (src tgt : Islander) :
    factoryGood ⟨sid, src, tgt,
      if tgt.align = Align.knight then StmtKind.same else StmtKind.different⟩ := by
  unfold factoryGood
  by_cases h : tgt.align = Align.knight
  · rw [if_pos h]; exact h
  · rw [if_neg h]
    cases h2 : tgt.align
    · exact absurd h2 h
    · rfl

theorem compound_kind_good (sid : Nat) (src tgt : Islander) :
    factoryGood ⟨sid, src, tgt,
      if src.align = Align.knight then StmtKind.disjoint else StmtKind.joint⟩ := by
  unfold factoryGood
  by_cases h : src.align = Align.knight
  · rw [if_pos h]; exact h
  · rw [if_neg h]
    cases h2 : src.align
    · exact absurd h2 h
    · rfl

theorem headD_mem {α : Type} (l : List α) (d : α) (h : l ≠ []) :
    l.headD d ∈ l := by
  cases l with
  | nil => exact absurd rfl h
  | cons x xs => exact List.mem_cons_self _ _

theorem two_distinct {α : Type} [DecidableEq α] (l : List α) (hnd : l.Nodup)
    (hlen : 2 ≤ l.length) (a : α) : ∃ x ∈ l, x ≠ a := by
  cases l with
  | nil => simp at hlen
  | cons x xs =>
      cases xs with
      | nil => simp at hlen
      | cons y ys =>
          by_cases hxa : x = a
          · subst hxa
            refine ⟨y, List.mem_cons_of_mem _ (List.mem_cons_self _ _), ?_⟩
            intro hya
            rw [List.nodup_cons] at hnd
            exact hnd.1 (hya ▸ List.mem_cons_self _ _)
          · exact ⟨x, List.mem_cons_self _ _, hxa⟩

theorem pickIslanders_spec (al : Align) : ∀ (k : Nat) (pool : List String)
    (r : Nat → Nat) (g : GSt),
    ((pickIslanders al k pool r g).1.1.map (fun q => q.1.id) =
      List.range' g.fid k) ∧
    (∀ q ∈ (pickIslanders al k pool r g).1.1, q.1.align = al) ∧
    (pickIslanders al k pool r g).2.fid = g.fid + k := by
  intro k
  induction k with
  | zero =>
      intro pool r g
      exact ⟨rfl, fun q hq => absurd hq (List.not_mem_nil q), rfl⟩
  | succ m ih =>
      intro pool r g
      have hunfold : pickIslanders al (m + 1) pool r g =
          (let rest := pickIslanders al m
            (pool.take (r g.ri % pool.length) ++
              pool.drop (r g.ri % pool.length + 1)) r ⟨g.ri + 1, g.fid + 1⟩
           ((⟨⟨g.fid, al⟩, pool.getD (r g.ri % pool.length) ""⟩ :: rest.1.1,
             rest.1.2), rest.2)) := rfl
      rw [hunfold]
      obtain ⟨ih1, ih2, ih3⟩ := ih
        (pool.take (r g.ri % pool.length) ++
          pool.drop (r g.ri % pool.length + 1)) r ⟨g.ri + 1, g.fid + 1⟩
      refine ⟨?_, ?_, ?_⟩
      · show (g.fid : Nat) :: _ = List.range' g.fid (m + 1)
        rw [List.range'_succ]
        rw [ih1]
      · intro q hq
        rcases List.mem_cons.1 hq with rfl | hq
        · rfl
        · exact ih2 q hq
      · show (pickIslanders al m _ r ⟨g.ri + 1, g.fid + 1⟩).2.fid = _
        rw [ih3]
        show g.fid + 1 + m = g.fid + (m + 1)
        omega

theorem genSrcPool_spec (islanders : List Islander) (prev : Option Islander)
    (tgt : Islander) (hnd : islanders.Nodup) (hlen : 2 ≤ islanders.length) :
    genSrcPool islanders prev tgt ≠ [] ∧
    ∀ x ∈ genSrcPool islanders prev tgt, x ∈ islanders ∧ x ≠ tgt := by
  have hremmem : ∀ x, x ∈ islanders.filter (fun x => decide (x ≠ tgt)) ↔
      x ∈ islanders ∧ x ≠ tgt := by
    intro x
    rw [List.mem_filter, decide_eq_true_eq]
  have hremne : islanders.filter (fun x => decide (x ≠ tgt)) ≠ [] := by
    obtain ⟨x, hx, hxne⟩ := two_distinct islanders hnd hlen tgt
    intro hc
    have : x ∈ islanders.filter (fun x => decide (x ≠ tgt)) :=
      (hremmem x).2 ⟨hx, hxne⟩
    rw [hc] at this
    simp at this
  cases prev with
  | none =>
      have hred : genSrcPool islanders none tgt =
          islanders.filter (fun x => decide (x ≠ tgt)) := rfl
      rw [hred]
      exact ⟨hremne, fun x hx => (hremmem x).1 hx⟩
  | some p =>
      have hred : genSrcPool islanders (some p) tgt =
          (if ((islanders.filter (fun x => decide (x ≠ tgt))).filter
              (fun x => decide (x ≠ p))).isEmpty then
            islanders.filter (fun x => decide (x ≠ tgt))
          else (islanders.filter (fun x => decide (x ≠ tgt))).filter
              (fun x => decide (x ≠ p))) := rfl
      rw [hred]
      by_cases hemp : ((islanders.filter (fun x => decide (x ≠ tgt))).filter
          (fun x => decide (x ≠ p))).isEmpty
      · rw [if_pos hemp]
        exact ⟨hremne, fun x hx => (hremmem x).1 hx⟩
      · rw [if_neg hemp]
        refine ⟨fun hc => hemp (by rw [hc]; rfl), fun x hx => ?_⟩
        rw [List.mem_filter] at hx
        exact (hremmem x).1 hx.1

theorem genStmtsLoop_spec : ∀ (targets islanders : List Islander)
    (prev : Option Islander) (r : Nat → Nat) (g : GSt),
    islanders.Nodup → 2 ≤ islanders.length → (∀ t ∈ targets, t ∈ islanders) →
    ∀ s ∈ (genStmtsLoop islanders prev targets r g).1,
      s.source ∈ islanders ∧ s.target ∈ islanders ∧
      (s.kind = StmtKind.accusation ∨ s.kind = StmtKind.affirmation) ∧
      factoryGood s := by
  intro targets
  induction targets with
  | nil =>
      intro islanders prev r g _ _ _ s hs
      exact absurd hs (List.not_mem_nil s)
  | cons tgt rest ih =>
      intro islanders prev r g hnd hlen htgt s hs
      have hunfold : genStmtsLoop islanders prev (tgt :: rest) r g =
          ((⟨g.fid, (genSrcPool islanders prev tgt).getD
              (r g.ri % (genSrcPool islanders prev tgt).length) dummyIslander,
            tgt, statementForKind ((genSrcPool islanders prev tgt).getD
              (r g.ri % (genSrcPool islanders prev tgt).length) dummyIslander)
              tgt⟩ ::
            (genStmtsLoop islanders (some ((genSrcPool islanders prev tgt).getD
              (r g.ri % (genSrcPool islanders prev tgt).length) dummyIslander))
              rest r ⟨g.ri + 2, g.fid + 1⟩).1,
           (genStmtsLoop islanders (some ((genSrcPool islanders prev tgt).getD
              (r g.ri % (genSrcPool islanders prev tgt).length) dummyIslander))
              rest r ⟨g.ri + 2, g.fid + 1⟩).2)) := rfl
      rw [hunfold] at hs
      obtain ⟨hpoolne, hpool⟩ := genSrcPool_spec islanders prev tgt hnd hlen
      have hsrc : (genSrcPool islanders prev tgt).getD
          (r g.ri % (genSrcPool islanders prev tgt).length) dummyIslander ∈
          genSrcPool islanders prev tgt := by
        have hl : 0 < (genSrcPool islanders prev tgt).length :=
          List.length_pos.2 hpoolne
        have hm : r g.ri % (genSrcPool islanders prev tgt).length <
            (genSrcPool islanders prev tgt).length := Nat.mod_lt _ hl
        rw [List.getD_eq_getElem _ _ hm]
        exact List.getElem_mem hm
      rcases List.mem_cons.1 hs with rfl | hs2
      · exact ⟨(hpool _ hsrc).1, htgt tgt (List.mem_cons_self _ _),
          statementForKind_type _ _, statementForKind_good _ _ _⟩
      · exact ih islanders _ r _ hnd hlen
          (fun t ht => htgt t (List.mem_cons_of_mem _ ht)) s hs2

theorem bridgeLoop_spec (V : List Islander) :
    ∀ (comps : List (List Islander)) (joiner : Islander) (r : Nat → Nat)
    (g : GSt), (∀ c ∈ comps, c ≠ [] ∧ ∀ y ∈ c, y ∈ V) → joiner ∈ V →
    (∀ s ∈ (bridgeLoop comps joiner r g).1,
      s.source ∈ V ∧ s.target ∈ V ∧
      (s.kind = StmtKind.accusation ∨ s.kind = StmtKind.affirmation) ∧
      factoryGood s) ∧
    (∀ c ∈ comps, ∃ s ∈ (bridgeLoop comps joiner r g).1,
      s.source = c.headD dummyIslander ∧ s.target = joiner) := by
  intro comps
  induction comps with
  | nil =>
      intro joiner r g _ _
      exact ⟨fun s hs => absurd hs (List.not_mem_nil s),
        fun c hc => absurd hc (List.not_mem_nil c)⟩
  | cons c0 more ih =>
      intro joiner r g hc hj
      have hunfold : bridgeLoop (c0 :: more) joiner r g =
          ((⟨g.fid, c0.headD dummyIslander, joiner,
              statementForKind (c0.headD dummyIslander) joiner⟩ ::
            (bridgeLoop more joiner r ⟨g.ri + 1, g.fid + 1⟩).1,
           (bridgeLoop more joiner r ⟨g.ri + 1, g.fid + 1⟩).2)) := rfl
      rw [hunfold]
      have hc0 := hc c0 (List.mem_cons_self _ _)
      have hmore := ih joiner r ⟨g.ri + 1, g.fid + 1⟩
        (fun c hcm => hc c (List.mem_cons_of_mem _ hcm)) hj
      constructor
      · intro s hs
        rcases List.mem_cons.1 hs with rfl | hs2
        · exact ⟨hc0.2 _ (headD_mem c0 dummyIslander hc0.1), hj,
            statementForKind_type _ _, statementForKind_good _ _ _⟩
        · exact hmore.1 s hs2
      · intro c hcm
        rcases List.mem_cons.1 hcm with rfl | hcm2
        · exact ⟨_, List.mem_cons_self _ _, rfl, rfl⟩
        · obtain ⟨s, hs, h1, h2⟩ := hmore.2 c hcm2
          exact ⟨s, List.mem_cons_of_mem _ hs, h1, h2⟩

theorem endpoints_sub (stmts : List Stmt) (V : List Islander)
    (h : ∀ s ∈ stmts, s.source ∈ V ∧ s.target ∈ V) :
    ∀ y ∈ endpoints stmts, y ∈ V := by
  intro y hy
  unfold endpoints at hy
  rw [List.mem_flatMap] at hy
  obtain ⟨s, hs, hy⟩ := hy
  rcases List.mem_cons.1 hy with rfl | hy
  · exact (h s hs).1
  · rw [List.mem_singleton] at hy
    exact hy ▸ (h s hs).2

theorem prune_subset (stmts : List Stmt) :
    ∀ s ∈ prune_statements stmts, s ∈ stmts := by
  intro s hs
  exact (prune_statements_mem stmts s).1 hs |>.1

theorem generate_statements_spec (islanders : List Islander) (r : Nat → Nat)
    (g : GSt) (hnd : islanders.Nodup) (hlen : 2 ≤ islanders.length) :
    (∀ s ∈ (generate_statements islanders r g).1,
      s.source ∈ islanders ∧ s.target ∈ islanders ∧
      (s.kind = StmtKind.accusation ∨ s.kind = StmtKind.affirmation) ∧
      factoryGood s) ∧
    (∀ x ∈ islanders, ∀ y ∈ islanders,
      Reach (generate_statements islanders r g).1 x y) := by
  have hnotlt : ¬ islanders.length < 2 := by omega
  set base := genStmtsLoop islanders none islanders r g with hbasedef
  set pruned := prune_statements base.1 with hpruneddef
  set sets := connected_sets islanders islanders pruned with hsetsdef
  set joiner := (sets.headD []).headD dummyIslander with hjoinerdef
  set bridges := bridgeLoop sets.tail joiner r base.2 with hbridgesdef
  have hunfold : generate_statements islanders r g =
      shuffle (pruned ++ bridges.1) r bridges.2 := by
    unfold generate_statements
    rw [if_neg hnotlt]
    rfl
  rw [hunfold]
  have hbase := genStmtsLoop_spec islanders islanders none r g hnd hlen
    (fun t ht => ht)
  have hpruned : ∀ s ∈ pruned, s.source ∈ islanders ∧ s.target ∈ islanders ∧
      (s.kind = StmtKind.accusation ∨ s.kind = StmtKind.affirmation) ∧
      factoryGood s :=
    fun s hs => hbase s (prune_subset base.1 s hs)
  have hne : islanders ≠ [] := by
    intro h
    rw [h] at hlen
    simp at hlen
  have hcover := connected_sets_cover islanders pruned hnd hne
    (endpoints_sub pruned islanders (fun s hs => ⟨(hpruned s hs).1,
      (hpruned s hs).2.1⟩))
  have hfinmem : ∀ s, s ∈ (shuffle (pruned ++ bridges.1) r bridges.2).1 ↔
      s ∈ pruned ++ bridges.1 :=
    fun s => (shuffle_perm (pruned ++ bridges.1) r bridges.2).mem_iff
  obtain ⟨x0, hx0⟩ := List.exists_mem_of_ne_nil islanders hne
  obtain ⟨c0, hc0sets, hx0c0⟩ := hcover.2 x0 hx0
  have hc0sets2 : c0 ∈ sets := by rw [hsetsdef]; exact hc0sets
  have hsetsne : sets ≠ [] := by
    intro h
    rw [h] at hc0sets2
    simp at hc0sets2
  cases hsets : sets with
  | nil => exact absurd hsets hsetsne
  | cons shead stail =>
      have hshead : shead ∈ sets := by rw [hsets]; exact List.mem_cons_self _ _
      have hsheadprops := hcover.1 shead hshead
      have hjoinshead : joiner ∈ shead := by
        rw [hjoinerdef, hsets]
        exact headD_mem shead dummyIslander hsheadprops.1.1
      have hjoinerV : joiner ∈ islanders := hsheadprops.1.2 joiner hjoinshead
      have hbridge := bridgeLoop_spec islanders stail joiner r base.2
        (by
          intro c hcm
          have hcsets : c ∈ sets := by
            rw [hsets]
            exact List.mem_cons_of_mem _ hcm
          exact ⟨(hcover.1 c hcsets).1.1, (hcover.1 c hcsets).1.2⟩)
        hjoinerV
      have hbtail : bridges = bridgeLoop stail joiner r base.2 := by
        rw [hbridgesdef, hsets]
        rfl
      constructor
      · intro s hs
        rw [hfinmem] at hs
        rcases List.mem_append.1 hs with hs | hs
        · exact hpruned s hs
        · rw [hbtail] at hs
          exact hbridge.1 s hs
      · have hmonoP : ∀ s ∈ pruned, s ∈ (shuffle (pruned ++ bridges.1) r
            bridges.2).1 :=
          fun s hs => (hfinmem s).2 (List.mem_append_left _ hs)
        have hReachJoiner : ∀ x ∈ islanders,
            Reach (shuffle (pruned ++ bridges.1) r bridges.2).1 x joiner := by
          intro x hx
          obtain ⟨c, hcsets, hxc⟩ := hcover.2 x hx
          have hcprops := hcover.1 c hcsets
          have hcsets2 : c ∈ shead :: stail := by
            rw [← hsets, hsetsdef]
            exact hcsets
          rcases List.mem_cons.1 hcsets2 with rfl | hctail
          · exact Reach_mono hmonoP (hcprops.2 x joiner hxc hjoinshead)
          · have hhead : c.headD dummyIslander ∈ c :=
              headD_mem c dummyIslander hcprops.1.1
            have h1 : Reach pruned x (c.headD dummyIslander) :=
              hcprops.2 x _ hxc hhead
            obtain ⟨s, hsb, hs1, hs2⟩ := hbridge.2 c hctail
            have hsfin : s ∈ (shuffle (pruned ++ bridges.1) r bridges.2).1 := by
              rw [hfinmem]
              rw [hbtail]
              exact List.mem_append_right _ hsb
            have hedge : stmtEdge (shuffle (pruned ++ bridges.1) r
                bridges.2).1 (c.headD dummyIslander) joiner :=
              ⟨s, hsfin, Or.inl ⟨hs1, hs2⟩⟩
            exact (Reach_mono hmonoP h1).trans (Reach.single hedge)
        intro x hx y hy
        exact (hReachJoiner x hx).trans (hReachJoiner y hy).symm

theorem liarDraw_state (count : Nat) (r : Nat → Nat) (g : GSt) :
    (liarDraw count r g).2.fid = g.fid := by
  unfold liarDraw
  by_cases h1 : count = 1
  · rw [if_pos h1]; rfl
  · rw [if_neg h1]
    by_cases h2 : count < 4
    · rw [if_pos h2]; rfl
    · rw [if_neg h2]; rfl

theorem liarDraw_bounds (count : Nat) (r : Nat → Nat) (g : GSt)
    (h1 : 1 ≤ count) :
    (liarDraw count r g).1 ≤ count ∧
    (count = 1 → (liarDraw count r g).1 = 1) ∧
    (2 ≤ count → count < 4 → (liarDraw count r g).1 < count) ∧
    (4 ≤ count → count / 2 - 1 ≤ (liarDraw count r g).1 ∧
      (liarDraw count r g).1 ≤ count - 2) := by
  unfold liarDraw
  by_cases hc1 : count = 1
  · rw [if_pos hc1]
    subst hc1
    exact ⟨Nat.le_refl 1, fun _ => rfl, fun h => by omega, fun h => by omega⟩
  · rw [if_neg hc1]
    by_cases hc4 : count < 4
    · rw [if_pos hc4]
      have hmod : r g.ri % count < count := Nat.mod_lt _ (by omega)
      show r g.ri % count ≤ count ∧ _
      refine ⟨by omega, fun h => absurd h hc1, fun _ _ => hmod, fun h => by omega⟩
    · rw [if_neg hc4]
      have hpos : 0 < count - 2 + 1 - (count / 2 - 1) := by omega
      have hmod : r g.ri % (count - 2 + 1 - (count / 2 - 1)) <
          count - 2 + 1 - (count / 2 - 1) := Nat.mod_lt _ hpos
      have hval : (random_range (count / 2 - 1) (count - 2) r g).1 =
          count / 2 - 1 + r g.ri % (count - 2 + 1 - (count / 2 - 1)) := rfl
      rw [hval]
      refine ⟨by omega, fun h => absurd h hc1, fun _ h => absurd h hc4,
        fun _ => ⟨by omega, by omega⟩⟩

theorem mem_singleton_length {α : Type} (l : List α) (h : l.length = 1) :
    ∀ x ∈ l, ∀ y ∈ l, x = y := by
  cases l with
  | nil => simp at h
  | cons a t =>
      cases t with
      | nil =>
          intro x hx y hy
          rw [List.mem_singleton] at hx hy
          rw [hx, hy]
      | cons b t2 => simp at h

theorem genStmtsLoop_fid (islanders : List Islander) :
    ∀ (targets : List Islander) (prev : Option Islander) (r : Nat → Nat)
    (g : GSt), g.fid ≤ (genStmtsLoop islanders prev targets r g).2.fid := by
  intro targets
  induction targets with
  | nil => intro prev r g; exact Nat.le_refl _
  | cons tgt rest ih =>
      intro prev r g
      have hunfold : (genStmtsLoop islanders prev (tgt :: rest) r g).2 =
          (genStmtsLoop islanders
            (some ((genSrcPool islanders prev tgt).getD
              (r g.ri % (genSrcPool islanders prev tgt).length) dummyIslander))
            rest r ⟨g.ri + 1 + 1, g.fid + 1⟩).2 := rfl
      rw [hunfold]
      have h := ih (some ((genSrcPool islanders prev tgt).getD
        (r g.ri % (genSrcPool islanders prev tgt).length) dummyIslander)) r
        ⟨g.ri + 1 + 1, g.fid + 1⟩
      exact Nat.le_trans (Nat.le_succ g.fid) h

theorem bridgeLoop_fid : ∀ (comps : List (List Islander)) (joiner : Islander)
    (r : Nat → Nat) (g : GSt),
    g.fid ≤ (bridgeLoop comps joiner r g).2.fid := by
  intro comps
  induction comps with
  | nil => intro joiner r g; exact Nat.le_refl _
  | cons c0 more ih =>
      intro joiner r g
      have hunfold : (bridgeLoop (c0 :: more) joiner r g).2 =
          (bridgeLoop more joiner r ⟨g.ri + 1, g.fid + 1⟩).2 := rfl
      rw [hunfold]
      exact Nat.le_trans (Nat.le_succ g.fid) (ih joiner r ⟨g.ri + 1, g.fid + 1⟩)

theorem generate_statements_fid (islanders : List Islander) (r : Nat → Nat)
    (g : GSt) : g.fid ≤ (generate_statements islanders r g).2.fid := by
  by_cases h : islanders.length < 2
  · have heq : generate_statements islanders r g = (([] : List Stmt), g) := by
      unfold generate_statements
      rw [if_pos h]
      rfl
    rw [heq]
  · set base := genStmtsLoop islanders none islanders r g with hbasedef
    set pruned := prune_statements base.1 with hpruneddef
    set sets := connected_sets islanders islanders pruned with hsetsdef
    set bridges := bridgeLoop sets.tail ((sets.headD []).headD dummyIslander)
      r base.2 with hbridgesdef
    have hunfold : generate_statements islanders r g =
        shuffle (pruned ++ bridges.1) r bridges.2 := by
      unfold generate_statements
      rw [if_neg h]
      rfl
    rw [hunfold, shuffle_state]
    have h1 : g.fid ≤ base.2.fid := by
      rw [hbasedef]
      exact genStmtsLoop_fid islanders islanders none r g
    have h2 : base.2.fid ≤ bridges.2.fid := by
      rw [hbridgesdef]
      exact bridgeLoop_fid sets.tail ((sets.headD []).headD dummyIslander) r
        base.2
    exact Nat.le_trans h1 h2

theorem SimplePuzzle_spec (count : Nat) (names : List String) (r : Nat → Nat)
    (g : GSt) (hc : 1 ≤ count) :
    PuzInv (SimplePuzzle count names r g).1 ∧
    PairConn (SimplePuzzle count names r g).1 ∧
    AllTypeStmts (SimplePuzzle count names r g).1 ∧
    (SimplePuzzle count names r g).1.islanders.length = count ∧
    (∀ x ∈ (SimplePuzzle count names r g).1.islanders,
      g.fid ≤ x.id ∧ x.id < g.fid + count) ∧
    g.fid + count ≤ (SimplePuzzle count names r g).2.fid ∧
    (SimplePuzzle count names r g).1.knaves.length = (liarDraw count r g).1 ∧
    (SimplePuzzle count names r g).1.knights.length =
      count - (liarDraw count r g).1 := by
  obtain ⟨hLle, hL1, hL24, hL4⟩ := liarDraw_bounds count r g hc
  set L := (liarDraw count r g).1 with hLdef
  set g1 := (liarDraw count r g).2 with hg1def
  have hg1fid : g1.fid = g.fid := liarDraw_state count r g
  set kvP := pickIslanders Align.knave L names r g1 with hkvPdef
  obtain ⟨hkv1, hkv2, hkv3⟩ := pickIslanders_spec Align.knave L names r g1
  set g2 := kvP.2 with hg2def
  set knP := pickIslanders Align.knight (count - L) kvP.1.2 r g2 with hknPdef
  obtain ⟨hkn1, hkn2, hkn3⟩ :=
    pickIslanders_spec Align.knight (count - L) kvP.1.2 r g2
  set g3 := knP.2 with hg3def
  set knaves := kvP.1.1.map Prod.fst with hknavesdef
  set knights := knP.1.1.map Prod.fst with hknightsdef
  set shf := shuffle (knaves ++ knights) r g3 with hshfdef
  set islanders := shf.1 with hislandersdef
  set g4 := shf.2 with hg4def
  set gstmts := generate_statements islanders r g4 with hgstmtsdef
  have hunfold : SimplePuzzle count names r g =
      ({ islanders := islanders, statements := gstmts.1, knights := knights,
         knaves := knaves,
         names := (kvP.1.1 ++ knP.1.1).map (fun q => (q.1.id, q.2)),
         pool := knP.1.2 }, gstmts.2) := rfl
  rw [hunfold]
  have hknavesid : knaves.map (fun x => x.id) = List.range' g.fid L := by
    rw [hknavesdef, List.map_map]
    rw [← hg1fid]
    exact hkv1
  have hknightsid : knights.map (fun x => x.id) =
      List.range' (g.fid + L) (count - L) := by
    rw [hknightsdef, List.map_map]
    have : g2.fid = g.fid + L := by rw [hg2def, hkv3, hg1fid]
    rw [← this]
    exact hkn1
  have hbothid : (knaves ++ knights).map (fun x => x.id) =
      List.range' g.fid count := by
    rw [List.map_append, hknavesid, hknightsid]
    have := List.range'_append g.fid L (count - L) 1
    simp only [Nat.one_mul] at this
    rw [this]
    rw [show count - L + L = count by omega]
  have hbothnodup : (knaves ++ knights).Nodup := by
    have h := List.nodup_range' g.fid count
    rw [← hbothid] at h
    exact h.of_map _
  have hknnodup : knights.Nodup := by
    have h := List.nodup_range' (g.fid + L) (count - L)
    rw [← hknightsid] at h
    exact h.of_map _
  have hkvnodup : knaves.Nodup := by
    have h := List.nodup_range' g.fid L
    rw [← hknavesid] at h
    exact h.of_map _
  have hperm : List.Perm islanders (knaves ++ knights) := shuffle_perm _ r g3
  have hislnodup : islanders.Nodup := hperm.symm.nodup hbothnodup
  have hisllen : islanders.length = count := by
    rw [hperm.length_eq]
    have h1 : knaves.length = L := by
      have := congrArg List.length hknavesid
      simpa using this
    have h2 : knights.length = count - L := by
      have := congrArg List.length hknightsid
      simpa using this
    rw [List.length_append, h1, h2]
    omega
  have hkvlen : knaves.length = L := by
    have := congrArg List.length hknavesid
    simpa using this
  have hknlen : knights.length = count - L := by
    have := congrArg List.length hknightsid
    simpa using this
  have hkvalign : ∀ x ∈ knaves, x.align = Align.knave := by
    intro x hx
    rw [hknavesdef] at hx
    rw [List.mem_map] at hx
    obtain ⟨q, hq, rfl⟩ := hx
    exact hkv2 q hq
  have hknalign : ∀ x ∈ knights, x.align = Align.knight := by
    intro x hx
    rw [hknightsdef] at hx
    rw [List.mem_map] at hx
    obtain ⟨q, hq, rfl⟩ := hx
    exact hkn2 q hq
  have hislmem : ∀ x, x ∈ islanders ↔ x ∈ knaves ∨ x ∈ knights := by
    intro x
    rw [hperm.mem_iff, List.mem_append]
  have hpartK : ∀ x, x ∈ knights ↔ x ∈ islanders ∧ x.align = Align.knight := by
    intro x
    constructor
    · intro hx
      exact ⟨(hislmem x).2 (Or.inr hx), hknalign x hx⟩
    · rintro ⟨hx, hal⟩
      rcases (hislmem x).1 hx with h | h
      · rw [hkvalign x h] at hal
        cases hal
      · exact h
  have hpartN : ∀ x, x ∈ knaves ↔ x ∈ islanders ∧ x.align = Align.knave := by
    intro x
    constructor
    · intro hx
      exact ⟨(hislmem x).2 (Or.inl hx), hkvalign x hx⟩
    · rintro ⟨hx, hal⟩
      rcases (hislmem x).1 hx with h | h
      · exact h
      · rw [hknalign x h] at hal
        cases hal
  have hids : ∀ x ∈ islanders, g.fid ≤ x.id ∧ x.id < g.fid + count := by
    intro x hx
    have : x.id ∈ (knaves ++ knights).map (fun x => x.id) :=
      List.mem_map_of_mem _ (hperm.subset hx)
    rw [hbothid] at this
    rw [List.mem_range'] at this
    obtain ⟨i, hi, hxi⟩ := this
    omega
  have hstmts : (∀ s ∈ gstmts.1, s.source ∈ islanders ∧
      s.target ∈ islanders ∧
      (s.kind = StmtKind.accusation ∨ s.kind = StmtKind.affirmation) ∧
      factoryGood s) ∧
      (∀ x ∈ islanders, ∀ y ∈ islanders, Reach gstmts.1 x y) := by
    by_cases h2 : 2 ≤ count
    · exact generate_statements_spec islanders r g4 hislnodup (hisllen ▸ h2)
    · have hc1 : count = 1 := by omega
      have hlen1 : islanders.length = 1 := by rw [hisllen, hc1]
      have hlt : islanders.length < 2 := by omega
      have hstmtseq : gstmts = (([] : List Stmt), g4) := by
        rw [hgstmtsdef]
        unfold generate_statements
        rw [if_pos hlt]
        rfl
      rw [hstmtseq]
      refine ⟨fun s hs => absurd hs (List.not_mem_nil s), ?_⟩
      intro x hx y hy
      rw [mem_singleton_length islanders hlen1 x hx y hy]
      exact Reach.refl y
  have hfid4 : g4.fid = g.fid + count := by
    rw [hg4def, hshfdef, shuffle_state, hg3def, hkn3]
    show g2.fid + (count - L) = _
    rw [hg2def, hkv3, hg1fid]
    omega
  have hfid5 : g4.fid ≤ gstmts.2.fid := by
    rw [hgstmtsdef]
    exact generate_statements_fid islanders r g4
  refine ⟨⟨hislnodup, hknnodup, hkvnodup, hpartK, hpartN,
      fun s hs => ⟨(hstmts.1 s hs).1, (hstmts.1 s hs).2.1⟩,
      fun s hs => (hstmts.1 s hs).2.2.2⟩,
    hstmts.2, fun s hs => (hstmts.1 s hs).2.2.1, hisllen, hids, ?_, hkvlen,
    hknlen⟩
  rw [← hfid4]
  exact Nat.le_trans (Nat.le_of_eq rfl) hfid5

theorem Reach_transfer {stmts stmts2 : List Stmt} {a b : Islander}
    (hsub : ∀ t ∈ stmts, t ∈ stmts2 ∨
      ((t.source = a ∨ t.source = b) ∧ (t.target = a ∨ t.target = b)))
    (hab : Reach stmts2 a b) :
    ∀ {x y : Islander}, Reach stmts x y → Reach stmts2 x y := by
  have habs : ∀ c d : Islander, (c = a ∨ c = b) → (d = a ∨ d = b) →
      Reach stmts2 c d := by
    rintro c d (rfl | rfl) (rfl | rfl)
    · exact Reach.refl _
    · exact hab
    · exact hab.symm
    · exact Reach.refl _
  intro x y h
  induction h with
  | refl => exact Reach.refl x
  | tail h1 h2 ih =>
      obtain ⟨t, ht, hor⟩ := h2
      rcases hsub t ht with htin | ⟨hsrc, htgt⟩
      · exact Relation.ReflTransGen.tail ih ⟨t, htin, hor⟩
      · rcases hor with ⟨hs1, hs2⟩ | ⟨hs1, hs2⟩
        · rw [hs1] at hsrc
          rw [hs2] at htgt
          exact Reach.trans ih (habs _ _ hsrc htgt)
        · rw [hs1] at hsrc
          rw [hs2] at htgt
          exact Reach.trans ih (habs _ _ htgt hsrc)

theorem Reach_drop {stmts stmts2 : List Stmt} {a b : Islander}
    (hsub : ∀ t ∈ stmts, t ∈ stmts2 ∨
      ((t.source = a ∨ t.source = b) ∧ (t.target = a ∨ t.target = b)))
    {x y : Islander} (h : Reach stmts x y) :
    Reach stmts2 x y ∨ Reach stmts2 a y ∨ Reach stmts2 b y := by
  induction h with
  | refl => exact Or.inl (Reach.refl x)
  | tail h1 h2 ih =>
      obtain ⟨t, ht, hor⟩ := h2
      rcases hsub t ht with htin | ⟨hsrc, htgt⟩
      · rcases ih with ih | ih | ih
        · exact Or.inl (Relation.ReflTransGen.tail ih ⟨t, htin, hor⟩)
        · exact Or.inr (Or.inl (Relation.ReflTransGen.tail ih ⟨t, htin, hor⟩))
        · exact Or.inr (Or.inr (Relation.ReflTransGen.tail ih ⟨t, htin, hor⟩))
      · rcases hor with ⟨hs1, hs2⟩ | ⟨hs1, hs2⟩
        · rw [hs2] at htgt
          rcases htgt with hd | hd
          · rw [hd]
            exact Or.inr (Or.inl (Reach.refl a))
          · rw [hd]
            exact Or.inr (Or.inr (Reach.refl b))
        · rw [hs1] at hsrc
          rcases hsrc with hd | hd
          · rw [hd]
            exact Or.inr (Or.inl (Reach.refl a))
          · rw [hd]
            exact Or.inr (Or.inr (Reach.refl b))

theorem mem_endpoints_elim {stmts : List Stmt} {y : Islander}
    (h : y ∈ endpoints stmts) :
    ∃ s ∈ stmts, y = s.source ∨ y = s.target := by
  unfold endpoints at h
  rw [List.mem_flatMap] at h
  obtain ⟨s, hs, hy⟩ := h
  rw [List.mem_cons, List.mem_singleton] at hy
  rcases hy with hy | hy
  · exact ⟨s, hs, Or.inl hy⟩
  · exact ⟨s, hs, Or.inr hy⟩

theorem complete_with_match_spec (p : Puz) (r : Nat → Nat) (g : GSt)
    (hinv : PuzInv p) (hconn : PairConn p) (htype : AllTypeStmts p)
    (hlen : 2 ≤ p.islanders.length) :
    PuzInv (complete_with_match p r g).1 ∧
    PairConn (complete_with_match p r g).1 ∧
    Solvable (complete_with_match p r g).1 ∧
    (complete_with_match p r g).1.islanders = p.islanders ∧
    (complete_with_match p r g).1.knights = p.knights ∧
    (complete_with_match p r g).1.knaves = p.knaves := by
  have hlt2 : ¬ p.islanders.length < 2 := by omega
  have hne : p.islanders ≠ [] := by
    intro h
    rw [h] at hlen
    simp at hlen
  set src := (random_element p.islanders dummyIslander r g).1 with hsrcdef
  set g1 := (random_element p.islanders dummyIslander r g).2 with hg1def
  have hsrcmem : src ∈ p.islanders := random_element_mem _ _ _ _ hne
  set rem := p.islanders.filter (fun x => decide (x ≠ src)) with hremdef
  set nbrs := all_sources_and_targets src p.statements with hnbrsdef
  set left := rem.filter (fun x => decide (x ∉ nbrs)) with hleftdef
  set cand := (if left.isEmpty then rem else left) with hcanddef
  set tgt := (random_element cand dummyIslander r g1).1 with htgtdef
  set g2 := (random_element cand dummyIslander r g1).2 with hg2def
  have hremsub : ∀ z ∈ rem, z ∈ p.islanders := by
    intro z hz
    rw [hremdef] at hz
    exact (List.mem_filter.1 hz).1
  have hremne : rem ≠ [] := by
    obtain ⟨z, hz, hzne⟩ := two_distinct p.islanders hinv.1 hlen src
    have hzr : z ∈ rem := by
      rw [hremdef, List.mem_filter]
      exact ⟨hz, by simpa using hzne⟩
    exact List.ne_nil_of_mem hzr
  have hcandsub : ∀ z ∈ cand, z ∈ p.islanders := by
    rw [hcanddef]
    by_cases h : left.isEmpty
    · rw [if_pos h]
      exact hremsub
    · rw [if_neg h]
      intro z hz
      rw [hleftdef] at hz
      exact hremsub z (List.mem_filter.1 hz).1
  have hcandne : cand ≠ [] := by
    rw [hcanddef]
    by_cases h : left.isEmpty
    · rw [if_pos h]
      exact hremne
    · rw [if_neg h]
      intro hl
      rw [hl] at h
      exact h rfl
  have htgtmem : tgt ∈ p.islanders :=
    hcandsub _ (random_element_mem cand dummyIslander r g1 hcandne)
  set sN := (Islander.match_statement_for src tgt r g2).1 with hsNdef
  set g3 := (Islander.match_statement_for src tgt r g2).2 with hg3def
  set shf := shuffle (p.statements ++ [sN]) r g3 with hshfdef
  have hunfold : complete_with_match p r g =
      ({ p with statements := shf.1 }, shf.2) := by
    unfold complete_with_match
    rw [if_neg hlt2]
    rfl
  rw [hunfold]
  have hperm : List.Perm shf.1 (p.statements ++ [sN]) := shuffle_perm _ r g3
  have hsmem : ∀ t, t ∈ shf.1 ↔ t ∈ p.statements ∨ t = sN := by
    intro t
    rw [hperm.mem_iff, List.mem_append, List.mem_singleton]
  have hsNval : sN = ⟨g2.fid, src, tgt,
      if tgt.align = Align.knight then StmtKind.same
      else StmtKind.different⟩ := rfl
  have hgoodN : factoryGood sN := by
    rw [hsNval]
    exact match_kind_good g2.fid src tgt
  have hkindN : sN.kind = (if tgt.align = Align.knight then StmtKind.same
      else StmtKind.different) := rfl
  have hkindN2 : sN.kind = StmtKind.same ∨ sN.kind = StmtKind.different := by
    rw [hkindN]
    by_cases h : tgt.align = Align.knight
    · rw [if_pos h]
      exact Or.inl rfl
    · rw [if_neg h]
      exact Or.inr rfl
  refine ⟨⟨hinv.1, hinv.2.1, hinv.2.2.1, hinv.2.2.2.1, hinv.2.2.2.2.1,
    ?_, ?_⟩, ?_, ?_, rfl, rfl, rfl⟩
  · intro s hs
    rcases (hsmem s).1 hs with hs2 | rfl
    · exact hinv.2.2.2.2.2.1 s hs2
    · exact ⟨hsrcmem, htgtmem⟩
  · intro s hs
    rcases (hsmem s).1 hs with hs2 | rfl
    · exact hinv.2.2.2.2.2.2 s hs2
    · exact hgoodN
  · intro x hx y hy
    exact Reach_mono (fun t ht => (hsmem t).2 (Or.inl ht)) (hconn x hx y hy)
  · intro x hx
    refine ⟨tgt, ⟨sN, (hsmem sN).2 (Or.inr rfl), Or.inl ⟨hkindN2, rfl⟩⟩, ?_⟩
    refine Reach_mono ?_ (hconn tgt htgtmem x hx)
    intro t ht
    exact (typeOnly_mem _ t).2 ⟨(hsmem t).2 (Or.inl ht), htype t ht⟩

theorem complete_with_compound_spec (p : Puz) (r : Nat → Nat) (g : GSt)
    (hinv : PuzInv p) (hconn : PairConn p) (htype : AllTypeStmts p)
    (hlen : 2 ≤ p.islanders.length) :
    PuzInv (complete_with_compound p r g).1 ∧
    PairConn (complete_with_compound p r g).1 ∧
    Solvable (complete_with_compound p r g).1 ∧
    (complete_with_compound p r g).1.islanders = p.islanders ∧
    (complete_with_compound p r g).1.knights = p.knights ∧
    (complete_with_compound p r g).1.knaves = p.knaves := by
  have hlt2 : ¬ p.islanders.length < 2 := by omega
  have hne : p.islanders ≠ [] := by
    intro h
    rw [h] at hlen
    simp at hlen
  set src := (random_element p.islanders dummyIslander r g).1 with hsrcdef
  set g1 := (random_element p.islanders dummyIslander r g).2 with hg1def
  have hsrcmem : src ∈ p.islanders := random_element_mem _ _ _ _ hne
  set rem := p.islanders.filter (fun x => decide (x ≠ src)) with hremdef
  set nbrs := all_sources_and_targets src p.statements with hnbrsdef
  set left := rem.filter (fun x => decide (x ∉ nbrs)) with hleftdef
  set cand := (if left.isEmpty then rem else left) with hcanddef
  set tgt := (random_element cand dummyIslander r g1).1 with htgtdef
  set g2 := (random_element cand dummyIslander r g1).2 with hg2def
  have hremsub : ∀ z ∈ rem, z ∈ p.islanders := by
    intro z hz
    rw [hremdef] at hz
    exact (List.mem_filter.1 hz).1
  have hremne : rem ≠ [] := by
    obtain ⟨z, hz, hzne⟩ := two_distinct p.islanders hinv.1 hlen src
    have hzr : z ∈ rem := by
      rw [hremdef, List.mem_filter]
      exact ⟨hz, by simpa using hzne⟩
    exact List.ne_nil_of_mem hzr
  have hcandsub : ∀ z ∈ cand, z ∈ p.islanders := by
    rw [hcanddef]
    by_cases h : left.isEmpty
    · rw [if_pos h]
      exact hremsub
    · rw [if_neg h]
      intro z hz
      rw [hleftdef] at hz
      exact hremsub z (List.mem_filter.1 hz).1
  have hcandne : cand ≠ [] := by
    rw [hcanddef]
    by_cases h : left.isEmpty
    · rw [if_pos h]
      exact hremne
    · rw [if_neg h]
      intro hl
      rw [hl] at h
      exact h rfl
  have htgtmem : tgt ∈ p.islanders :=
    hcandsub _ (random_element_mem cand dummyIslander r g1 hcandne)
  set stmts1 := remove_statement_with src tgt p.statements with hstmts1def
  set sN := (Islander.compound_statement_for src tgt r g2).1 with hsNdef
  set g3 := (Islander.compound_statement_for src tgt r g2).2 with hg3def
  set shf := shuffle (stmts1 ++ [sN]) r g3 with hshfdef
  have hunfold : complete_with_compound p r g =
      ({ p with statements := shf.1 }, shf.2) := by
    unfold complete_with_compound
    rw [if_neg hlt2]
    rfl
  rw [hunfold]
  have hperm : List.Perm shf.1 (stmts1 ++ [sN]) := shuffle_perm _ r g3
  have hsmem : ∀ t, t ∈ shf.1 ↔ t ∈ stmts1 ∨ t = sN := by
    intro t
    rw [hperm.mem_iff, List.mem_append, List.mem_singleton]
  have hsub1 : ∀ t ∈ stmts1, t ∈ p.statements := by
    rw [hstmts1def]
    exact remove_statement_with_sub src tgt p.statements
  have hsNval : sN = ⟨g2.fid, src, tgt,
      if src.align = Align.knight then StmtKind.disjoint
      else StmtKind.joint⟩ := rfl
  have hgoodN : factoryGood sN := by
    rw [hsNval]
    exact compound_kind_good g2.fid src tgt
  have hkindN : sN.kind = (if src.align = Align.knight then StmtKind.disjoint
      else StmtKind.joint) := rfl
  have hkindN2 : sN.kind = StmtKind.disjoint ∨ sN.kind = StmtKind.joint := by
    rw [hkindN]
    by_cases h : src.align = Align.knight
    · rw [if_pos h]
      exact Or.inl rfl
    · rw [if_neg h]
      exact Or.inr rfl
  have hcases : ∀ t ∈ p.statements, t ∈ stmts1 ∨
      ((t.source = src ∨ t.source = tgt) ∧
        (t.target = src ∨ t.target = tgt)) := by
    intro t ht
    rw [hstmts1def]
    exact remove_statement_with_cases src tgt p.statements t ht
  refine ⟨⟨hinv.1, hinv.2.1, hinv.2.2.1, hinv.2.2.2.1, hinv.2.2.2.2.1,
    ?_, ?_⟩, ?_, ?_, rfl, rfl, rfl⟩
  · intro s hs
    rcases (hsmem s).1 hs with hs2 | rfl
    · exact hinv.2.2.2.2.2.1 s (hsub1 s hs2)
    · exact ⟨hsrcmem, htgtmem⟩
  · intro s hs
    rcases (hsmem s).1 hs with hs2 | rfl
    · exact hinv.2.2.2.2.2.2 s (hsub1 s hs2)
    · exact hgoodN
  · intro x hx y hy
    have hedge : stmtEdge shf.1 src tgt :=
      ⟨sN, (hsmem sN).2 (Or.inr rfl), Or.inl ⟨rfl, rfl⟩⟩
    refine Reach_transfer ?_ (Reach.single hedge) (hconn x hx y hy)
    intro t ht
    rcases hcases t ht with ht1 | hpair
    · exact Or.inl ((hsmem t).2 (Or.inl ht1))
    · exact Or.inr hpair
  · intro x hx
    have hbsrc : baseResolved shf.1 src :=
      ⟨sN, (hsmem sN).2 (Or.inr rfl), Or.inr ⟨hkindN2, Or.inl rfl⟩⟩
    have hbtgt : baseResolved shf.1 tgt :=
      ⟨sN, (hsmem sN).2 (Or.inr rfl), Or.inr ⟨hkindN2, Or.inr rfl⟩⟩
    have hsub2 : ∀ t ∈ p.statements, t ∈ typeOnly shf.1 ∨
        ((t.source = src ∨ t.source = tgt) ∧
          (t.target = src ∨ t.target = tgt)) := by
      intro t ht
      rcases hcases t ht with ht1 | hpair
      · exact Or.inl ((typeOnly_mem _ t).2
          ⟨(hsmem t).2 (Or.inl ht1), htype t ht⟩)
      · exact Or.inr hpair
    rcases Reach_drop hsub2 (hconn tgt htgtmem x hx) with hr | hr | hr
    · exact ⟨tgt, hbtgt, hr⟩
    · exact ⟨src, hbsrc, hr⟩
    · exact ⟨tgt, hbtgt, hr⟩

theorem random_completion_spec (p : Puz) (r : Nat → Nat) (g : GSt)
    (hinv : PuzInv p) (hconn : PairConn p) (htype : AllTypeStmts p)
    (hlen : 2 ≤ p.islanders.length) :
    PuzInv (random_completion p r g).1 ∧
    PairConn (random_completion p r g).1 ∧
    Solvable (random_completion p r g).1 ∧
    (random_completion p r g).1.islanders = p.islanders ∧
    (random_completion p r g).1.knights = p.knights ∧
    (random_completion p r g).1.knaves = p.knaves := by
  have hunfold : random_completion p r g =
      (if r g.ri % 2 = 0 then complete_with_match p
       else complete_with_compound p) r ⟨g.ri + 1, g.fid⟩ := by
    unfold random_completion
    rfl
  rw [hunfold]
  by_cases h : r g.ri % 2 = 0
  · rw [if_pos h]
    exact complete_with_match_spec p r ⟨g.ri + 1, g.fid⟩ hinv hconn htype hlen
  · rw [if_neg h]
    exact complete_with_compound_spec p r ⟨g.ri + 1, g.fid⟩ hinv hconn htype
      hlen

theorem emptyCompound_inv : PuzInv emptyCompound := by
  refine ⟨List.nodup_nil, List.nodup_nil, List.nodup_nil, ?_, ?_, ?_, ?_⟩
  · intro x
    constructor
    · intro hx
      exact absurd hx (List.not_mem_nil x)
    · rintro ⟨hx, _⟩
      exact absurd hx (List.not_mem_nil x)
  · intro x
    constructor
    · intro hx
      exact absurd hx (List.not_mem_nil x)
    · rintro ⟨hx, _⟩
      exact absurd hx (List.not_mem_nil x)
  · intro s hs
    exact absurd hs (List.not_mem_nil s)
  · intro s hs
    exact absurd hs (List.not_mem_nil s)

theorem join_mem (cp other : Puz) :
    (∀ x, x ∈ (join cp other).islanders ↔
      x ∈ cp.islanders ∨ x ∈ other.islanders) ∧
    (∀ s, s ∈ (join cp other).statements ↔
      s ∈ cp.statements ∨ s ∈ other.statements) ∧
    (∀ x, x ∈ (join cp other).knights ↔
      x ∈ cp.knights ∨ x ∈ other.knights) ∧
    (∀ x, x ∈ (join cp other).knaves ↔
      x ∈ cp.knaves ∨ x ∈ other.knaves) := by
  refine ⟨?_, ?_, ?_, ?_⟩
  · intro z
    exact add_all_unique_mem _ _ z
  · intro z
    exact add_all_unique_mem _ _ z
  · intro z
    exact add_all_unique_mem _ _ z
  · intro z
    exact add_all_unique_mem _ _ z

theorem join_inv (cp other : Puz) (h1 : PuzInv cp) (h2 : PuzInv other) :
    PuzInv (join cp other) := by
  obtain ⟨hm1, hm2, hm3, hm4⟩ := join_mem cp other
  refine ⟨add_all_unique_nodup _ _ h1.1, add_all_unique_nodup _ _ h1.2.1,
    add_all_unique_nodup _ _ h1.2.2.1, ?_, ?_, ?_, ?_⟩
  · intro x
    rw [hm3 x, hm1 x]
    constructor
    · rintro (hx | hx)
      · obtain ⟨hxi, hal⟩ := (h1.2.2.2.1 x).1 hx
        exact ⟨Or.inl hxi, hal⟩
      · obtain ⟨hxi, hal⟩ := (h2.2.2.2.1 x).1 hx
        exact ⟨Or.inr hxi, hal⟩
    · rintro ⟨hxi | hxi, hal⟩
      · exact Or.inl ((h1.2.2.2.1 x).2 ⟨hxi, hal⟩)
      · exact Or.inr ((h2.2.2.2.1 x).2 ⟨hxi, hal⟩)
  · intro x
    rw [hm4 x, hm1 x]
    constructor
    · rintro (hx | hx)
      · obtain ⟨hxi, hal⟩ := (h1.2.2.2.2.1 x).1 hx
        exact ⟨Or.inl hxi, hal⟩
      · obtain ⟨hxi, hal⟩ := (h2.2.2.2.2.1 x).1 hx
        exact ⟨Or.inr hxi, hal⟩
    · rintro ⟨hxi | hxi, hal⟩
      · exact Or.inl ((h1.2.2.2.2.1 x).2 ⟨hxi, hal⟩)
      · exact Or.inr ((h2.2.2.2.2.1 x).2 ⟨hxi, hal⟩)
  · intro s hs
    rcases (hm2 s).1 hs with hs2 | hs2
    · obtain ⟨ha, hb⟩ := h1.2.2.2.2.2.1 s hs2
      exact ⟨(hm1 _).2 (Or.inl ha), (hm1 _).2 (Or.inl hb)⟩
    · obtain ⟨ha, hb⟩ := h2.2.2.2.2.2.1 s hs2
      exact ⟨(hm1 _).2 (Or.inr ha), (hm1 _).2 (Or.inr hb)⟩
  · intro s hs
    rcases (hm2 s).1 hs with hs2 | hs2
    · exact h1.2.2.2.2.2.2 s hs2
    · exact h2.2.2.2.2.2.2 s hs2

theorem join_nil_spec (p : Puz) (hinv : PuzInv p) :
    PuzInv (join emptyCompound p) ∧
    (PairConn p → PairConn (join emptyCompound p)) ∧
    (Solvable p → Solvable (join emptyCompound p)) ∧
    (AllTypeStmts p → AllTypeStmts (join emptyCompound p)) ∧
    (∀ x, x ∈ (join emptyCompound p).islanders ↔ x ∈ p.islanders) ∧
    (∀ s, s ∈ (join emptyCompound p).statements ↔ s ∈ p.statements) := by
  obtain ⟨hm1, hm2, hm3, hm4⟩ := join_mem emptyCompound p
  have hi : ∀ x, x ∈ (join emptyCompound p).islanders ↔ x ∈ p.islanders := by
    intro x
    rw [hm1 x]
    constructor
    · rintro (hx | hx)
      · exact absurd hx (List.not_mem_nil x)
      · exact hx
    · exact Or.inr
  have hst : ∀ s, s ∈ (join emptyCompound p).statements ↔
      s ∈ p.statements := by
    intro s
    rw [hm2 s]
    constructor
    · rintro (hs | hs)
      · exact absurd hs (List.not_mem_nil s)
      · exact hs
    · exact Or.inr
  refine ⟨join_inv emptyCompound p emptyCompound_inv hinv, ?_, ?_, ?_, hi, hst⟩
  · intro hconn x hx y hy
    exact Reach_mono (fun t ht => (hst t).2 ht)
      (hconn x ((hi x).1 hx) y ((hi y).1 hy))
  · intro hsolv x hx
    obtain ⟨b, hb, hr⟩ := hsolv x ((hi x).1 hx)
    refine ⟨b, ?_, ?_⟩
    · obtain ⟨t, ht, hprop⟩ := hb
      exact ⟨t, (hst t).2 ht, hprop⟩
    · refine Reach_mono ?_ hr
      intro t ht
      rw [typeOnly_mem] at ht
      exact (typeOnly_mem _ t).2 ⟨(hst t).2 ht.1, ht.2⟩
  · intro htype s hs
    exact htype s ((hst s).1 hs)

theorem join_with_match_spec (cp other : Puz) (r : Nat → Nat) (g : GSt)
    (h1 : PuzInv cp) (h2 : PuzInv other) (hc1 : PairConn cp)
    (hc2 : PairConn other) (ht2 : AllTypeStmts other) (hs1 : Solvable cp)
    (hne1 : cp.islanders ≠ []) (hne2 : other.islanders ≠ []) :
    PuzInv (join_with_match cp other r g).1 ∧
    PairConn (join_with_match cp other r g).1 ∧
    Solvable (join_with_match cp other r g).1 ∧
    (∀ x, x ∈ (join_with_match cp other r g).1.islanders ↔
      x ∈ cp.islanders ∨ x ∈ other.islanders) := by
  set a := (random_element cp.islanders dummyIslander r g).1 with hadef
  set g1 := (random_element cp.islanders dummyIslander r g).2 with hg1def
  set b := (random_element other.islanders dummyIslander r g1).1 with hbdef
  set g2 := (random_element other.islanders dummyIslander r g1).2 with hg2def
  have hamem : a ∈ cp.islanders := random_element_mem _ _ _ _ hne1
  have hbmem : b ∈ other.islanders := random_element_mem _ _ _ _ hne2
  set sN := (Islander.match_statement_for a b r g2).1 with hsNdef
  set g3 := (Islander.match_statement_for a b r g2).2 with hg3def
  have hunfold : join_with_match cp other r g =
      ({ join cp other with
          statements := (join cp other).statements ++ [sN] }, g3) := by
    unfold join_with_match
    rfl
  rw [hunfold]
  obtain ⟨hm1, hm2, hm3, hm4⟩ := join_mem cp other
  have hinv2 := join_inv cp other h1 h2
  have hsm : ∀ t, t ∈ (join cp other).statements ++ [sN] ↔
      (t ∈ cp.statements ∨ t ∈ other.statements) ∨ t = sN := by
    intro t
    rw [List.mem_append, List.mem_singleton, hm2 t]
  have hkindN : sN.kind = (if b.align = Align.knight then StmtKind.same
      else StmtKind.different) := rfl
  have hkindN2 : sN.kind = StmtKind.same ∨ sN.kind = StmtKind.different := by
    rw [hkindN]
    by_cases h : b.align = Align.knight
    · rw [if_pos h]
      exact Or.inl rfl
    · rw [if_neg h]
      exact Or.inr rfl
  have hgoodN : factoryGood sN := match_kind_good g2.fid a b
  have hcpsub : ∀ t ∈ cp.statements, t ∈ (join cp other).statements ++ [sN] :=
    fun t ht => (hsm t).2 (Or.inl (Or.inl ht))
  have hotsub : ∀ t ∈ other.statements,
      t ∈ (join cp other).statements ++ [sN] :=
    fun t ht => (hsm t).2 (Or.inl (Or.inr ht))
  have hcross : Reach ((join cp other).statements ++ [sN]) a b :=
    Reach.single ⟨sN, (hsm sN).2 (Or.inr rfl), Or.inl ⟨rfl, rfl⟩⟩
  have hcpR : ∀ x ∈ cp.islanders, ∀ y ∈ cp.islanders,
      Reach ((join cp other).statements ++ [sN]) x y :=
    fun x hx y hy => Reach_mono hcpsub (hc1 x hx y hy)
  have hotR : ∀ x ∈ other.islanders, ∀ y ∈ other.islanders,
      Reach ((join cp other).statements ++ [sN]) x y :=
    fun x hx y hy => Reach_mono hotsub (hc2 x hx y hy)
  refine ⟨⟨hinv2.1, hinv2.2.1, hinv2.2.2.1, hinv2.2.2.2.1, hinv2.2.2.2.2.1,
    ?_, ?_⟩, ?_, ?_, hm1⟩
  · intro s hs
    rcases (hsm s).1 hs with hs2 | rfl
    · rcases hs2 with hs3 | hs3
      · obtain ⟨hx, hy⟩ := h1.2.2.2.2.2.1 s hs3
        exact ⟨(hm1 _).2 (Or.inl hx), (hm1 _).2 (Or.inl hy)⟩
      · obtain ⟨hx, hy⟩ := h2.2.2.2.2.2.1 s hs3
        exact ⟨(hm1 _).2 (Or.inr hx), (hm1 _).2 (Or.inr hy)⟩
    · exact ⟨(hm1 _).2 (Or.inl hamem), (hm1 _).2 (Or.inr hbmem)⟩
  · intro s hs
    rcases (hsm s).1 hs with hs2 | rfl
    · rcases hs2 with hs3 | hs3
      · exact h1.2.2.2.2.2.2 s hs3
      · exact h2.2.2.2.2.2.2 s hs3
    · exact hgoodN
  · intro x hx y hy
    rcases (hm1 x).1 hx with hx2 | hx2 <;> rcases (hm1 y).1 hy with hy2 | hy2
    · exact hcpR x hx2 y hy2
    · exact (hcpR x hx2 a hamem).trans (hcross.trans (hotR b hbmem y hy2))
    · exact ((hotR x hx2 b hbmem).trans hcross.symm).trans (hcpR a hamem y hy2)
    · exact hotR x hx2 y hy2
  · intro x hx
    rcases (hm1 x).1 hx with hx2 | hx2
    · obtain ⟨b0, hb0, hr⟩ := hs1 x hx2
      refine ⟨b0, ?_, ?_⟩
      · obtain ⟨t, ht, hprop⟩ := hb0
        exact ⟨t, hcpsub t ht, hprop⟩
      · refine Reach_mono ?_ hr
        intro t ht
        rw [typeOnly_mem] at ht
        exact (typeOnly_mem _ t).2 ⟨hcpsub t ht.1, ht.2⟩
    · refine ⟨b, ⟨sN, (hsm sN).2 (Or.inr rfl), Or.inl ⟨hkindN2, rfl⟩⟩, ?_⟩
      refine Reach_mono ?_ (hc2 b hbmem x hx2)
      intro t ht
      exact (typeOnly_mem _ t).2 ⟨hotsub t ht, ht2 t ht⟩

theorem join_with_compound_spec (cp other : Puz) (r : Nat → Nat) (g : GSt)
    (h1 : PuzInv cp) (h2 : PuzInv other) (hc1 : PairConn cp)
    (hc2 : PairConn other) (ht2 : AllTypeStmts other)
    (hcov : Solvable cp ∨ AllTypeStmts cp)
    (hne1 : cp.islanders ≠ []) (hne2 : other.islanders ≠ []) :
    PuzInv (join_with_compound cp other r g).1 ∧
    PairConn (join_with_compound cp other r g).1 ∧
    Solvable (join_with_compound cp other r g).1 ∧
    (∀ x, x ∈ (join_with_compound cp other r g).1.islanders ↔
      x ∈ cp.islanders ∨ x ∈ other.islanders) := by
  set a := (random_element cp.islanders dummyIslander r g).1 with hadef
  set g1 := (random_element cp.islanders dummyIslander r g).2 with hg1def
  set b := (random_element other.islanders dummyIslander r g1).1 with hbdef
  set g2 := (random_element other.islanders dummyIslander r g1).2 with hg2def
  have hamem : a ∈ cp.islanders := random_element_mem _ _ _ _ hne1
  have hbmem : b ∈ other.islanders := random_element_mem _ _ _ _ hne2
  set sN := (Islander.compound_statement_for a b r g2).1 with hsNdef
  set g3 := (Islander.compound_statement_for a b r g2).2 with hg3def
  have hunfold : join_with_compound cp other r g =
      ({ join cp other with
          statements := (join cp other).statements ++ [sN] }, g3) := by
    unfold join_with_compound
    rfl
  rw [hunfold]
  obtain ⟨hm1, hm2, hm3, hm4⟩ := join_mem cp other
  have hinv2 := join_inv cp other h1 h2
  have hsm : ∀ t, t ∈ (join cp other).statements ++ [sN] ↔
      (t ∈ cp.statements ∨ t ∈ other.statements) ∨ t = sN := by
    intro t
    rw [List.mem_append, List.mem_singleton, hm2 t]
  have hkindN : sN.kind = (if a.align = Align.knight then StmtKind.disjoint
      else StmtKind.joint) := rfl
  have hkindN2 : sN.kind = StmtKind.disjoint ∨ sN.kind = StmtKind.joint := by
    rw [hkindN]
    by_cases h : a.align = Align.knight
    · rw [if_pos h]
      exact Or.inl rfl
    · rw [if_neg h]
      exact Or.inr rfl
  have hgoodN : factoryGood sN := compound_kind_good g2.fid a b
  have hcpsub : ∀ t ∈ cp.statements, t ∈ (join cp other).statements ++ [sN] :=
    fun t ht => (hsm t).2 (Or.inl (Or.inl ht))
  have hotsub : ∀ t ∈ other.statements,
      t ∈ (join cp other).statements ++ [sN] :=
    fun t ht => (hsm t).2 (Or.inl (Or.inr ht))
  have hcross : Reach ((join cp other).statements ++ [sN]) a b :=
    Reach.single ⟨sN, (hsm sN).2 (Or.inr rfl), Or.inl ⟨rfl, rfl⟩⟩
  have hcpR : ∀ x ∈ cp.islanders, ∀ y ∈ cp.islanders,
      Reach ((join cp other).statements ++ [sN]) x y :=
    fun x hx y hy => Reach_mono hcpsub (hc1 x hx y hy)
  have hotR : ∀ x ∈ other.islanders, ∀ y ∈ other.islanders,
      Reach ((join cp other).statements ++ [sN]) x y :=
    fun x hx y hy => Reach_mono hotsub (hc2 x hx y hy)
  refine ⟨⟨hinv2.1, hinv2.2.1, hinv2.2.2.1, hinv2.2.2.2.1, hinv2.2.2.2.2.1,
    ?_, ?_⟩, ?_, ?_, hm1⟩
  · intro s hs
    rcases (hsm s).1 hs with hs2 | rfl
    · rcases hs2 with hs3 | hs3
      · obtain ⟨hx, hy⟩ := h1.2.2.2.2.2.1 s hs3
        exact ⟨(hm1 _).2 (Or.inl hx), (hm1 _).2 (Or.inl hy)⟩
      · obtain ⟨hx, hy⟩ := h2.2.2.2.2.2.1 s hs3
        exact ⟨(hm1 _).2 (Or.inr hx), (hm1 _).2 (Or.inr hy)⟩
    · exact ⟨(hm1 _).2 (Or.inl hamem), (hm1 _).2 (Or.inr hbmem)⟩
  · intro s hs
    rcases (hsm s).1 hs with hs2 | rfl
    · rcases hs2 with hs3 | hs3
      · exact h1.2.2.2.2.2.2 s hs3
      · exact h2.2.2.2.2.2.2 s hs3
    · exact hgoodN
  · intro x hx y hy
    rcases (hm1 x).1 hx with hx2 | hx2 <;> rcases (hm1 y).1 hy with hy2 | hy2
    · exact hcpR x hx2 y hy2
    · exact (hcpR x hx2 a hamem).trans (hcross.trans (hotR b hbmem y hy2))
    · exact ((hotR x hx2 b hbmem).trans hcross.symm).trans (hcpR a hamem y hy2)
    · exact hotR x hx2 y hy2
  · intro x hx
    rcases (hm1 x).1 hx with hx2 | hx2
    · rcases hcov with hcov | hcov
      · obtain ⟨b0, hb0, hr⟩ := hcov x hx2
        refine ⟨b0, ?_, ?_⟩
        · obtain ⟨t, ht, hprop⟩ := hb0
          exact ⟨t, hcpsub t ht, hprop⟩
        · refine Reach_mono ?_ hr
          intro t ht
          rw [typeOnly_mem] at ht
          exact (typeOnly_mem _ t).2 ⟨hcpsub t ht.1, ht.2⟩
      · refine ⟨a, ⟨sN, (hsm sN).2 (Or.inr rfl),
          Or.inr ⟨hkindN2, Or.inl rfl⟩⟩, ?_⟩
        refine Reach_mono ?_ (hc1 a hamem x hx2)
        intro t ht
        exact (typeOnly_mem _ t).2 ⟨hcpsub t ht, hcov t ht⟩
    · refine ⟨b, ⟨sN, (hsm sN).2 (Or.inr rfl),
        Or.inr ⟨hkindN2, Or.inr rfl⟩⟩, ?_⟩
      refine Reach_mono ?_ (hc2 b hbmem x hx2)
      intro t ht
      exact (typeOnly_mem _ t).2 ⟨hotsub t ht, ht2 t ht⟩

theorem random_join_spec (cp other : Puz) (r : Nat → Nat) (g : GSt)
    (h1 : PuzInv cp) (h2 : PuzInv other) (hc1 : PairConn cp)
    (hc2 : PairConn other) (ht2 : AllTypeStmts other) (hs1 : Solvable cp)
    (hne1 : cp.islanders ≠ []) (hne2 : other.islanders ≠ []) :
    PuzInv (random_join cp other r g).1 ∧
    PairConn (random_join cp other r g).1 ∧
    Solvable (random_join cp other r g).1 ∧
    (∀ x, x ∈ (random_join cp other r g).1.islanders ↔
      x ∈ cp.islanders ∨ x ∈ other.islanders) := by
  have hunfold : random_join cp other r g =
      (if r g.ri % 2 = 0 then join_with_match cp other
       else join_with_compound cp other) r ⟨g.ri + 1, g.fid⟩ := by
    unfold random_join
    rfl
  rw [hunfold]
  by_cases h : r g.ri % 2 = 0
  · rw [if_pos h]
    exact join_with_match_spec cp other r ⟨g.ri + 1, g.fid⟩ h1 h2 hc1 hc2 ht2
      hs1 hne1 hne2
  · rw [if_neg h]
    exact join_with_compound_spec cp other r ⟨g.ri + 1, g.fid⟩ h1 h2 hc1 hc2
      ht2 (Or.inl hs1) hne1 hne2

theorem exists_mem_len {α : Type} (l : List α) (n : Nat) (h : l.length = n)
    (hn : 0 < n) : ∃ x, x ∈ l := by
  cases l with
  | nil =>
      simp at h
      omega
  | cons a t => exact ⟨a, List.mem_cons_self a t⟩

theorem easy0_spec (r : Nat → Nat) (g : GSt) :
    PuzInv (easy0 r g).1 ∧ PairConn (easy0 r g).1 ∧ Solvable (easy0 r g).1 ∧
    (easy0 r g).1.islanders ≠ [] := by
  set sp := SimplePuzzle 2 name_set r g with hspdef
  have hunfold : easy0 r g = complete_with_match sp.1 r sp.2 := by
    unfold easy0
    rfl
  rw [hunfold]
  obtain ⟨hinv, hconn, htype, hlen, _, _, _, _⟩ :=
    SimplePuzzle_spec 2 name_set r g (by omega)
  have h2 : 2 ≤ sp.1.islanders.length := by
    rw [hspdef]
    omega
  obtain ⟨hinv2, hconn2, hsolv2, hisl, _, _⟩ :=
    complete_with_match_spec sp.1 r sp.2 hinv hconn htype h2
  refine ⟨hinv2, hconn2, hsolv2, ?_⟩
  rw [hisl]
  intro hnil
  rw [hspdef] at hnil
  rw [hnil] at hlen
  simp at hlen

theorem easy1_spec (r : Nat → Nat) (g : GSt) :
    PuzInv (easy1 r g).1 ∧ PairConn (easy1 r g).1 ∧ Solvable (easy1 r g).1 ∧
    (easy1 r g).1.islanders ≠ [] := by
  set sp := SimplePuzzle 2 name_set r g with hspdef
  have hunfold : easy1 r g = complete_with_compound sp.1 r sp.2 := by
    unfold easy1
    rfl
  rw [hunfold]
  obtain ⟨hinv, hconn, htype, hlen, _, _, _, _⟩ :=
    SimplePuzzle_spec 2 name_set r g (by omega)
  have h2 : 2 ≤ sp.1.islanders.length := by
    rw [hspdef]
    omega
  obtain ⟨hinv2, hconn2, hsolv2, hisl, _, _⟩ :=
    complete_with_compound_spec sp.1 r sp.2 hinv hconn htype h2
  refine ⟨hinv2, hconn2, hsolv2, ?_⟩
  rw [hisl]
  intro hnil
  rw [hspdef] at hnil
  rw [hnil] at hlen
  simp at hlen

theorem easy2_spec (r : Nat → Nat) (g : GSt) :
    PuzInv (easy2 r g).1 ∧ PairConn (easy2 r g).1 ∧ Solvable (easy2 r g).1 ∧
    (easy2 r g).1.islanders ≠ [] := by
  set sp := SimplePuzzle 3 name_set r g with hspdef
  have hunfold : easy2 r g = random_completion sp.1 r sp.2 := by
    unfold easy2
    rfl
  rw [hunfold]
  obtain ⟨hinv, hconn, htype, hlen, _, _, _, _⟩ :=
    SimplePuzzle_spec 3 name_set r g (by omega)
  have h2 : 2 ≤ sp.1.islanders.length := by
    rw [hspdef]
    omega
  obtain ⟨hinv2, hconn2, hsolv2, hisl, _, _⟩ :=
    random_completion_spec sp.1 r sp.2 hinv hconn htype h2
  refine ⟨hinv2, hconn2, hsolv2, ?_⟩
  rw [hisl]
  intro hnil
  rw [hspdef] at hnil
  rw [hnil] at hlen
  simp at hlen

theorem easy_spec (r : Nat → Nat) (g : GSt) :
    PuzInv (easy r g).1 ∧ PairConn (easy r g).1 ∧ Solvable (easy r g).1 ∧
    (easy r g).1.islanders ≠ [] := by
  have hunfold : easy r g =
      (if r g.ri % 3 = 0 then easy0
       else if r g.ri % 3 = 1 then easy1 else easy2) r ⟨g.ri + 1, g.fid⟩ := by
    unfold easy
    rfl
  rw [hunfold]
  by_cases h0 : r g.ri % 3 = 0
  · rw [if_pos h0]
    exact easy0_spec r ⟨g.ri + 1, g.fid⟩
  · rw [if_neg h0]
    by_cases h1 : r g.ri % 3 = 1
    · rw [if_pos h1]
      exact easy1_spec r ⟨g.ri + 1, g.fid⟩
    · rw [if_neg h1]
      exact easy2_spec r ⟨g.ri + 1, g.fid⟩

theorem medium_spec (r : Nat → Nat) (g : GSt) :
    PuzInv (medium r g).1 ∧ PairConn (medium r g).1 ∧
    Solvable (medium r g).1 ∧ (medium r g).1.islanders ≠ [] := by
  have hunfold : medium r g =
      (if r g.ri % 3 = 0 then
        (SimplePuzzle 3 name_set >>= fun a =>
          SimplePuzzle 1 name_set >>= fun b =>
          random_completion a >>= fun a2 =>
          random_join (join emptyCompound a2) b)
       else if r g.ri % 3 = 1 then
        (SimplePuzzle 3 name_set >>= fun a =>
          complete_with_match a >>= fun a2 =>
          pure (join emptyCompound a2))
       else
        (SimplePuzzle 1 name_set >>= fun a =>
          SimplePuzzle 3 name_set >>= fun b =>
          join_with_compound (join emptyCompound a) b)) r
        ⟨g.ri + 1, g.fid⟩ := by
    unfold medium
    rfl
  rw [hunfold]
  by_cases h0 : r g.ri % 3 = 0
  · rw [if_pos h0]
    set A := SimplePuzzle 3 name_set r ⟨g.ri + 1, g.fid⟩ with hAdef
    set B := SimplePuzzle 1 name_set r A.2 with hBdef
    set A2 := random_completion A.1 r B.2 with hA2def
    have hb : (SimplePuzzle 3 name_set >>= fun a =>
        SimplePuzzle 1 name_set >>= fun b =>
        random_completion a >>= fun a2 =>
        random_join (join emptyCompound a2) b) r ⟨g.ri + 1, g.fid⟩ =
        random_join (join emptyCompound A2.1) B.1 r A2.2 := rfl
    rw [hb]
    obtain ⟨hinvA, hconnA, htypeA, hlenA, _, _, _, _⟩ :=
      SimplePuzzle_spec 3 name_set r ⟨g.ri + 1, g.fid⟩ (by omega)
    obtain ⟨hinvB, hconnB, htypeB, hlenB, _, _, _, _⟩ :=
      SimplePuzzle_spec 1 name_set r A.2 (by omega)
    have h2 : 2 ≤ A.1.islanders.length := by
      rw [hAdef]
      omega
    obtain ⟨hinvA2, hconnA2, hsolvA2, hislA2, _, _⟩ :=
      random_completion_spec A.1 r B.2 hinvA hconnA htypeA h2
    obtain ⟨hinvCP, hconnCPf, hsolvCPf, _, hiCP, _⟩ := join_nil_spec A2.1 hinvA2
    obtain ⟨x0, hx0⟩ := exists_mem_len A.1.islanders 3
      (by rw [hAdef]; exact hlenA) (by omega)
    have hx0A2 : x0 ∈ A2.1.islanders := by
      rw [hA2def, hislA2]
      exact hx0
    have hneCP : (join emptyCompound A2.1).islanders ≠ [] :=
      List.ne_nil_of_mem ((hiCP x0).2 hx0A2)
    obtain ⟨y0, hy0⟩ := exists_mem_len B.1.islanders 1
      (by rw [hBdef]; exact hlenB) (by omega)
    have hneB : B.1.islanders ≠ [] := List.ne_nil_of_mem hy0
    obtain ⟨hinvO, hconnO, hsolvO, hmO⟩ :=
      random_join_spec (join emptyCompound A2.1) B.1 r A2.2 hinvCP hinvB
        (hconnCPf hconnA2) hconnB htypeB (hsolvCPf hsolvA2) hneCP hneB
    refine ⟨hinvO, hconnO, hsolvO, ?_⟩
    exact List.ne_nil_of_mem ((hmO x0).2 (Or.inl ((hiCP x0).2 hx0A2)))
  · rw [if_neg h0]
    by_cases h1 : r g.ri % 3 = 1
    · rw [if_pos h1]
      set A := SimplePuzzle 3 name_set r ⟨g.ri + 1, g.fid⟩ with hAdef
      set A2 := complete_with_match A.1 r A.2 with hA2def
      have hb : (SimplePuzzle 3 name_set >>= fun a =>
          complete_with_match a >>= fun a2 =>
          pure (join emptyCompound a2)) r ⟨g.ri + 1, g.fid⟩ =
          (join emptyCompound A2.1, A2.2) := rfl
      rw [hb]
      obtain ⟨hinvA, hconnA, htypeA, hlenA, _, _, _, _⟩ :=
        SimplePuzzle_spec 3 name_set r ⟨g.ri + 1, g.fid⟩ (by omega)
      have h2 : 2 ≤ A.1.islanders.length := by
        rw [hAdef]
        omega
      obtain ⟨hinvA2, hconnA2, hsolvA2, hislA2, _, _⟩ :=
        complete_with_match_spec A.1 r A.2 hinvA hconnA htypeA h2
      obtain ⟨hinvCP, hconnCPf, hsolvCPf, _, hiCP, _⟩ :=
        join_nil_spec A2.1 hinvA2
      refine ⟨hinvCP, hconnCPf hconnA2, hsolvCPf hsolvA2, ?_⟩
      obtain ⟨x0, hx0⟩ := exists_mem_len A.1.islanders 3
        (by rw [hAdef]; exact hlenA) (by omega)
      have hx0A2 : x0 ∈ A2.1.islanders := by
        rw [hA2def, hislA2]
        exact hx0
      exact List.ne_nil_of_mem ((hiCP x0).2 hx0A2)
    · rw [if_neg h1]
      set A := SimplePuzzle 1 name_set r ⟨g.ri + 1, g.fid⟩ with hAdef
      set B := SimplePuzzle 3 name_set r A.2 with hBdef
      have hb : (SimplePuzzle 1 name_set >>= fun a =>
          SimplePuzzle 3 name_set >>= fun b =>
          join_with_compound (join emptyCompound a) b) r ⟨g.ri + 1, g.fid⟩ =
          join_with_compound (join emptyCompound A.1) B.1 r B.2 := rfl
      rw [hb]
      obtain ⟨hinvA, hconnA, htypeA, hlenA, _, _, _, _⟩ :=
        SimplePuzzle_spec 1 name_set r ⟨g.ri + 1, g.fid⟩ (by omega)
      obtain ⟨hinvB, hconnB, htypeB, hlenB, _, _, _, _⟩ :=
        SimplePuzzle_spec 3 name_set r A.2 (by omega)
      obtain ⟨hinvCP, hconnCPf, _, htypeCPf, hiCP, _⟩ := join_nil_spec A.1 hinvA
      obtain ⟨x0, hx0⟩ := exists_mem_len A.1.islanders 1
        (by rw [hAdef]; exact hlenA) (by omega)
      have hneCP : (join emptyCompound A.1).islanders ≠ [] :=
        List.ne_nil_of_mem ((hiCP x0).2 hx0)
      obtain ⟨y0, hy0⟩ := exists_mem_len B.1.islanders 3
        (by rw [hBdef]; exact hlenB) (by omega)
      have hneB : B.1.islanders ≠ [] := List.ne_nil_of_mem hy0
      obtain ⟨hinvO, hconnO, hsolvO, hmO⟩ :=
        join_with_compound_spec (join emptyCompound A.1) B.1 r B.2 hinvCP
          hinvB (hconnCPf hconnA) hconnB htypeB (Or.inr (htypeCPf htypeA))
          hneCP hneB
      refine ⟨hinvO, hconnO, hsolvO, ?_⟩
      exact List.ne_nil_of_mem ((hmO x0).2 (Or.inl ((hiCP x0).2 hx0)))

theorem hard_spec (r : Nat → Nat) (g : GSt) :
    PuzInv (hard r g).1 ∧ PairConn (hard r g).1 ∧
    Solvable (hard r g).1 ∧ (hard r g).1.islanders ≠ [] := by
  set A := SimplePuzzle 3 name_set r ⟨g.ri + 1, g.fid⟩ with hAdef
  set B := SimplePuzzle 3 name_set r A.2 with hBdef
  have hunfold : hard r g =
      (if r g.ri % 2 = 0 then
        join_with_compound (join emptyCompound A.1) B.1
       else
        (complete_with_match A.1 >>= fun a2 =>
          join_with_match (join emptyCompound a2) B.1)) r B.2 := by
    unfold hard
    rfl
  rw [hunfold]
  obtain ⟨hinvA, hconnA, htypeA, hlenA, _, _, _, _⟩ :=
    SimplePuzzle_spec 3 name_set r ⟨g.ri + 1, g.fid⟩ (by omega)
  obtain ⟨hinvB, hconnB, htypeB, hlenB, _, _, _, _⟩ :=
    SimplePuzzle_spec 3 name_set r A.2 (by omega)
  obtain ⟨y0, hy0⟩ := exists_mem_len B.1.islanders 3
    (by rw [hBdef]; exact hlenB) (by omega)
  have hneB : B.1.islanders ≠ [] := List.ne_nil_of_mem hy0
  obtain ⟨x0, hx0⟩ := exists_mem_len A.1.islanders 3
    (by rw [hAdef]; exact hlenA) (by omega)
  by_cases h0 : r g.ri % 2 = 0
  · rw [if_pos h0]
    obtain ⟨hinvCP, hconnCPf, _, htypeCPf, hiCP, _⟩ := join_nil_spec A.1 hinvA
    have hneCP : (join emptyCompound A.1).islanders ≠ [] :=
      List.ne_nil_of_mem ((hiCP x0).2 hx0)
    obtain ⟨hinvO, hconnO, hsolvO, hmO⟩ :=
      join_with_compound_spec (join emptyCompound A.1) B.1 r B.2 hinvCP hinvB
        (hconnCPf hconnA) hconnB htypeB (Or.inr (htypeCPf htypeA)) hneCP hneB
    refine ⟨hinvO, hconnO, hsolvO, ?_⟩
    exact List.ne_nil_of_mem ((hmO x0).2 (Or.inl ((hiCP x0).2 hx0)))
  · rw [if_neg h0]
    set A2 := complete_with_match A.1 r B.2 with hA2def
    have hb : (complete_with_match A.1 >>= fun a2 =>
        join_with_match (join emptyCompound a2) B.1) r B.2 =
        join_with_match (join emptyCompound A2.1) B.1 r A2.2 := rfl
    rw [hb]
    have h2 : 2 ≤ A.1.islanders.length := by
      rw [hAdef]
      omega
    obtain ⟨hinvA2, hconnA2, hsolvA2, hislA2, _, _⟩ :=
      complete_with_match_spec A.1 r B.2 hinvA hconnA htypeA h2
    obtain ⟨hinvCP, hconnCPf, hsolvCPf, _, hiCP, _⟩ := join_nil_spec A2.1 hinvA2
    have hx0A2 : x0 ∈ A2.1.islanders := by
      rw [hA2def, hislA2]
      exact hx0
    have hneCP : (join emptyCompound A2.1).islanders ≠ [] :=
      List.ne_nil_of_mem ((hiCP x0).2 hx0A2)
    obtain ⟨hinvO, hconnO, hsolvO, hmO⟩ :=
      join_with_match_spec (join emptyCompound A2.1) B.1 r A2.2 hinvCP hinvB
        (hconnCPf hconnA2) hconnB htypeB (hsolvCPf hsolvA2) hneCP hneB
    refine ⟨hinvO, hconnO, hsolvO, ?_⟩
    exact List.ne_nil_of_mem ((hmO x0).2 (Or.inl ((hiCP x0).2 hx0A2)))

theorem generate_spec (d : Difficulty) (r : Nat → Nat) (g : GSt) :
    PuzInv (generate d r g).1 ∧ PairConn (generate d r g).1 ∧
    Solvable (generate d r g).1 ∧ (generate d r g).1.islanders ≠ [] := by
  cases d with
  | easy => exact easy_spec r g
  | medium => exact medium_spec r g
  | hard => exact hard_spec r g

/-- C1: for every puzzle produced by the easy, medium or hard preset, under
any outcome of the random source, Solver.solve derives knight and knave lists
that are set-equal to the puzzle's ground-truth knights and knaves lists
(mutual membership by identity and equal length). -/
theorem C1_generated_puzzle_solver_roundtrip (d : Difficulty) (r : Nat → Nat)
    (g : GSt) :
    (∀ x, x ∈ (Solver.solve (generate d r g).1).1.knights ↔
      x ∈ (generate d r g).1.knights) ∧
    (Solver.solve (generate d r g).1).1.knights.length =
      (generate d r g).1.knights.length ∧
    (∀ x, x ∈ (Solver.solve (generate d r g).1).1.knaves ↔
      x ∈ (generate d r g).1.knaves) ∧
    (Solver.solve (generate d r g).1).1.knaves.length =
      (generate d r g).1.knaves.length := by
  obtain ⟨hinv, hconn, hsolv, hne⟩ := generate_spec d r g
  set p := (generate d r g).1 with hpdef
  obtain ⟨hrem, hsound, hnodup, hscope, hres⟩ :=
    solver_run_spec p.statements p.islanders hinv.2.2.2.2.2.1
      hinv.2.2.2.2.2.2 hsolv
  have hK : ∀ x, x ∈ (solver_run p.statements).1.knights ↔
      x ∈ p.knights := by
    intro x
    constructor
    · intro hx
      exact (hinv.2.2.2.1 x).2 ⟨hscope.1 x hx, hsound.1 x hx⟩
    · intro hx
      obtain ⟨hxi, hal⟩ := (hinv.2.2.2.1 x).1 hx
      rcases hres x hxi with hx2 | hx2
      · exact hx2
      · have hc := hsound.2 x hx2
        rw [hal] at hc
        cases hc
  have hN : ∀ x, x ∈ (solver_run p.statements).1.knaves ↔
      x ∈ p.knaves := by
    intro x
    constructor
    · intro hx
      exact (hinv.2.2.2.2.1 x).2 ⟨hscope.2 x hx, hsound.2 x hx⟩
    · intro hx
      obtain ⟨hxi, hal⟩ := (hinv.2.2.2.2.1 x).1 hx
      rcases hres x hxi with hx2 | hx2
      · have hc := hsound.1 x hx2
        rw [hal] at hc
        cases hc
      · exact hx2
  exact ⟨hK, nodup_length_eq _ _ hnodup.1 hinv.2.1 hK, hN,
    nodup_length_eq _ _ hnodup.2 hinv.2.2.1 hN⟩

/-- C2: the claim that prune_statements keeps exactly one statement of each
mutually-reciprocal pair is false; the amended characterization proved here
is that a statement survives pruning exactly when no other statement of the
list reciprocates it, so BOTH members of a reciprocal pair are dropped. -/
theorem C2_prune_drops_both_of_reciprocal_pair (stmts : List Stmt)
    (s : Stmt) :
    s ∈ prune_statements stmts ↔ s ∈ stmts ∧
      ∀ t ∈ stmts, t = s ∨ ¬(t.source = s.target ∧ t.target = s.source) :=
  prune_statements_mem stmts s

/-- C2 counterexample: a mutually-reciprocal pair of accusations is pruned
to the empty list, not to a single representative. -/
theorem C2_counterexample_reciprocal_pair_both_dropped :
    prune_statements
      [⟨0, ⟨0, Align.knight⟩, ⟨1, Align.knave⟩, StmtKind.accusation⟩,
       ⟨1, ⟨1, Align.knave⟩, ⟨0, Align.knight⟩, StmtKind.accusation⟩] =
      ([] : List Stmt) := by
  decide

/-- C3: pass 2 of Solver.solve does not always terminate: a pending type
statement neither of whose endpoints is ever resolved is a fixpoint of the
full pass, so iterating any number n of full passes leaves the same
nonempty pending list and unchanged (empty) solver state — the Python
`while unsolved:` loop never exits on such input. -/
theorem C3_pass2_nonterminating_fixpoint (n : Nat) :
    passesN n
      [⟨0, ⟨0, Align.knight⟩, ⟨1, Align.knave⟩, StmtKind.accusation⟩]
      ⟨[], []⟩ =
      ([⟨0, ⟨0, Align.knight⟩, ⟨1, Align.knave⟩, StmtKind.accusation⟩],
        (⟨[], []⟩ : SolverSt)) := by
  induction n with
  | zero => rfl
  | succ m ih =>
      have hstep : passesN (m + 1)
          [⟨0, ⟨0, Align.knight⟩, ⟨1, Align.knave⟩, StmtKind.accusation⟩]
          (⟨[], []⟩ : SolverSt) =
          passesN m
            [⟨0, ⟨0, Align.knight⟩, ⟨1, Align.knave⟩, StmtKind.accusation⟩]
            ⟨[], []⟩ := rfl
      rw [hstep]
      exact ih

/-- C5: every generated puzzle's statement graph has exactly one connected
component, and that component covers the whole islander list. -/
theorem C5_generated_puzzle_single_component (d : Difficulty)
    (r : Nat → Nat) (g : GSt) :
    ∃ comp, connected_sets (generate d r g).1.islanders
        (generate d r g).1.islanders (generate d r g).1.statements =
        [comp] ∧
      ∀ y, y ∈ comp ↔ y ∈ (generate d r g).1.islanders := by
  obtain ⟨hinv, hconn, hsolv, hne⟩ := generate_spec d r g
  refine connected_sets_single _ _ hinv.1 hne ?_ hconn
  intro y hy
  obtain ⟨s, hs, hy2⟩ := mem_endpoints_elim hy
  rcases hy2 with rfl | rfl
  · exact (hinv.2.2.2.2.2.1 s hs).1
  · exact (hinv.2.2.2.2.2.1 s hs).2

/-- C6: the statement factory dispatch follows the four-way table: a knight
affirms a knight and accuses a knave; a knave accuses a knight and (falsely)
affirms a knave. -/
theorem C6_statement_dispatch_table (a b : Nat) (r : Nat → Nat) (g : GSt) :
    (Islander.statement_for ⟨a, Align.knight⟩ ⟨b, Align.knight⟩ r g).1.kind =
      StmtKind.affirmation ∧
    (Islander.statement_for ⟨a, Align.knight⟩ ⟨b, Align.knave⟩ r g).1.kind =
      StmtKind.accusation ∧
    (Islander.statement_for ⟨a, Align.knave⟩ ⟨b, Align.knight⟩ r g).1.kind =
      StmtKind.accusation ∧
    (Islander.statement_for ⟨a, Align.knave⟩ ⟨b, Align.knave⟩ r g).1.kind =
      StmtKind.affirmation :=
  ⟨rfl, rfl, rfl, rfl⟩

/-- C7: the solver handles a Disjoint statement by logging the source as a
knight and the target at its true alignment, and a Joint statement by
logging the source as a knave and the target at its true alignment. -/
theorem C7_disjoint_joint_solve_semantics (sid : Nat) (src tgt : Islander)
    (st : SolverSt) :
    (src ∈ (solveDirect ⟨sid, src, tgt, StmtKind.disjoint⟩ st).knights ∧
     tgt ∈ (if tgt.align = Align.knight
        then (solveDirect ⟨sid, src, tgt, StmtKind.disjoint⟩ st).knights
        else (solveDirect ⟨sid, src, tgt, StmtKind.disjoint⟩ st).knaves)) ∧
    (src ∈ (solveDirect ⟨sid, src, tgt, StmtKind.joint⟩ st).knaves ∧
     tgt ∈ (if tgt.align = Align.knight
        then (solveDirect ⟨sid, src, tgt, StmtKind.joint⟩ st).knights
        else (solveDirect ⟨sid, src, tgt, StmtKind.joint⟩ st).knaves)) := by
  have hd : solveDirect ⟨sid, src, tgt, StmtKind.disjoint⟩ st =
      addByAlign ⟨add_unique st.knights src, st.knaves⟩ tgt := rfl
  have hj : solveDirect ⟨sid, src, tgt, StmtKind.joint⟩ st =
      addByAlign ⟨st.knights, add_unique st.knaves src⟩ tgt := rfl
  rw [hd, hj]
  cases hal : tgt.align
  · have hda : addByAlign ⟨add_unique st.knights src, st.knaves⟩ tgt =
        ⟨add_unique (add_unique st.knights src) tgt, st.knaves⟩ := by
      unfold addByAlign
      rw [hal]
    have hja : addByAlign ⟨st.knights, add_unique st.knaves src⟩ tgt =
        ⟨add_unique st.knights tgt, add_unique st.knaves src⟩ := by
      unfold addByAlign
      rw [hal]
    rw [hda, hja]
    exact ⟨⟨add_unique_sup _ _ src (add_unique_self _ _), add_unique_self _ _⟩,
      ⟨add_unique_self _ _, add_unique_self _ _⟩⟩
  · have hda : addByAlign ⟨add_unique st.knights src, st.knaves⟩ tgt =
        ⟨add_unique st.knights src, add_unique st.knaves tgt⟩ := by
      unfold addByAlign
      rw [hal]
    have hja : addByAlign ⟨st.knights, add_unique st.knaves src⟩ tgt =
        ⟨st.knights, add_unique (add_unique st.knaves src) tgt⟩ := by
      unfold addByAlign
      rw [hal]
    rw [hda, hja]
    exact ⟨⟨add_unique_self _ _, add_unique_self _ _⟩,
      ⟨add_unique_sup _ _ src (add_unique_self _ _), add_unique_self _ _⟩⟩

/-- C8: knave-count policy of SimplePuzzle: count 1 gives exactly one knave;
2 ≤ count < 4 gives a knave count in [0, count); count ≥ 4 gives a knave
count in [count/2 - 1, count - 2] (floor division, inclusive), which leaves
at least one knight and at least one knave. -/
theorem C8_simplepuzzle_knave_bounds (count : Nat) (names : List String)
    (r : Nat → Nat) (g : GSt) :
    (count = 1 → (SimplePuzzle count names r g).1.knaves.length = 1) ∧
    (2 ≤ count → count < 4 →
      (SimplePuzzle count names r g).1.knaves.length < count) ∧
    (4 ≤ count →
      count / 2 - 1 ≤ (SimplePuzzle count names r g).1.knaves.length ∧
      (SimplePuzzle count names r g).1.knaves.length ≤ count - 2 ∧
      1 ≤ (SimplePuzzle count names r g).1.knights.length ∧
      1 ≤ (SimplePuzzle count names r g).1.knaves.length) := by
  refine ⟨?_, ?_, ?_⟩
  · intro h1
    obtain ⟨_, _, _, _, _, _, hkv, _⟩ :=
      SimplePuzzle_spec count names r g (by omega)
    obtain ⟨_, hL1, _, _⟩ := liarDraw_bounds count r g (by omega)
    rw [hkv]
    exact hL1 h1
  · intro h2 h4
    obtain ⟨_, _, _, _, _, _, hkv, _⟩ :=
      SimplePuzzle_spec count names r g (by omega)
    obtain ⟨_, _, hL24, _⟩ := liarDraw_bounds count r g (by omega)
    rw [hkv]
    exact hL24 h2 h4
  · intro h4
    obtain ⟨_, _, _, _, _, _, hkv, hkn⟩ :=
      SimplePuzzle_spec count names r g (by omega)
    obtain ⟨hLle, _, _, hL4⟩ := liarDraw_bounds count r g (by omega)
    obtain ⟨hlo, hhi⟩ := hL4 h4
    rw [hkv, hkn]
    refine ⟨hlo, hhi, ?_, ?_⟩ <;> omega

/-- C8 witness: the bounds evaluated at count 1 and count 4 with the zero
random stream. -/
theorem C8_simplepuzzle_knave_bounds_witness :
    (SimplePuzzle 1 name_set (fun _ => 0) ⟨0, 0⟩).1.knaves.length = 1 ∧
    (SimplePuzzle 4 name_set (fun _ => 0) ⟨0, 0⟩).1.knaves.length ≤ 4 - 2 :=
  ⟨(C8_simplepuzzle_knave_bounds 1 name_set (fun _ => 0) ⟨0, 0⟩).1 rfl,
   ((C8_simplepuzzle_knave_bounds 4 name_set (fun _ => 0) ⟨0, 0⟩).2.2
      (by omega)).2.1⟩

/-- C10: if every statement of the list satisfies the factory invariant,
the solver's derived knight list holds only true knights and its knave list
only true knaves, and the two lists are duplicate-free and disjoint. -/
theorem C10_solver_soundness_invariant (stmts : List Stmt)
    (hgood : ∀ s ∈ stmts, factoryGood s) :
    stSound (solver_run stmts).1 ∧ stNodup (solver_run stmts).1 ∧
    (∀ x, x ∈ (solver_run stmts).1.knights →
      x ∉ (solver_run stmts).1.knaves) := by
  have hrun : (solver_run stmts).1 =
      (passesN ((pass1 stmts ⟨[], []⟩).1.length + 1) (pass1 stmts ⟨[], []⟩).1
        (pass1 stmts ⟨[], []⟩).2).2 := rfl
  rw [hrun]
  have hs : stSound (pass1 stmts ⟨[], []⟩).2 :=
    pass1_sound stmts ⟨[], []⟩ hgood
      ⟨fun x hx => absurd hx (List.not_mem_nil x),
       fun x hx => absurd hx (List.not_mem_nil x)⟩
  have hn : stNodup (pass1 stmts ⟨[], []⟩).2 :=
    pass1_nodup stmts ⟨[], []⟩ ⟨List.nodup_nil, List.nodup_nil⟩
  have hs2 := passesN_sound ((pass1 stmts ⟨[], []⟩).1.length + 1)
    (pass1 stmts ⟨[], []⟩).1 (pass1 stmts ⟨[], []⟩).2 hs
  have hn2 := passesN_nodup ((pass1 stmts ⟨[], []⟩).1.length + 1)
    (pass1 stmts ⟨[], []⟩).1 (pass1 stmts ⟨[], []⟩).2 hn
  refine ⟨hs2, hn2, ?_⟩
  intro x hxk hxn
  have h1 := hs2.1 x hxk
  have h2 := hs2.2 x hxn
  rw [h1] at h2
  cases h2

/-- C10 witness: the invariant evaluated on a concrete one-statement factory
list (a Same statement towards a knight). -/
theorem C10_solver_soundness_invariant_witness :
    stSound (solver_run
      [⟨0, ⟨0, Align.knave⟩, ⟨1, Align.knight⟩, StmtKind.same⟩]).1 ∧
    stNodup (solver_run
      [⟨0, ⟨0, Align.knave⟩, ⟨1, Align.knight⟩, StmtKind.same⟩]).1 ∧
    (∀ x, x ∈ (solver_run
        [⟨0, ⟨0, Align.knave⟩, ⟨1, Align.knight⟩, StmtKind.same⟩]).1.knights →
      x ∉ (solver_run
        [⟨0, ⟨0, Align.knave⟩, ⟨1, Align.knight⟩, StmtKind.same⟩]).1.knaves) :=
  C10_solver_soundness_invariant
    [⟨0, ⟨0, Align.knave⟩, ⟨1, Align.knight⟩, StmtKind.same⟩]
    (by
      intro s hs
      rw [List.mem_singleton] at hs
      subst hs
      exact rfl)

/-- C4: the claim that TypeStatement.process follows the accusation /
affirmation truth table for every processed statement is false as stated —
process assigns the unknown endpoint its ground-truth alignment
(`unknown.is_knight()`), never consulting the table.  Amended: the unknown
endpoint is always logged at its true alignment, and for statements
satisfying the factory invariant that true alignment agrees with the table
(accusation: the endpoints' types differ; affirmation: they match). -/
theorem C4_process_truth_table_for_factory (s : Stmt) (st : SolverSt)
    (k : Islander) (hk : k = s.source ∨ k = s.target)
    (hgood : factoryGood s) :
    (((if k = s.source then s.target else s.source).align = Align.knight →
        (if k = s.source then s.target else s.source) ∈
          (processStmt s k st).knights) ∧
     ((if k = s.source then s.target else s.source).align = Align.knave →
        (if k = s.source then s.target else s.source) ∈
          (processStmt s k st).knaves)) ∧
    (s.kind = StmtKind.accusation →
      ¬ k.align = (if k = s.source then s.target else s.source).align) ∧
    (s.kind = StmtKind.affirmation →
      k.align = (if k = s.source then s.target else s.source).align) := by
  have hps : processStmt s k st =
      addByAlign st (if k = s.source then s.target else s.source) := by
    unfold processStmt
    rw [if_pos hk]
  rw [hps]
  set o := (if k = s.source then s.target else s.source) with hodef
  refine ⟨⟨?_, ?_⟩, ?_, ?_⟩
  · intro hal
    have ha : addByAlign st o = ⟨add_unique st.knights o, st.knaves⟩ := by
      unfold addByAlign
      rw [hal]
    rw [ha]
    exact add_unique_self _ _
  · intro hal
    have ha : addByAlign st o = ⟨st.knights, add_unique st.knaves o⟩ := by
      unfold addByAlign
      rw [hal]
    rw [ha]
    exact add_unique_self _ _
  · intro hkind
    have h := hgood
    unfold factoryGood at h
    rw [hkind] at h
    by_cases hks : k = s.source
    · have ho2 : o = s.target := by
        rw [hodef, if_pos hks]
      rw [ho2, hks]
      exact h
    · rcases hk with hk2 | hk2
      · exact absurd hk2 hks
      · have ho2 : o = s.source := by
          rw [hodef, if_neg hks]
        rw [ho2, hk2]
        intro hc
        exact h hc.symm
  · intro hkind
    have h := hgood
    unfold factoryGood at h
    rw [hkind] at h
    by_cases hks : k = s.source
    · have ho2 : o = s.target := by
        rw [hodef, if_pos hks]
      rw [ho2, hks]
      exact h
    · rcases hk with hk2 | hk2
      · exact absurd hk2 hks
      · have ho2 : o = s.source := by
          rw [hodef, if_neg hks]
        rw [ho2, hk2]
        exact h.symm

/-- C4 counterexample: an Accusation between two Knights (never produced by
the factories) is processed by logging BOTH endpoints as knights, while the
truth table demands an accusation's endpoints receive different types. -/
theorem C4_counterexample_accusation_between_knights :
    (⟨0, Align.knight⟩ : Islander) ∈
      (processStmt ⟨0, ⟨0, Align.knight⟩, ⟨1, Align.knight⟩,
        StmtKind.accusation⟩ ⟨0, Align.knight⟩
        ⟨[⟨0, Align.knight⟩], []⟩).knights ∧
    (⟨1, Align.knight⟩ : Islander) ∈
      (processStmt ⟨0, ⟨0, Align.knight⟩, ⟨1, Align.knight⟩,
        StmtKind.accusation⟩ ⟨0, Align.knight⟩
        ⟨[⟨0, Align.knight⟩], []⟩).knights ∧
    (⟨1, Align.knight⟩ : Islander) ∉
      (processStmt ⟨0, ⟨0, Align.knight⟩, ⟨1, Align.knight⟩,
        StmtKind.accusation⟩ ⟨0, Align.knight⟩
        ⟨[⟨0, Align.knight⟩], []⟩).knaves := by
  decide

/-- C4 witness: the amended statement applied to the factory accusation of a
knight against a knave, with the knight endpoint known. -/
theorem C4_process_truth_table_witness :
    (⟨1, Align.knave⟩ : Islander) ∈
      (processStmt ⟨5, ⟨0, Align.knight⟩, ⟨1, Align.knave⟩,
        StmtKind.accusation⟩ ⟨0, Align.knight⟩ ⟨[], []⟩).knaves :=
  (C4_process_truth_table_for_factory
    ⟨5, ⟨0, Align.knight⟩, ⟨1, Align.knave⟩, StmtKind.accusation⟩
    ⟨[], []⟩ ⟨0, Align.knight⟩ (Or.inl rfl)
    (fun hc => Align.noConfusion hc)).1.2 rfl

theorem find?_map_pres {α : Type} (g : α → α) (p : α → Bool)
    (hp : ∀ a, p (g a) = p a) :
    ∀ l : List α, (l.map g).find? p = (l.find? p).map g := by
  intro l
  induction l with
  | nil => rfl
  | cons a rest ih =>
      by_cases h : p a = true
      · rw [List.map_cons, List.find?_cons_of_pos _ (by rw [hp]; exact h),
          List.find?_cons_of_pos _ h]
        rfl
      · have h2 : ¬ p (g a) = true := by
          rw [hp]
          exact h
        rw [List.map_cons, List.find?_cons_of_neg _ h2,
          List.find?_cons_of_neg _ h]
        exact ih

theorem setName_upd_pres (j : Nat) (m : String) (i : Nat) :
    ∀ q : Nat × String,
      (fun q : Nat × String => decide (q.1 = i))
        ((fun q : Nat × String => if q.1 = j then (q.1, m) else q) q) =
      (fun q : Nat × String => decide (q.1 = i)) q := by
  intro q
  show decide ((if q.1 = j then (q.1, m) else q).1 = i) = decide (q.1 = i)
  by_cases h : q.1 = j
  · rw [if_pos h]
  · rw [if_neg h]

theorem find?_setName (names : List (Nat × String)) (j : Nat) (m : String)
    (i : Nat) :
    (setName names j m).find? (fun q => decide (q.1 = i)) =
      (names.find? (fun q => decide (q.1 = i))).map
        (fun q => if q.1 = j then (q.1, m) else q) := by
  unfold setName
  exact find?_map_pres _ _ (setName_upd_pres j m i) names

theorem lookupName_setName_other (names : List (Nat × String)) (j : Nat)
    (m : String) (i : Nat) (hij : ¬ i = j) :
    lookupName (setName names j m) i = lookupName names i := by
  unfold lookupName
  rw [find?_setName]
  cases hf : names.find? (fun q => decide (q.1 = i)) with
  | none => rfl
  | some q =>
      have hq : q.1 = i := by
        have := List.find?_some hf
        exact of_decide_eq_true this
      have hqj : ¬ q.1 = j := by
        rw [hq]
        exact hij
      have hv : Option.map
          (fun q : Nat × String => if q.1 = j then (q.1, m) else q)
          (some q) = some q := by
        show some (if q.1 = j then (q.1, m) else q) = some q
        rw [if_neg hqj]
      rw [hv]

theorem lookupName_setName_self (names : List (Nat × String)) (i : Nat)
    (m : String)
    (hkey : (names.find? (fun q => decide (q.1 = i))).isSome) :
    lookupName (setName names i m) i = m := by
  unfold lookupName
  rw [find?_setName]
  cases hf : names.find? (fun q => decide (q.1 = i)) with
  | none =>
      rw [hf] at hkey
      exact absurd hkey (by decide)
  | some q =>
      have hq : q.1 = i := by
        have := List.find?_some hf
        exact of_decide_eq_true this
      have hv : Option.map
          (fun q : Nat × String => if q.1 = i then (q.1, m) else q)
          (some q) = some (q.1, m) := by
        show some (if q.1 = i then (q.1, m) else q) = some (q.1, m)
        rw [if_pos hq]
      rw [hv]
      rfl

theorem find?_isSome_setName (names : List (Nat × String)) (j : Nat)
    (m : String) (i : Nat) :
    ((setName names j m).find? (fun q => decide (q.1 = i))).isSome =
      (names.find? (fun q => decide (q.1 = i))).isSome := by
  rw [find?_setName]
  cases hf : names.find? (fun q => decide (q.1 = i)) with
  | none => rfl
  | some q => rfl

theorem setSeen_upd_pres (n : String) (c : Nat) (m : String) :
    ∀ q : String × Nat,
      (fun q : String × Nat => decide (q.1 = m))
        ((fun q : String × Nat => if q.1 = n then (q.1, c) else q) q) =
      (fun q : String × Nat => decide (q.1 = m)) q := by
  intro q
  show decide ((if q.1 = n then (q.1, c) else q).1 = m) = decide (q.1 = m)
  by_cases h : q.1 = n
  · rw [if_pos h]
  · rw [if_neg h]

theorem lookupSeen_setSeen_self (seen : List (String × Nat)) (n : String)
    (c : Nat) : lookupSeen (setSeen seen n c) n = some c := by
  unfold setSeen
  by_cases h : (seen.find? (fun q => decide (q.1 = n))).isSome
  · rw [if_pos h]
    unfold lookupSeen
    rw [find?_map_pres _ _ (setSeen_upd_pres n c n)]
    cases hf : seen.find? (fun q => decide (q.1 = n)) with
    | none =>
        rw [hf] at h
        exact absurd h (by decide)
    | some q =>
        have hq : q.1 = n := by
          have := List.find?_some hf
          exact of_decide_eq_true this
        have hv : Option.map
            (fun q : String × Nat => if q.1 = n then (q.1, c) else q)
            (some q) = some (q.1, c) := by
          show some (if q.1 = n then (q.1, c) else q) = some (q.1, c)
          rw [if_pos hq]
        rw [hv]
        rfl
  · rw [if_neg h]
    unfold lookupSeen
    rw [List.find?_cons_of_pos _ (by exact decide_eq_true rfl)]
    rfl

theorem lookupSeen_setSeen_other (seen : List (String × Nat)) (n : String)
    (c : Nat) (m : String) (hmn : ¬ m = n) :
    lookupSeen (setSeen seen n c) m = lookupSeen seen m := by
  unfold setSeen
  by_cases h : (seen.find? (fun q => decide (q.1 = n))).isSome
  · rw [if_pos h]
    unfold lookupSeen
    rw [find?_map_pres _ _ (setSeen_upd_pres n c m)]
    cases hf : seen.find? (fun q => decide (q.1 = m)) with
    | none => rfl
    | some q =>
        have hq : q.1 = m := by
          have := List.find?_some hf
          exact of_decide_eq_true this
        have hqn : ¬ q.1 = n := by
          rw [hq]
          exact hmn
        have hv : Option.map
            (fun q : String × Nat => if q.1 = n then (q.1, c) else q)
            (some q) = some q := by
          show some (if q.1 = n then (q.1, c) else q) = some q
          rw [if_neg hqn]
        rw [hv]
  · rw [if_neg h]
    unfold lookupSeen
    rw [List.find?_cons_of_neg]
    intro hc
    have := of_decide_eq_true hc
    exact hmn this.symm

theorem ensureAux_untouched : ∀ (isl : List Islander)
    (names : List (Nat × String)) (seen : List (String × Nat)) (i : Nat),
    (∀ x ∈ isl, ¬ x.id = i) →
    lookupName (ensureAux isl names seen) i = lookupName names i := by
  intro isl
  induction isl with
  | nil => intro names seen i _; rfl
  | cons x rest ih =>
      intro names seen i hne
      cases hls : lookupSeen seen (lookupName names x.id) with
      | none =>
          have hres : ensureAux (x :: rest) names seen =
              ensureAux rest names
                (setSeen seen (lookupName names x.id) 0) := by
            show (match lookupSeen seen (lookupName names x.id) with
              | none => ensureAux rest names
                  (setSeen seen (lookupName names x.id) 0)
              | some c => ensureAux rest
                  (setName names x.id (lookupName names x.id ++ "_" ++
                    toString (c + 1)))
                  (setSeen seen (lookupName names x.id) (c + 1))) =
              ensureAux rest names
                (setSeen seen (lookupName names x.id) 0)
            rw [hls]
          rw [hres]
          exact ih names (setSeen seen (lookupName names x.id) 0) i
            (fun y hy => hne y (List.mem_cons_of_mem x hy))
      | some c =>
          have hres : ensureAux (x :: rest) names seen =
              ensureAux rest
                (setName names x.id (lookupName names x.id ++ "_" ++
                  toString (c + 1)))
                (setSeen seen (lookupName names x.id) (c + 1)) := by
            show (match lookupSeen seen (lookupName names x.id) with
              | none => ensureAux rest names
                  (setSeen seen (lookupName names x.id) 0)
              | some c => ensureAux rest
                  (setName names x.id (lookupName names x.id ++ "_" ++
                    toString (c + 1)))
                  (setSeen seen (lookupName names x.id) (c + 1))) =
              ensureAux rest
                (setName names x.id (lookupName names x.id ++ "_" ++
                  toString (c + 1)))
                (setSeen seen (lookupName names x.id) (c + 1))
            rw [hls]
          rw [hres]
          rw [ih _ _ i (fun y hy => hne y (List.mem_cons_of_mem x hy))]
          exact lookupName_setName_other names x.id _ i
            (fun h => hne x (List.mem_cons_self x rest) h.symm)

/-- The display name the renaming discipline assigns to the k-th occurrence
of a base name (k = 0 keeps the base name). -/
def expectedName (n : String) (k : Nat) : String :=
  if k = 0 then n else n ++ "_" ++ toString k

/-- Occurrences of the base name `n` already accounted for at a position:
those recorded in the `seen` counters plus those among the prefix `pre`. -/
def priorCount (names : List (Nat × String)) (seen : List (String × Nat))
    (pre : List Islander) (n : String) : Nat :=
  (match lookupSeen seen n with
   | none => 0
   | some c => c + 1) +
  (pre.filter (fun y => decide (lookupName names y.id = n))).length

theorem ensureAux_char : ∀ (isl : List Islander)
    (names : List (Nat × String)) (seen : List (String × Nat)),
    (isl.map Islander.id).Nodup →
    (∀ x ∈ isl, (names.find? (fun q => decide (q.1 = x.id))).isSome = true) →
    ∀ (i : Nat) (hi : i < isl.length),
    lookupName (ensureAux isl names seen) (isl.get ⟨i, hi⟩).id =
      expectedName (lookupName names (isl.get ⟨i, hi⟩).id)
        (priorCount names seen (isl.take i)
          (lookupName names (isl.get ⟨i, hi⟩).id)) := by
  intro isl
  induction isl with
  | nil =>
      intro names seen _ _ i hi
      exact absurd hi (by simp)
  | cons x rest ih =>
      intro names seen hnd hkeys i hi
      have hxrest : ∀ y ∈ rest, ¬ y.id = x.id := by
        intro y hy hc
        rw [List.map_cons] at hnd
        have hx : x.id ∉ rest.map Islander.id := (List.nodup_cons.1 hnd).1
        exact hx (hc ▸ List.mem_map_of_mem Islander.id hy)
      have hndrest : (rest.map Islander.id).Nodup := by
        rw [List.map_cons] at hnd
        exact (List.nodup_cons.1 hnd).2
      cases i with
      | zero =>
          have hget : ((x :: rest).get ⟨0, hi⟩) = x := rfl
          rw [hget]
          cases hls : lookupSeen seen (lookupName names x.id) with
          | none =>
              have hres : ensureAux (x :: rest) names seen =
                  ensureAux rest names
                    (setSeen seen (lookupName names x.id) 0) := by
                show (match lookupSeen seen (lookupName names x.id) with
                  | none => ensureAux rest names
                      (setSeen seen (lookupName names x.id) 0)
                  | some c => ensureAux rest
                      (setName names x.id (lookupName names x.id ++ "_" ++
                        toString (c + 1)))
                      (setSeen seen (lookupName names x.id) (c + 1))) =
                  ensureAux rest names
                    (setSeen seen (lookupName names x.id) 0)
                rw [hls]
              rw [hres]
              rw [ensureAux_untouched rest names _ x.id hxrest]
              have hpc : priorCount names seen ((x :: rest).take 0)
                  (lookupName names x.id) = 0 := by
                unfold priorCount
                rw [hls]
                rfl
              rw [hpc]
              rfl
          | some c =>
              have hres : ensureAux (x :: rest) names seen =
                  ensureAux rest
                    (setName names x.id (lookupName names x.id ++ "_" ++
                      toString (c + 1)))
                    (setSeen seen (lookupName names x.id) (c + 1)) := by
                show (match lookupSeen seen (lookupName names x.id) with
                  | none => ensureAux rest names
                      (setSeen seen (lookupName names x.id) 0)
                  | some c => ensureAux rest
                      (setName names x.id (lookupName names x.id ++ "_" ++
                        toString (c + 1)))
                      (setSeen seen (lookupName names x.id) (c + 1))) =
                  ensureAux rest
                    (setName names x.id (lookupName names x.id ++ "_" ++
                      toString (c + 1)))
                    (setSeen seen (lookupName names x.id) (c + 1))
                rw [hls]
              rw [hres]
              rw [ensureAux_untouched rest _ _ x.id hxrest]
              rw [lookupName_setName_self names x.id _
                (hkeys x (List.mem_cons_self x rest))]
              have hpc : priorCount names seen ((x :: rest).take 0)
                  (lookupName names x.id) = c + 1 := by
                unfold priorCount
                rw [hls]
                rfl
              rw [hpc]
              unfold expectedName
              rw [if_neg (Nat.succ_ne_zero c)]
      | succ j =>
          have hj : j < rest.length := by
            have h2 := hi
            rw [List.length_cons] at h2
            omega
          have hget : ((x :: rest).get ⟨j + 1, hi⟩) = rest.get ⟨j, hj⟩ := rfl
          rw [hget]
          have hymem : rest.get ⟨j, hj⟩ ∈ rest := List.get_mem rest j hj
          have htake : (x :: rest).take (j + 1) = x :: rest.take j := rfl
          rw [htake]
          cases hls : lookupSeen seen (lookupName names x.id) with
          | none =>
              have hres : ensureAux (x :: rest) names seen =
                  ensureAux rest names
                    (setSeen seen (lookupName names x.id) 0) := by
                show (match lookupSeen seen (lookupName names x.id) with
                  | none => ensureAux rest names
                      (setSeen seen (lookupName names x.id) 0)
                  | some c => ensureAux rest
                      (setName names x.id (lookupName names x.id ++ "_" ++
                        toString (c + 1)))
                      (setSeen seen (lookupName names x.id) (c + 1))) =
                  ensureAux rest names
                    (setSeen seen (lookupName names x.id) 0)
                rw [hls]
              rw [hres]
              rw [ih names (setSeen seen (lookupName names x.id) 0) hndrest
                (fun z hz => hkeys z (List.mem_cons_of_mem x hz)) j hj]
              have hpc : priorCount names
                  (setSeen seen (lookupName names x.id) 0) (rest.take j)
                  (lookupName names (rest.get ⟨j, hj⟩).id) =
                  priorCount names seen (x :: rest.take j)
                  (lookupName names (rest.get ⟨j, hj⟩).id) := by
                by_cases hxy : lookupName names x.id =
                    lookupName names (rest.get ⟨j, hj⟩).id
                · unfold priorCount
                  rw [← hxy]
                  rw [lookupSeen_setSeen_self seen (lookupName names x.id) 0]
                  rw [hls]
                  have hcons : (x :: rest.take j).filter
                      (fun y => decide (lookupName names y.id =
                        lookupName names x.id)) =
                      x :: (rest.take j).filter
                      (fun y => decide (lookupName names y.id =
                        lookupName names x.id)) := by
                    rw [List.filter_cons]
                    rw [if_pos (decide_eq_true rfl)]
                  rw [hcons, List.length_cons]
                  show 0 + 1 + _ = 0 + (_ + 1)
                  omega
                · unfold priorCount
                  rw [lookupSeen_setSeen_other seen (lookupName names x.id) 0
                    (lookupName names (rest.get ⟨j, hj⟩).id)
                    (fun h => hxy h.symm)]
                  have hcons : (x :: rest.take j).filter
                      (fun y => decide (lookupName names y.id =
                        lookupName names (rest.get ⟨j, hj⟩).id)) =
                      (rest.take j).filter
                      (fun y => decide (lookupName names y.id =
                        lookupName names (rest.get ⟨j, hj⟩).id)) := by
                    rw [List.filter_cons]
                    rw [if_neg]
                    intro hc
                    exact hxy (of_decide_eq_true hc)
                  rw [hcons]
              rw [hpc]
          | some c =>
              have hres : ensureAux (x :: rest) names seen =
                  ensureAux rest
                    (setName names x.id (lookupName names x.id ++ "_" ++
                      toString (c + 1)))
                    (setSeen seen (lookupName names x.id) (c + 1)) := by
                show (match lookupSeen seen (lookupName names x.id) with
                  | none => ensureAux rest names
                      (setSeen seen (lookupName names x.id) 0)
                  | some c => ensureAux rest
                      (setName names x.id (lookupName names x.id ++ "_" ++
                        toString (c + 1)))
                      (setSeen seen (lookupName names x.id) (c + 1))) =
                  ensureAux rest
                    (setName names x.id (lookupName names x.id ++ "_" ++
                      toString (c + 1)))
                    (setSeen seen (lookupName names x.id) (c + 1))
                rw [hls]
              rw [hres]
              rw [ih (setName names x.id (lookupName names x.id ++ "_" ++
                  toString (c + 1)))
                (setSeen seen (lookupName names x.id) (c + 1)) hndrest
                (fun z hz => by
                  rw [find?_isSome_setName]
                  exact hkeys z (List.mem_cons_of_mem x hz)) j hj]
              rw [lookupName_setName_other names x.id _
                (rest.get ⟨j, hj⟩).id (hxrest _ hymem)]
              have hfilter : (rest.take j).filter
                  (fun z => decide (lookupName
                    (setName names x.id (lookupName names x.id ++ "_" ++
                      toString (c + 1))) z.id =
                    lookupName names (rest.get ⟨j, hj⟩).id)) =
                  (rest.take j).filter
                  (fun z => decide (lookupName names z.id =
                    lookupName names (rest.get ⟨j, hj⟩).id)) := by
                refine List.filter_congr ?_
                intro z hz
                rw [lookupName_setName_other names x.id _ z.id
                  (hxrest z (List.take_subset j rest hz))]
              have hpc : priorCount
                  (setName names x.id (lookupName names x.id ++ "_" ++
                    toString (c + 1)))
                  (setSeen seen (lookupName names x.id) (c + 1))
                  (rest.take j)
                  (lookupName names (rest.get ⟨j, hj⟩).id) =
                  priorCount names seen (x :: rest.take j)
                  (lookupName names (rest.get ⟨j, hj⟩).id) := by
                unfold priorCount
                rw [hfilter]
                by_cases hxy : lookupName names x.id =
                    lookupName names (rest.get ⟨j, hj⟩).id
                · rw [← hxy]
                  rw [lookupSeen_setSeen_self seen (lookupName names x.id)
                    (c + 1)]
                  rw [hls]
                  have hcons : (x :: rest.take j).filter
                      (fun y => decide (lookupName names y.id =
                        lookupName names x.id)) =
                      x :: (rest.take j).filter
                      (fun y => decide (lookupName names y.id =
                        lookupName names x.id)) := by
                    rw [List.filter_cons]
                    rw [if_pos (decide_eq_true rfl)]
                  rw [hcons, List.length_cons]
                  show c + 1 + 1 + _ = c + 1 + (_ + 1)
                  omega
                · rw [lookupSeen_setSeen_other seen (lookupName names x.id)
                    (c + 1) (lookupName names (rest.get ⟨j, hj⟩).id)
                    (fun h => hxy h.symm)]
                  have hcons : (x :: rest.take j).filter
                      (fun y => decide (lookupName names y.id =
                        lookupName names (rest.get ⟨j, hj⟩).id)) =
                      (rest.take j).filter
                      (fun y => decide (lookupName names y.id =
                        lookupName names (rest.get ⟨j, hj⟩).id)) := by
                    rw [List.filter_cons]
                    rw [if_neg]
                    intro hc
                    exact hxy (of_decide_eq_true hc)
                  rw [hcons]
              rw [hpc]

/-- The name table `join` assembles before renaming: the compound's entries
plus the other puzzle's entries whose ids are not already present. -/
def mergedNames (cp other : Puz) : List (Nat × String) :=
  cp.names ++
    other.names.filter (fun q => decide (∀ q2 ∈ cp.names, q2.1 ≠ q.1))

/-- C9: the claim that display names are pairwise distinct after every join
is false (see the counterexample theorem).  Amended: join leaves the
islander, statement, knight and knave lists as the deduplicated unions and
only rewrites the name table, and the rename follows the per-call
seen-counter discipline: with duplicate-free ids that all carry a table
entry, the islander at position i whose base name has k earlier occurrences
keeps the base name when k = 0 and becomes name_k otherwise — a discipline
that does not guarantee global uniqueness across repeated joins. -/
theorem C9_join_rename_discipline (cp other : Puz)
    (hnd : ((add_all_unique cp.islanders other.islanders).map
      Islander.id).Nodup)
    (hkeys : ∀ x ∈ add_all_unique cp.islanders other.islanders,
      ((mergedNames cp other).find?
        (fun q => decide (q.1 = x.id))).isSome = true) :
    (join cp other).islanders =
      add_all_unique cp.islanders other.islanders ∧
    (join cp other).statements =
      add_all_unique cp.statements other.statements ∧
    (join cp other).knights = add_all_unique cp.knights other.knights ∧
    (join cp other).knaves = add_all_unique cp.knaves other.knaves ∧
    ∀ (i : Nat)
      (hi : i < (add_all_unique cp.islanders other.islanders).length),
      lookupName (join cp other).names
          ((add_all_unique cp.islanders other.islanders).get ⟨i, hi⟩).id =
        expectedName
          (lookupName (mergedNames cp other)
            ((add_all_unique cp.islanders other.islanders).get ⟨i, hi⟩).id)
          (priorCount (mergedNames cp other) []
            ((add_all_unique cp.islanders other.islanders).take i)
            (lookupName (mergedNames cp other)
              ((add_all_unique cp.islanders other.islanders).get
                ⟨i, hi⟩).id)) :=
  ⟨rfl, rfl, rfl, rfl, fun i hi =>
    ensureAux_char (add_all_unique cp.islanders other.islanders)
      (mergedNames cp other) [] hnd hkeys i hi⟩

/-- A singleton puzzle whose islander id 0 is named "Ajay". -/
def ajayPuzA : Puz :=
  ⟨[⟨0, Align.knight⟩], [], [⟨0, Align.knight⟩], [], [(0, "Ajay")], []⟩

/-- A singleton puzzle whose islander id 1 is named "Ajay". -/
def ajayPuzB : Puz :=
  ⟨[⟨1, Align.knave⟩], [], [], [⟨1, Align.knave⟩], [(1, "Ajay")], []⟩

/-- A singleton puzzle whose islander id 2 is named "Ajay". -/
def ajayPuzC : Puz :=
  ⟨[⟨2, Align.knight⟩], [], [⟨2, Align.knight⟩], [], [(2, "Ajay")], []⟩

/-- The compound obtained by absorbing three identically named singleton
puzzles one join at a time, as the presets absorb SimplePuzzles. -/
def tripleAjayJoin : Puz :=
  join (join (join emptyCompound ajayPuzA) ajayPuzB) ajayPuzC

/-- C9 counterexample: after the third join, the islanders with ids 1 and 2
are distinct members of the compound but share the display name "Ajay_1" —
the per-join rename restarts its counters, so display names are not
pairwise distinct after every join. -/
theorem C9_counterexample_duplicate_display_names :
    (⟨1, Align.knave⟩ : Islander) ∈ tripleAjayJoin.islanders ∧
    (⟨2, Align.knight⟩ : Islander) ∈ tripleAjayJoin.islanders ∧
    (⟨1, Align.knave⟩ : Islander) ≠ (⟨2, Align.knight⟩ : Islander) ∧
    lookupName tripleAjayJoin.names 1 = "Ajay_1" ∧
    lookupName tripleAjayJoin.names 2 = "Ajay_1" := by
  decide

/-- C9 witness: the rename discipline applied to one join of two singleton
puzzles both named "Ajay": the absorbed duplicate becomes "Ajay_1". -/
theorem C9_join_rename_discipline_witness :
    (join ajayPuzA ajayPuzB).islanders =
      add_all_unique ajayPuzA.islanders ajayPuzB.islanders ∧
    lookupName (join ajayPuzA ajayPuzB).names 1 = "Ajay_1" := by
  have h := C9_join_rename_discipline ajayPuzA ajayPuzB (by decide)
    (by decide)
  refine ⟨h.1, ?_⟩
  have h2 := h.2.2.2.2 1 (by decide)
  exact h2
